import Mathlib

/-!
# Kama memory pool: central cache free lists and the v1 pool

A shallow embedding of `src/v2/src/CentralCache.cpp` (`CentralCache::fetchRange`,
`CentralCache::returnRange`, `CentralCache::fetchFromPageCache`) together with the
size-class arithmetic of the specification, and of the v1 pool of `src/MemoryPool.cpp`
(`MemoryPool::allocate`, `MemoryPool::deallocate`, `MemoryPool::allocateNewBlock`,
`MemoryPool::padPointer`, `MemoryPool::init`).

Modelling conventions.

* A pointer is a natural number, `0` is `nullptr`.
* The heap is a map from an address to the pointer-sized word read there (the "next slot"
  of a block); the code only ever reads and writes the first word of a block.  A store
  writes 8 bytes: it sets the word at its address and rewrites the bytes it shares with the
  words at the addresses less than 8 away (`store`; `store_wordAt` shows that this is what a
  memory of bytes does).  Addresses at least 8 apart (`Apart`), such as two different
  multiples of `ALIGNMENT`, name words that share no byte.
* `centralFreeList_` and `locks_` are arrays of `FREE_LIST_SIZE` entries; they are
  functions on the index, and the code only touches an entry after the range check.
  The cache object itself (and likewise the pool object of v1) is not part of the heap:
  no block lies inside these arrays.
* `PageCache::allocateSpan` is not part of the sources.  It is a parameter `pc`:
  given the page counts requested so far (most recent first) and the page count
  requested now, it answers with the base address of the span, or `0`.
  The state carries the list of page counts requested so far (`spanLog`).
* The spin loop `while (locks_[index].test_and_set(..)) yield;` is executed by a single
  thread: if the flag is already set nobody will clear it and the call never returns,
  which is the result `none`.
* The caller's code between two calls is a sequence of stores of pointer-sized words
  (`Op.write`, `Reachable.write`).
* Nothing inside the `try` blocks throws, so the `catch (...)` handlers are never entered;
  with a single thread the memory orders of the atomic accesses play no role.
* Pointer arithmetic stays inside the span handed out by the page cache, so addresses are
  not reduced modulo `2^64`; `size_t` computations that can overflow are.
-/

namespace Kama_memoryPool

/-- Modelled from the spec: `ALIGNMENT = 8` of the missing `Common.h`. -/
def ALIGNMENT : Nat := 8

/-- Modelled from the spec: `MAX_BYTES = 256 * 1024` of the missing `Common.h`. -/
def MAX_BYTES : Nat := 256 * 1024

/-- Modelled from the spec: `FREE_LIST_SIZE = MAX_BYTES / ALIGNMENT` of the missing `Common.h`. -/
def FREE_LIST_SIZE : Nat := MAX_BYTES / ALIGNMENT

/-- Modelled from the spec: `PAGE_SIZE = 4096` of the missing `PageCache.h`. -/
def PAGE_SIZE : Nat := 4096

/-- The constant `static const size_t SPAN_PAGES = 8;` of `CentralCache.cpp`. -/
def SPAN_PAGES : Nat := 8

/-- Modelled from the spec: `round_up(size) = ((size + ALIGNMENT - 1) / ALIGNMENT) * ALIGNMENT`
(the size-class arithmetic lives in the missing `Common.h`). -/
def round_up (size : Nat) : Nat := ((size + ALIGNMENT - 1) / ALIGNMENT) * ALIGNMENT

/-- Modelled from the spec: `index(size) = (round_up(size) / ALIGNMENT) - 1`
(the size-class arithmetic lives in the missing `Common.h`). -/
def index (size : Nat) : Nat := round_up size / ALIGNMENT - 1

/-- The heap: the pointer-sized word (8 bytes, least significant byte first) read at each
address, `*reinterpret_cast<void**>(a)`.  The words at two addresses less than 8 apart share
bytes. -/
abbrev Heap := Nat → Nat

/-- The words at `a` and `b` share no byte: the addresses are at least 8 bytes apart. -/
abbrev Apart (a b : Nat) : Prop := a + 8 ≤ b ∨ b + 8 ≤ a

/-- The assignment `*reinterpret_cast<void**>(a) = v`, a store of the 8 bytes of `v` at the
addresses `a, ..., a + 7`.  The word at `a` becomes `v`.  The word at `a + d` with
`0 < d < 8` gets the upper `8 - d` bytes of `v` as its lower bytes and keeps its upper `d`
bytes; the word at `a - d` keeps its lower `d` bytes and gets the lower `8 - d` bytes of `v`
as its upper bytes.  Words at least 8 bytes away keep their value. -/
def store (h : Heap) (a v : Nat) : Heap := fun x =>
  if x = a then v
  else if a < x ∧ x < a + 8 then
    v / 256 ^ (x - a) + h x / 256 ^ (8 - (x - a)) * 256 ^ (8 - (x - a))
  else if x < a ∧ a < x + 8 then
    h x % 256 ^ (a - x) + v % 256 ^ (8 - (a - x)) * 256 ^ (a - x)
  else h x

/-- The word that the eight bytes `m a, ..., m (a + 7)` of a byte memory spell, least
significant byte first. -/
def wordAt (m : Nat → Nat) : Heap := fun a =>
  m a + m (a + 1) * 256 + m (a + 2) * 256 ^ 2 + m (a + 3) * 256 ^ 3 + m (a + 4) * 256 ^ 4 +
    m (a + 5) * 256 ^ 5 + m (a + 6) * 256 ^ 6 + m (a + 7) * 256 ^ 7

/-- Writing the eight bytes of the word `v` into a byte memory at `a, ..., a + 7`, least
significant byte first. -/
def writeBytes (m : Nat → Nat) (a v : Nat) : Nat → Nat := fun x =>
  if a ≤ x ∧ x < a + 8 then v / 256 ^ (x - a) % 256 else m x

/-- Writing entry `i` of an array modelled as a function. -/
def setAt {α : Type} (f : Nat → α) (i : Nat) (v : α) : Nat → α := fun x => if x = i then v else f x

/-- State of the central cache, the heap it threads its lists through, and the page
counts it has requested from the page cache so far (most recent first). -/
structure CentralCache where
  centralFreeList_ : Nat → Nat
  locks_ : Nat → Bool
  heap : Heap
  spanLog : List Nat

/-- The call `PageCache::getInstance().allocateSpan(numPages)` against the page cache `pc`. -/
def allocateSpan (pc : List Nat → Nat → Nat) (st : CentralCache) (numPages : Nat) :
    Nat × CentralCache :=
  (pc st.spanLog numPages, { st with spanLog := numPages :: st.spanLog })

/-- The page count `CentralCache::fetchFromPageCache` passes to `allocateSpan`
(`size_t` arithmetic, modulo `2^64`). -/
def spanPagesFor (size : Nat) : Nat :=
  let numPages := ((size + PAGE_SIZE - 1) % 2 ^ 64) / PAGE_SIZE
  if size ≤ SPAN_PAGES * PAGE_SIZE then SPAN_PAGES else numPages

/-- The function `CentralCache::fetchFromPageCache`. -/
def fetchFromPageCache (pc : List Nat → Nat → Nat) (st : CentralCache) (size : Nat) :
    Nat × CentralCache :=
  let numPages := ((size + PAGE_SIZE - 1) % 2 ^ 64) / PAGE_SIZE
  if size ≤ SPAN_PAGES * PAGE_SIZE then
    allocateSpan pc st SPAN_PAGES
  else
    allocateSpan pc st numPages

/-- The loop `for (size_t i = 1; i < blockNum; ++i)` of `fetchRange`, which links block
`i - 1` to block `i`. -/
def carve (start size blockNum : Nat) (h : Heap) : Heap :=
  (List.range' 1 (blockNum - 1)).foldl
    (fun m i => store m (start + (i - 1) * size) (start + i * size)) h

/-- The function `CentralCache::fetchRange`.  The result is `none` when the spin loop never ends. -/
def fetchRange (pc : List Nat → Nat → Nat) (st : CentralCache) (index : Nat) :
    Option (Nat × CentralCache) :=
  if index ≥ FREE_LIST_SIZE then
    some (0, st)
  else if st.locks_ index = true then
    none
  else
    let st1 : CentralCache := { st with locks_ := setAt st.locks_ index true }
    let result := st1.centralFreeList_ index
    if result = 0 then
      let size := (index + 1) * ALIGNMENT
      let r := fetchFromPageCache pc st1 size
      let result := r.1
      let st2 := r.2
      if result = 0 then
        some (0, { st2 with locks_ := setAt st2.locks_ index false })
      else
        let start := result
        let blockNum := (SPAN_PAGES * PAGE_SIZE) / size
        if blockNum > 1 then
          let h1 := carve start size blockNum st2.heap
          let h2 := store h1 (start + (blockNum - 1) * size) 0
          let next := h2 result
          let h3 := store h2 result 0
          some (result, { st2 with
            heap := h3
            centralFreeList_ := setAt st2.centralFreeList_ index next
            locks_ := setAt st2.locks_ index false })
        else
          some (result, { st2 with locks_ := setAt st2.locks_ index false })
    else
      let next := st1.heap result
      let h := store st1.heap result 0
      some (result, { st1 with
        heap := h
        centralFreeList_ := setAt st1.centralFreeList_ index next
        locks_ := setAt st1.locks_ index false })

/-- The loop `while (*end != nullptr && count < size) { end = *end; count++; }` of
`returnRange`; the first argument bounds the number of iterations. -/
def walkEnd (h : Heap) (size : Nat) : Nat → Nat → Nat → Nat
  | 0, e, _ => e
  | fuel + 1, e, count =>
    if h e ≠ 0 ∧ count < size then walkEnd h size fuel (h e) (count + 1) else e

/-- The function `CentralCache::returnRange`.  The result is `none` when the spin loop never
ends.  The walk runs at most `size - 1` times, so `size` iterations are enough. -/
def returnRange (st : CentralCache) (start size index : Nat) : Option CentralCache :=
  if start = 0 ∨ index ≥ FREE_LIST_SIZE then
    some st
  else if st.locks_ index = true then
    none
  else
    let st1 : CentralCache := { st with locks_ := setAt st.locks_ index true }
    let e := walkEnd st1.heap size size start 1
    let current := st1.centralFreeList_ index
    let h := store st1.heap e current
    some { st1 with
      heap := h
      centralFreeList_ := setAt st1.centralFreeList_ index start
      locks_ := setAt st1.locks_ index false }

/-- The blocks of a null-terminated chain: `IsChain h p l` says that following the next
words from `p` visits exactly the blocks of `l`, in order, and then reaches null. -/
def IsChain (h : Heap) : Nat → List Nat → Prop
  | p, [] => p = 0
  | p, b :: bs => p = b ∧ b ≠ 0 ∧ IsChain h (h b) bs

/-- The blocks the walk of `returnRange` passes, the last one being the block whose next
word is overwritten. -/
def walked (h : Heap) (size : Nat) : Nat → Nat → Nat → List Nat
  | 0, e, _ => [e]
  | fuel + 1, e, count =>
    if h e ≠ 0 ∧ count < size then e :: walked h size fuel (h e) (count + 1) else [e]

/-- The heap `fetchRange` leaves behind when it carves a span of `blockNum > 1` blocks:
the linking loop, the null written into the last block, and the null written into the
block that is handed out. -/
def refillHeap (start size blockNum : Nat) (h : Heap) : Heap :=
  store (store (carve start size blockNum h) (start + (blockNum - 1) * size) 0) start 0

/-- The blocks `start + i * size` for `first ≤ i < first + n`. -/
def blocksOf (start size first n : Nat) : List Nat :=
  (List.range' first n).map (fun i => start + i * size)

/-- The block size of a size class, `size_t size = (index + 1) * ALIGNMENT` in `fetchRange`. -/
def blockSize (index : Nat) : Nat := (index + 1) * ALIGNMENT

/-- The number of blocks `fetchRange` carves for a class,
`size_t blockNum = (SPAN_PAGES * PageCache::PAGE_SIZE) / size`. -/
def blockNum (index : Nat) : Nat := (SPAN_PAGES * PAGE_SIZE) / blockSize index

/-- The answer of the page cache to the span request `fetchRange` makes for a class in
state `st`. -/
def spanBase (pc : List Nat → Nat → Nat) (st : CentralCache) (index : Nat) : Nat :=
  pc st.spanLog (spanPagesFor (blockSize index))

/-- The central cache before any call: every list empty, every flag clear, no span
requested; the heap holds zeroes. -/
def emptyCache : CentralCache where
  centralFreeList_ := fun _ => 0
  locks_ := fun _ => false
  heap := fun _ => 0
  spanLog := []

/-- A page cache that hands out consecutive spans, the first one at address `PAGE_SIZE`. -/
def freshSpans (log : List Nat) (_numPages : Nat) : Nat := PAGE_SIZE * (1 + log.sum)

/-- A page cache that answers the first two requests with the same span at `4096` and every
later one with a span of its own. -/
def reusingSpans (log : List Nat) (_numPages : Nat) : Nat :=
  if log.length < 2 then 4096 else 4096 * (1 + 8 * log.length)

/-- An empty central cache over a heap that still holds old data: the word at `4096` is
`48879`. -/
def staleCache : CentralCache where
  centralFreeList_ := fun _ => 0
  locks_ := fun _ => false
  heap := store (fun _ => 0) 4096 48879
  spanLog := []

/-- The central cache whose class 0 list is the single block `4096`, the state reached from
`emptyCache` by `returnRange(4096, 1, 0)`. -/
def onceReturned : CentralCache where
  centralFreeList_ := fun i => if i = 0 then 4096 else 0
  locks_ := fun _ => false
  heap := fun _ => 0
  spanLog := []

/-- Every class list is a finite chain of pairwise distinct blocks ending in null. -/
def Acyclic (st : CentralCache) : Prop :=
  ∀ i, i < FREE_LIST_SIZE → ∃ l, IsChain st.heap (st.centralFreeList_ i) l ∧ l.Nodup

/-- The span the page cache hands out when `fetchRange` finds the class list empty holds no
block of any class list. -/
def SpanFresh (pc : List Nat → Nat → Nat) (st : CentralCache) (index : Nat) : Prop :=
  st.centralFreeList_ index = 0 →
    ∀ i, i < FREE_LIST_SIZE → ∀ l, IsChain st.heap (st.centralFreeList_ i) l → ∀ b ∈ l,
      b < spanBase pc st index ∨
        spanBase pc st index + spanPagesFor (blockSize index) * PAGE_SIZE ≤ b

/-- The blocks the walk of `returnRange(start, count, index)` passes (on a null-terminated
chain of `L` blocks, its first `min(L, max(count, 1))` blocks) are pairwise distinct and
none of them is in the class list.  A call with a null start or an index out of range does
not walk. -/
def ReturnFresh (st : CentralCache) (start count index : Nat) : Prop :=
  start ≠ 0 → index < FREE_LIST_SIZE →
    (walked st.heap count count start 1).Nodup ∧
      ∀ l, IsChain st.heap (st.centralFreeList_ index) l →
        ∀ b ∈ walked st.heap count count start 1, b ∉ l

/-- Every block on a class list is a multiple of `ALIGNMENT`. -/
def AlignedLists (st : CentralCache) : Prop :=
  ∀ i, i < FREE_LIST_SIZE → ∀ l, IsChain st.heap (st.centralFreeList_ i) l →
    ∀ b ∈ l, ALIGNMENT ∣ b

/-- The span the page cache hands out when `fetchRange` finds the class list empty starts
at a multiple of `ALIGNMENT`. -/
def SpanAligned (pc : List Nat → Nat → Nat) (st : CentralCache) (index : Nat) : Prop :=
  st.centralFreeList_ index = 0 → ALIGNMENT ∣ spanBase pc st index

/-- The blocks the walk of `returnRange(start, count, index)` passes are multiples of
`ALIGNMENT`.  A call with a null start or an index out of range does not walk. -/
def ReturnAligned (st : CentralCache) (start count index : Nat) : Prop :=
  start ≠ 0 → index < FREE_LIST_SIZE →
    ∀ b ∈ walked st.heap count count start 1, ALIGNMENT ∣ b

/-- The blocks that are on some class list: reachable from a list head by next words. -/
inductive Linked (st : CentralCache) : Nat → Prop
  | head (i : Nat) : i < FREE_LIST_SIZE → st.centralFreeList_ i ≠ 0 →
      Linked st (st.centralFreeList_ i)
  | next (b : Nat) : Linked st b → st.heap b ≠ 0 → Linked st (st.heap b)

/-- The states reached from the all-null initial state by calls of `fetchRange` and
`returnRange` that meet `SpanFresh`, `SpanAligned`, `ReturnFresh` and `ReturnAligned`, and
by stores of the caller that share no byte with the next word of a listed block. -/
inductive Reachable (pc : List Nat → Nat → Nat) : CentralCache → Prop
  | init (h : Heap) : Reachable pc ⟨fun _ => 0, fun _ => false, h, []⟩
  | fetch (st st1 : CentralCache) (index r : Nat) :
      Reachable pc st → SpanFresh pc st index → SpanAligned pc st index →
      fetchRange pc st index = some (r, st1) → Reachable pc st1
  | give (st st1 : CentralCache) (start count index : Nat) :
      Reachable pc st → ReturnFresh st start count index →
      ReturnAligned st start count index →
      returnRange st start count index = some st1 → Reachable pc st1
  | write (st : CentralCache) (a v : Nat) :
      Reachable pc st → (∀ b, Linked st b → Apart b a) →
      Reachable pc { st with heap := store st.heap a v }

/-- The calls `fetchRange(index)` made `n` times in a row; the blocks returned, in call
order. -/
def fetchMany (pc : List Nat → Nat → Nat) (index : Nat) :
    Nat → CentralCache → Option (List Nat × CentralCache)
  | 0, st => some ([], st)
  | n + 1, st =>
    match fetchRange pc st index with
    | none => none
    | some (r, st1) =>
      match fetchMany pc index n st1 with
      | none => none
      | some (rs, st2) => some (r :: rs, st2)

/-- Giving blocks back one at a time: `returnRange(b, 1, index)` for each `b`, in order. -/
def returnEach (index : Nat) : List Nat → CentralCache → Option CentralCache
  | [], st => some st
  | b :: bs, st =>
    match returnRange st b 1 index with
    | none => none
    | some st1 => returnEach index bs st1

/-- A stretch of a list: following the next words from `p` visits the blocks of `l`, in
order, and then reaches `q`. -/
def IsSeg (h : Heap) : Nat → List Nat → Nat → Prop
  | p, [], q => p = q
  | p, b :: bs, q => p = b ∧ b ≠ 0 ∧ IsSeg h (h b) bs q

/-- The spans the page cache handed out for the requests `log` (most recent first) that were
made after the requests `old`: base address and page count of each. -/
def spansHanded (pc : List Nat → Nat → Nat) (old : List Nat) : List Nat → List (Nat × Nat)
  | [] => []
  | n :: log => (pc (log ++ old) n, n) :: spansHanded pc old log

/-- Two spans, given by base address and page count, share no byte. -/
abbrev SpansDisjoint (a b : Nat × Nat) : Prop :=
  a.1 + a.2 * PAGE_SIZE ≤ b.1 ∨ b.1 + b.2 * PAGE_SIZE ≤ a.1

/-- The byte ranges `[p, p + s)` and `[q, q + s)` share no byte. -/
abbrev RangesDisjoint (s p q : Nat) : Prop := p + s ≤ q ∨ q + s ≤ p

/-- The blocks `fetchRange` makes of a span at `base` for a class: the `blockNum` blocks it
carves, or the span base alone when it carves none. -/
def spanBlocks (index base : Nat) : List Nat :=
  blocksOf base (blockSize index) 0 (max (blockNum index) 1)

/-- The blocks made of a list of spans (most recent span first), oldest span first. -/
def allBlocks (index : Nat) : List (Nat × Nat) → List Nat
  | [] => []
  | sp :: rest => allBlocks index rest ++ spanBlocks index sp.1

/-- A step of a run: a call made on the central cache, or a store of the caller.  The step
`write a v` is an assignment of the pointer-sized word `v` to the address `a` in the
caller's code, such as the link a thread cache writes into a block before it returns a
chain of blocks. -/
inductive Op where
  | fetch (index : Nat)
  | give (start count index : Nat)
  | write (addr value : Nat)

/-- A run of steps made in order; the results of the `fetchRange` calls, in call order. -/
def run (pc : List Nat → Nat → Nat) : List Op → CentralCache → Option (List Nat × CentralCache)
  | [], st => some ([], st)
  | Op.write a v :: ops, st => run pc ops { st with heap := store st.heap a v }
  | Op.fetch index :: ops, st =>
    match fetchRange pc st index with
    | none => none
    | some (r, st1) =>
      match run pc ops st1 with
      | none => none
      | some (rs, st2) => some (r :: rs, st2)
  | Op.give start count index :: ops, st =>
    match returnRange st start count index with
    | none => none
    | some st1 => run pc ops st1

/-- Every `returnRange` call of the run gives back previously fetched blocks only: each
block its walk passes was returned by an earlier `fetchRange` call of the run (or is in
`got`, the blocks fetched before the run).  A call with a null start or an index out of
range does not walk. -/
def ReturnsFetched (pc : List Nat → Nat → Nat) : List Op → CentralCache → List Nat → Prop
  | [], _, _ => True
  | Op.write a v :: ops, st, got =>
    ReturnsFetched pc ops { st with heap := store st.heap a v } got
  | Op.fetch index :: ops, st, got =>
    match fetchRange pc st index with
    | none => True
    | some (r, st1) => ReturnsFetched pc ops st1 (r :: got)
  | Op.give start count index :: ops, st, got =>
    (start ≠ 0 → index < FREE_LIST_SIZE →
        ∀ b ∈ walked st.heap count count start 1, b ∈ got) ∧
      match returnRange st start count index with
      | none => True
      | some st1 => ReturnsFetched pc ops st1 got

/-- Every store of the caller in the run goes to memory the cache does not hold: it shares
no byte with the next word of a block that is on a class list at that moment. -/
def StoresOutside (pc : List Nat → Nat → Nat) : List Op → CentralCache → Prop
  | [], _ => True
  | Op.write a v :: ops, st =>
    (∀ b, Linked st b → Apart b a) ∧
      StoresOutside pc ops { st with heap := store st.heap a v }
  | Op.fetch index :: ops, st =>
    match fetchRange pc st index with
    | none => True
    | some (_, st1) => StoresOutside pc ops st1
  | Op.give start count index :: ops, st =>
    match returnRange st start count index with
    | none => True
    | some st1 => StoresOutside pc ops st1

/-- The run in which a block of 16384 bytes is fetched, given back twice, fetched again and
used by the caller, who stores the word `4097` in it; two more blocks are then fetched. -/
def doubleReturnRun : List Op :=
  [Op.fetch 2047, Op.give 4096 1 2047, Op.give 4096 1 2047, Op.fetch 2047,
    Op.write 4096 4097, Op.fetch 2047, Op.fetch 2047]

/-- The run in which three blocks of 16384 bytes are fetched, the caller stores the word
`4097` in the second, and two more blocks are fetched; no block is given back. -/
def reusedSpanRun : List Op :=
  [Op.fetch 2047, Op.fetch 2047, Op.fetch 2047, Op.write 20480 4097, Op.fetch 2047,
    Op.fetch 2047]

/-- The run in which two blocks of 16384 bytes are fetched, the caller links the first to
the second and gives the chain of two back in one call, and two blocks are fetched again. -/
def batchReturnRun : List Op :=
  [Op.fetch 2047, Op.fetch 2047, Op.write 4096 20480, Op.give 4096 2 2047, Op.fetch 2047,
    Op.fetch 2047]

/-- The quotient rounded up, `ceil(a / b)`. -/
def ceilDiv (a b : Nat) : Nat := (a + b - 1) / b

/-- A central cache in which the lists of class 0 and class 1 are the same chain
`4096, 8192`, as left by returning that chain to both classes. -/
def sharedLists : CentralCache where
  centralFreeList_ := fun i => if i = 0 ∨ i = 1 then 4096 else 0
  locks_ := fun _ => false
  heap := store (fun _ => 0) 4096 8192
  spanLog := []

/-- A central cache whose class 0 list is `17592186048512, 4100` (`0x100000001000` and
`0x1004`): two blocks that are far apart. -/
def farLists : CentralCache where
  centralFreeList_ := fun i => if i = 0 then 17592186048512 else 0
  locks_ := fun _ => false
  heap := store (fun _ => 0) 17592186048512 4100
  spanLog := []

/-! ## The v1 pool of `src/MemoryPool.cpp`

`MemoryPool.h` is not part of the sources.  A `Slot` holds one pointer (`next`), so
`sizeof(Slot)` and `sizeof(Slot*)` are one machine word.  `operator new` is a parameter
`opNew`: given the sizes requested so far (most recent first) and the size requested now, it
answers with the address of the block; the state carries the sizes requested so far
(`newLog`).  The two mutexes are taken and released by `std::lock_guard` within one call and
play no role with a single thread. -/

/-- Modelled from the spec: a free block holds one machine word, the pointer to the next free
block; this is `sizeof(Slot)` and `sizeof(Slot*)` of the missing `MemoryPool.h`. -/
def sizeofSlot : Nat := 8

/-- State of a v1 `MemoryPool`, the heap it threads its free list through, and the sizes it
has requested from `operator new` so far (most recent first). -/
structure MemoryPool where
  BlockSize_ : Nat
  SlotSize_ : Nat
  firstBlock_ : Nat
  curSlot_ : Nat
  freeList_ : Nat
  lastSlot_ : Nat
  heap : Heap
  newLog : List Nat

/-- The function `MemoryPool::padPointer`: `(align - reinterpret_cast<size_t>(p)) % align` in
`size_t` arithmetic, the difference taken modulo `2^64`. -/
def MemoryPool.padPointer (p align : Nat) : Nat :=
  ((align + (2 ^ 64 - p % 2 ^ 64)) % 2 ^ 64) % align

/-- The padding formula the spec recommends, `(align - addr % align) % align`. -/
def padRecommended (addr align : Nat) : Nat := (align - addr % align) % align

/-- The function `MemoryPool::init`. -/
def MemoryPool.init (st : MemoryPool) (size : Nat) : MemoryPool :=
  { st with SlotSize_ := size, firstBlock_ := 0, curSlot_ := 0, freeList_ := 0, lastSlot_ := 0 }

/-- The slot size `(i + 1) * SLOT_BASE_SIZE` that `HashBucket::initMemoryPool` passes to
`init` for pool `i`; `SLOT_BASE_SIZE` of the missing `MemoryPool.h` is a parameter. -/
def HashBucket.slotSize (slotBaseSize i : Nat) : Nat := (i + 1) * slotBaseSize

/-- The function `MemoryPool::allocateNewBlock`; `lastSlot_` is computed in `size_t`
arithmetic. -/
def MemoryPool.allocateNewBlock (opNew : List Nat → Nat → Nat) (st : MemoryPool) : MemoryPool :=
  let newBlock := opNew st.newLog st.BlockSize_
  let heap1 := store st.heap newBlock st.firstBlock_
  let body := newBlock + sizeofSlot
  let paddingSize := MemoryPool.padPointer body st.SlotSize_
  { st with
    newLog := st.BlockSize_ :: st.newLog
    heap := heap1
    firstBlock_ := newBlock
    curSlot_ := body + paddingSize
    lastSlot_ := (newBlock + st.BlockSize_ + (2 ^ 64 - st.SlotSize_ % 2 ^ 64) + 1) % 2 ^ 64
    freeList_ := 0 }

/-- The function `MemoryPool::allocate`: the slot returned and the state afterwards.
`curSlot_` is a `Slot*`, so `curSlot_ += SlotSize_ / sizeof(Slot)` moves it by
`(SlotSize_ / sizeof(Slot)) * sizeof(Slot)` bytes. -/
def MemoryPool.allocate (opNew : List Nat → Nat → Nat) (st : MemoryPool) : Nat × MemoryPool :=
  let fromBlock : Nat × MemoryPool :=
    let st1 := if st.curSlot_ ≥ st.lastSlot_ then MemoryPool.allocateNewBlock opNew st else st
    let temp := st1.curSlot_
    (temp, { st1 with curSlot_ := st1.curSlot_ + (st1.SlotSize_ / sizeofSlot) * sizeofSlot })
  if st.freeList_ ≠ 0 then
    if st.freeList_ ≠ 0 then
      let temp := st.freeList_
      (temp, { st with freeList_ := st.heap st.freeList_ })
    else fromBlock
  else fromBlock

/-- The function `MemoryPool::deallocate`. -/
def MemoryPool.deallocate (st : MemoryPool) (ptr : Nat) : MemoryPool :=
  if ptr ≠ 0 then
    { st with heap := store st.heap ptr st.freeList_, freeList_ := ptr }
  else st

/-- The calls `deallocate(p)` for each `p`, in order. -/
def MemoryPool.deallocateAll : List Nat → MemoryPool → MemoryPool
  | [], st => st
  | p :: ps, st => MemoryPool.deallocateAll ps (st.deallocate p)

/-- The call `allocate()` made `n` times in a row; the slots returned, in call order. -/
def MemoryPool.allocateMany (opNew : List Nat → Nat → Nat) :
    Nat → MemoryPool → List Nat × MemoryPool
  | 0, st => ([], st)
  | n + 1, st =>
    let r := MemoryPool.allocate opNew st
    let rest := MemoryPool.allocateMany opNew n r.2
    (r.1 :: rest.1, rest.2)

/-- A pool of 24-byte slots (pool 2 of the hash bucket) with blocks of 4096 bytes, before its
first allocation. -/
def pool24 : MemoryPool :=
  MemoryPool.init ⟨4096, 0, 0, 0, 0, 0, fun _ => 0, []⟩ (HashBucket.slotSize 8 2)

/-- The pool has no slot left in its current block (as after `init`), or it hands out slots
of the block at `firstBlock_`: `lastSlot_` is the bound `allocateNewBlock` computed for that
block and `curSlot_` lies behind the block's link word. -/
def MemoryPool.InBlock (st : MemoryPool) : Prop :=
  st.lastSlot_ ≤ st.curSlot_ ∨
    (st.lastSlot_ = st.firstBlock_ + st.BlockSize_ - st.SlotSize_ + 1 ∧
      st.firstBlock_ + sizeofSlot ≤ st.curSlot_)

/-- A pool of 8-byte slots (pool 0 of the hash bucket) with blocks of 4096 bytes, before its
first allocation. -/
def pool8 : MemoryPool :=
  MemoryPool.init ⟨4096, 0, 0, 0, 0, 0, fun _ => 0, []⟩ (HashBucket.slotSize 8 0)

/-- The pool `pool8` after `allocate()`, which returned the slot `4104` of a block at `4096`,
and `deallocate(4104)`: the free list is the single slot `4104`. -/
def freedOnce : MemoryPool :=
  (MemoryPool.allocate (fun _ _ => 4096) pool8).2.deallocate 4104

/-! ## Words and arrays -/

theorem store_same (h : Heap) (a v : Nat) : store h a v a = v := by
  simp [store]

theorem store_other (h : Heap) (a v x : Nat) (hx : Apart x a) : store h a v x = h x := by
  have hx1 : x + 8 ≤ a ∨ a + 8 ≤ x := hx
  unfold store
  rw [if_neg (by omega), if_neg (by omega), if_neg (by omega)]

theorem apart_symm (a b : Nat) (h : Apart a b) : Apart b a := Or.symm h

theorem apart_ne (a b : Nat) (h : Apart a b) : a ≠ b := by
  have h1 : a + 8 ≤ b ∨ b + 8 ≤ a := h
  omega

/-- Two different multiples of `ALIGNMENT` are at least 8 bytes apart. -/
theorem apart_of_aligned (a b : Nat) (ha : ALIGNMENT ∣ a) (hb : ALIGNMENT ∣ b) (hne : a ≠ b) :
    Apart a b := by
  obtain ⟨m, rfl⟩ := ha
  obtain ⟨n, rfl⟩ := hb
  show ALIGNMENT * m + 8 ≤ ALIGNMENT * n ∨ ALIGNMENT * n + 8 ≤ ALIGNMENT * m
  unfold ALIGNMENT at *
  omega

theorem writeBytes_at (m : Nat → Nat) (a v k : Nat) (hk : k < 8) :
    writeBytes m a v (a + k) = v / 256 ^ k % 256 := by
  unfold writeBytes
  rw [if_pos (by omega), Nat.add_sub_cancel_left]

theorem writeBytes_off (m : Nat → Nat) (a v x : Nat) (h : x < a ∨ a + 8 ≤ x) :
    writeBytes m a v x = m x := by
  unfold writeBytes
  rw [if_neg (by omega)]

/-- The model of the heap agrees with a memory of bytes: storing the 8 bytes of `v` at `a`
changes the word read at each address exactly as `store` says. -/
theorem store_wordAt (m : Nat → Nat) (a v : Nat) (hm : ∀ x, m x < 256) (hv : v < 2 ^ 64) :
    wordAt (writeBytes m a v) = store (wordAt m) a v := by
  funext x
  have b0 := hm x
  have b1 := hm (x + 1)
  have b2 := hm (x + 2)
  have b3 := hm (x + 3)
  have b4 := hm (x + 4)
  have b5 := hm (x + 5)
  have b6 := hm (x + 6)
  have b7 := hm (x + 7)
  by_cases h1 : x = a
  · subst h1
    have e0 := writeBytes_at m x v 0 (by omega)
    rw [Nat.add_zero] at e0
    unfold wordAt store
    rw [if_pos rfl, e0, writeBytes_at m x v 1 (by omega), writeBytes_at m x v 2 (by omega),
      writeBytes_at m x v 3 (by omega), writeBytes_at m x v 4 (by omega),
      writeBytes_at m x v 5 (by omega), writeBytes_at m x v 6 (by omega),
      writeBytes_at m x v 7 (by omega)]
    omega
  · by_cases h2 : a < x ∧ x < a + 8
    · obtain ⟨d, rfl⟩ : ∃ d, x = a + d := ⟨x - a, by omega⟩
      have hd : 1 ≤ d ∧ d ≤ 7 := by omega
      have hb : ∀ i, i < 8 → writeBytes m a v (a + d + i) =
          if d + i < 8 then v / 256 ^ (d + i) % 256 else m (a + d + i) := by
        intro i hi
        unfold writeBytes
        by_cases hid : d + i < 8
        · rw [if_pos (by omega), if_pos hid]
          have he : a + d + i - a = d + i := by omega
          rw [he]
        · rw [if_neg (by omega), if_neg hid]
      have e0 := hb 0 (by omega)
      rw [Nat.add_zero, Nat.add_zero] at e0
      unfold store
      rw [if_neg h1, if_pos h2, Nat.add_sub_cancel_left]
      unfold wordAt
      rw [e0, hb 1 (by omega), hb 2 (by omega), hb 3 (by omega), hb 4 (by omega),
        hb 5 (by omega), hb 6 (by omega), hb 7 (by omega)]
      obtain ⟨hd1, hd7⟩ := hd
      interval_cases d <;>
        simp only [Nat.reduceLT, Nat.reduceAdd, Nat.reduceSub, Nat.reducePow, if_true,
          if_false, ite_true, ite_false, Nat.lt_irrefl] <;>
        omega
    · by_cases h3 : x < a ∧ a < x + 8
      · obtain ⟨d, rfl⟩ : ∃ d, a = x + d := ⟨a - x, by omega⟩
        have hd : 1 ≤ d ∧ d ≤ 7 := by omega
        have hb : ∀ i, i < 8 → writeBytes m (x + d) v (x + i) =
            if i < d then m (x + i) else v / 256 ^ (i - d) % 256 := by
          intro i hi
          unfold writeBytes
          by_cases hid : i < d
          · rw [if_neg (by omega), if_pos hid]
          · rw [if_pos (by omega), if_neg hid]
            have he : x + i - (x + d) = i - d := by omega
            rw [he]
        have e0 := hb 0 (by omega)
        rw [Nat.add_zero] at e0
        unfold store
        rw [if_neg h1, if_neg h2, if_pos h3, Nat.add_sub_cancel_left]
        unfold wordAt
        rw [e0, hb 1 (by omega), hb 2 (by omega), hb 3 (by omega), hb 4 (by omega),
          hb 5 (by omega), hb 6 (by omega), hb 7 (by omega)]
        obtain ⟨hd1, hd7⟩ := hd
        interval_cases d <;>
          simp only [Nat.reduceLT, Nat.reduceSub, Nat.reducePow, if_true, if_false, ite_true,
            ite_false, Nat.lt_irrefl, Nat.div_one] <;>
          omega
      · unfold store
        rw [if_neg h1, if_neg h2, if_neg h3]
        unfold wordAt
        rw [writeBytes_off m a v x (by omega), writeBytes_off m a v (x + 1) (by omega),
          writeBytes_off m a v (x + 2) (by omega), writeBytes_off m a v (x + 3) (by omega),
          writeBytes_off m a v (x + 4) (by omega), writeBytes_off m a v (x + 5) (by omega),
          writeBytes_off m a v (x + 6) (by omega), writeBytes_off m a v (x + 7) (by omega)]

theorem setAt_same {α : Type} (f : Nat → α) (i : Nat) (v : α) : setAt f i v i = v := by
  simp [setAt]

theorem setAt_other {α : Type} (f : Nat → α) (i : Nat) (v : α) (x : Nat) (hx : x ≠ i) :
    setAt f i v x = f x := by
  simp [setAt, hx]

theorem setAt_release (f : Nat → Bool) (i : Nat) (hf : f i = false) :
    setAt (setAt f i true) i false = f := by
  funext x
  by_cases hx : x = i
  · subst hx; simp [setAt, hf]
  · simp [setAt, hx]

/-! ## Null-terminated chains -/

theorem isChain_unique (h : Heap) :
    ∀ (l1 l2 : List Nat) (p : Nat), IsChain h p l1 → IsChain h p l2 → l1 = l2 := by
  intro l1
  induction l1 with
  | nil =>
    intro l2 p h1 h2
    cases l2 with
    | nil => rfl
    | cons c cs =>
      obtain ⟨hpc, hc, _⟩ := h2
      exact absurd (hpc.symm.trans h1) hc
  | cons b bs ih =>
    intro l2 p h1 h2
    obtain ⟨hpb, hb, hrest⟩ := h1
    cases l2 with
    | nil => exact absurd (hpb.symm.trans h2) hb
    | cons c cs =>
      obtain ⟨hpc, _, hrest2⟩ := h2
      have hbc : b = c := hpb.symm.trans hpc
      subst hbc
      rw [ih cs _ hrest hrest2]

theorem isChain_congr (h g : Heap) :
    ∀ (l : List Nat) (p : Nat), (∀ b ∈ l, g b = h b) → IsChain h p l → IsChain g p l := by
  intro l
  induction l with
  | nil => intro p _ hc; exact hc
  | cons b bs ih =>
    intro p hg hc
    obtain ⟨hpb, hb, hrest⟩ := hc
    refine ⟨hpb, hb, ?_⟩
    rw [hg b (List.mem_cons_self b bs)]
    exact ih _ (fun x hx => hg x (List.mem_cons_of_mem b hx)) hrest

theorem isChain_store_of_apart (h : Heap) (a v : Nat) (l : List Nat) (p : Nat)
    (ha : ∀ b ∈ l, Apart b a) (hc : IsChain h p l) : IsChain (store h a v) p l := by
  apply isChain_congr h _ l p _ hc
  intro b hb
  exact store_other _ _ _ _ (ha b hb)

theorem isChain_suffix (h : Heap) :
    ∀ (l : List Nat) (p x : Nat), IsChain h p l → x ∈ l →
      ∃ pre post, l = pre ++ x :: post ∧ IsChain h x (x :: post) := by
  intro l
  induction l with
  | nil => intro p x _ hx; simp at hx
  | cons b bs ih =>
    intro p x hc hx
    obtain ⟨hpb, hb, hrest⟩ := hc
    rcases List.mem_cons.mp hx with hxb | hxb
    · subst hxb
      exact ⟨[], bs, rfl, rfl, hb, hrest⟩
    · obtain ⟨pre, post, hl, hch⟩ := ih _ x hrest hxb
      exact ⟨b :: pre, post, by rw [hl]; rfl, hch⟩

theorem isChain_nodup (h : Heap) : ∀ (l : List Nat) (p : Nat), IsChain h p l → l.Nodup := by
  intro l
  induction l with
  | nil => intro p _; exact List.nodup_nil
  | cons b bs ih =>
    intro p hc
    have hc0 := hc
    obtain ⟨hpb, hb, hrest⟩ := hc
    refine List.nodup_cons.mpr ⟨?_, ih _ hrest⟩
    intro hmem
    obtain ⟨pre, post, hl, hch⟩ := isChain_suffix h bs _ b hrest hmem
    have hc1 : IsChain h b (b :: bs) := ⟨rfl, hb, hrest⟩
    have heq := isChain_unique h _ _ b hc1 hch
    have hlen : bs.length = post.length := by
      have := congrArg List.length heq
      simpa using this
    have hlen2 : bs.length = pre.length + (post.length + 1) := by
      have := congrArg List.length hl
      simpa using this
    omega

/-- Overwriting the next word of one block with a pointer to a chain that keeps clear of the
block leaves every chain null-terminated, if the blocks of the chain are the block itself or
keep clear of it; the new chain is made of blocks of the two chains. -/
theorem isChain_reroute (h : Heap) (x v : Nat) (l2 : List Nat)
    (hv : IsChain h v l2) (hx : ∀ b ∈ l2, Apart b x) :
    ∀ (l : List Nat) (p : Nat), (∀ b ∈ l, b = x ∨ Apart b x) → IsChain h p l →
      ∃ l1, IsChain (store h x v) p l1 ∧ ∀ b ∈ l1, b ∈ l ∨ b ∈ l2 := by
  intro l
  induction l with
  | nil => intro p _ hc; exact ⟨[], hc, fun b hb => Or.inl hb⟩
  | cons b bs ih =>
    intro p hl hc
    obtain ⟨hpb, hb, hrest⟩ := hc
    by_cases hbx : b = x
    · refine ⟨b :: l2, ⟨hpb, hb, ?_⟩, ?_⟩
      · rw [hbx, store_same]
        exact isChain_store_of_apart h x v l2 v hx hv
      · intro c hc
        rcases List.mem_cons.mp hc with hc | hc
        · left; rw [hc]; exact List.mem_cons_self b bs
        · right; exact hc
    · obtain ⟨l1, hl1, hsub⟩ := ih _ (fun c hc => hl c (List.mem_cons_of_mem b hc)) hrest
      refine ⟨b :: l1, ⟨hpb, hb, ?_⟩, ?_⟩
      · rw [store_other h x v b ((hl b (List.mem_cons_self b bs)).resolve_left hbx)]
        exact hl1
      · intro c hc
        rcases List.mem_cons.mp hc with hc | hc
        · left; rw [hc]; exact List.mem_cons_self b bs
        · rcases hsub c hc with h1 | h1
          · left; exact List.mem_cons_of_mem b h1
          · right; exact h1

/-! ## Carving a span -/

theorem addr_apart (start size i j : Nat) (hs : 8 ≤ size) (hij : i ≠ j) :
    Apart (start + i * size) (start + j * size) := by
  show start + i * size + 8 ≤ start + j * size ∨ start + j * size + 8 ≤ start + i * size
  rcases Nat.lt_or_gt_of_ne hij with h | h
  · left
    have h1 : (i + 1) * size ≤ j * size := Nat.mul_le_mul_right _ h
    have h2 : (i + 1) * size = i * size + size := by ring
    omega
  · right
    have h1 : (j + 1) * size ≤ i * size := Nat.mul_le_mul_right _ h
    have h2 : (j + 1) * size = j * size + size := by ring
    omega

theorem carve_loop (start size : Nat) (hs : 8 ≤ size) (h : Heap) :
    ∀ n : Nat,
      (∀ j, j < n →
        (List.range' 1 n).foldl (fun m i => store m (start + (i - 1) * size) (start + i * size)) h
          (start + j * size) = start + (j + 1) * size) ∧
      (∀ x, (∀ j, j < n → Apart x (start + j * size)) →
        (List.range' 1 n).foldl (fun m i => store m (start + (i - 1) * size) (start + i * size)) h
          x = h x) := by
  intro n
  induction n with
  | zero =>
    refine ⟨fun j hj => absurd hj (Nat.not_lt_zero j), fun x _ => ?_⟩
    simp
  | succ n ih =>
    have hr : List.range' 1 (n + 1) = List.range' 1 n ++ [1 + n] := by
      rw [List.range'_concat]; simp
    rw [hr, List.foldl_append]
    simp only [List.foldl_cons, List.foldl_nil]
    have hsub : 1 + n - 1 = n := by omega
    rw [hsub]
    constructor
    · intro j hj
      by_cases hjn : j = n
      · subst hjn
        rw [store_same]; ring
      · have hlt : j < n := by omega
        rw [store_other _ _ _ _ (addr_apart start size j n hs hjn)]
        exact ih.1 j hlt
    · intro x hx
      rw [store_other _ _ _ _ (hx n (Nat.lt_succ_self n))]
      exact ih.2 x (fun j hj => hx j (Nat.lt_succ_of_lt hj))

theorem refillHeap_start (start size k : Nat) (h : Heap) :
    refillHeap start size k h start = 0 := by
  simp [refillHeap, store_same]

theorem start_apart (start size j : Nat) (hs : 8 ≤ size) (hj : 1 ≤ j) :
    Apart (start + j * size) start := by
  have h := addr_apart start size j 0 hs (by omega)
  simpa using h

theorem refillHeap_last (start size k : Nat) (hs : 8 ≤ size) (hk : 1 < k) (h : Heap) :
    refillHeap start size k h (start + (k - 1) * size) = 0 := by
  unfold refillHeap
  rw [store_other _ _ _ _ (start_apart start size (k - 1) hs (by omega)), store_same]

theorem refillHeap_link (start size k : Nat) (hs : 8 ≤ size) (h : Heap) (j : Nat)
    (hj1 : 1 ≤ j) (hj2 : j + 1 < k) :
    refillHeap start size k h (start + j * size) = start + (j + 1) * size := by
  unfold refillHeap
  rw [store_other _ _ _ _ (start_apart start size j hs hj1),
    store_other _ _ _ _ (addr_apart start size j (k - 1) hs (by omega))]
  exact (carve_loop start size hs h (k - 1)).1 j (by omega)

theorem refillHeap_other (start size k : Nat) (hs : 8 ≤ size) (h : Heap) (x : Nat)
    (hx : ∀ j, j < k → Apart x (start + j * size)) (hk : 1 < k) :
    refillHeap start size k h x = h x := by
  unfold refillHeap
  have hne : Apart x start := by
    have := hx 0 (by omega)
    simpa using this
  rw [store_other _ _ _ _ hne, store_other _ _ _ _ (hx (k - 1) (by omega))]
  exact (carve_loop start size hs h (k - 1)).2 x (fun j hj => hx j (by omega))

theorem refill_head (start size k : Nat) (hs : 8 ≤ size) (hk : 1 < k) (h : Heap) :
    store (carve start size k h) (start + (k - 1) * size) 0 start = start + size := by
  rw [store_other _ _ _ _ (apart_symm _ _ (start_apart start size (k - 1) hs (by omega)))]
  have := (carve_loop start size hs h (k - 1)).1 0 (by omega)
  simpa [carve] using this

theorem blocksOf_cons (start size first n : Nat) :
    blocksOf start size first (n + 1) = (start + first * size) :: blocksOf start size (first + 1) n := by
  simp [blocksOf, List.range'_succ]

theorem mem_blocksOf (start size first n x : Nat) :
    x ∈ blocksOf start size first n ↔ ∃ i, first ≤ i ∧ i < first + n ∧ x = start + i * size := by
  simp only [blocksOf, List.mem_map, List.mem_range'_1]
  constructor
  · rintro ⟨i, ⟨h1, h2⟩, rfl⟩
    exact ⟨i, h1, h2, rfl⟩
  · rintro ⟨i, h1, h2, rfl⟩
    exact ⟨i, ⟨h1, h2⟩, rfl⟩

/-- The blocks of a span are at least 8 bytes apart. -/
theorem blocksOf_apart (start size first n : Nat) (hs : 8 ≤ size) :
    (blocksOf start size first n).Pairwise Apart := by
  unfold blocksOf
  rw [List.pairwise_map]
  refine List.Pairwise.imp ?_ (List.pairwise_lt_range' first n)
  intro a b hab
  exact addr_apart start size a b hs (Nat.ne_of_lt hab)

/-- After the refill the blocks `first .. k - 1` of the span form a null-terminated chain. -/
theorem isChain_refillHeap (start size k : Nat) (hs : 8 ≤ size) (h0 : start ≠ 0) (h : Heap) :
    ∀ (d first : Nat), first + d + 1 = k → 1 ≤ first →
      IsChain (refillHeap start size k h) (start + first * size)
        (blocksOf start size first (d + 1)) := by
  intro d
  induction d with
  | zero =>
    intro first hk h1
    rw [blocksOf_cons]
    refine ⟨rfl, by omega, ?_⟩
    have hf : first = k - 1 := by omega
    rw [hf, refillHeap_last start size k hs (by omega) h]
    simp [blocksOf, IsChain]
  | succ d ih =>
    intro first hk h1
    rw [blocksOf_cons]
    refine ⟨rfl, by omega, ?_⟩
    rw [refillHeap_link start size k hs h first h1 (by omega)]
    exact ih (first + 1) (by omega) (by omega)

/-- The class list left behind by a refill: the blocks `1 .. k - 1` of the span. -/
theorem isChain_refill_list (start size k : Nat) (hs : 8 ≤ size) (h0 : start ≠ 0) (hk : 1 < k)
    (h : Heap) :
    IsChain (refillHeap start size k h)
      (store (carve start size k h) (start + (k - 1) * size) 0 start)
      (blocksOf start size 1 (k - 1)) := by
  rw [refill_head start size k hs hk h]
  have := isChain_refillHeap start size k hs h0 h (k - 2) 1 (by omega) (by omega)
  have hk2 : k - 2 + 1 = k - 1 := by omega
  rw [hk2] at this
  simpa using this

/-! ## The paths of `fetchRange` -/

theorem blockSize_pos (index : Nat) : 0 < blockSize index := by
  unfold blockSize ALIGNMENT; omega

theorem blockSize_ge (index : Nat) : 8 ≤ blockSize index := by
  unfold blockSize ALIGNMENT; omega

theorem fetchRange_refused (pc : List Nat → Nat → Nat) (st : CentralCache) (index : Nat)
    (hi : FREE_LIST_SIZE ≤ index) : fetchRange pc st index = some (0, st) := by
  simp [fetchRange, hi]

theorem fetchRange_spin (pc : List Nat → Nat → Nat) (st : CentralCache) (index : Nat)
    (hi : index < FREE_LIST_SIZE) (hl : st.locks_ index = true) :
    fetchRange pc st index = none := by
  simp [fetchRange, Nat.not_le.mpr hi, hl]

theorem fetchFromPageCache_eq (pc : List Nat → Nat → Nat) (st : CentralCache) (size : Nat) :
    fetchFromPageCache pc st size =
      (pc st.spanLog (spanPagesFor size),
        { st with spanLog := spanPagesFor size :: st.spanLog }) := by
  unfold fetchFromPageCache spanPagesFor allocateSpan
  by_cases h : size ≤ SPAN_PAGES * PAGE_SIZE <;> simp [h]

theorem fetchRange_pop (pc : List Nat → Nat → Nat) (st : CentralCache) (index : Nat)
    (hi : index < FREE_LIST_SIZE) (hl : st.locks_ index = false)
    (hh : st.centralFreeList_ index ≠ 0) :
    fetchRange pc st index = some (st.centralFreeList_ index,
      { st with
        heap := store st.heap (st.centralFreeList_ index) 0
        centralFreeList_ :=
          setAt st.centralFreeList_ index (st.heap (st.centralFreeList_ index)) }) := by
  simp [fetchRange, Nat.not_le.mpr hi, hl, hh, setAt_release]

theorem fetchRange_oom (pc : List Nat → Nat → Nat) (st : CentralCache) (index : Nat)
    (hi : index < FREE_LIST_SIZE) (hl : st.locks_ index = false)
    (hh : st.centralFreeList_ index = 0) (hp : spanBase pc st index = 0) :
    fetchRange pc st index = some (0,
      { st with spanLog := spanPagesFor (blockSize index) :: st.spanLog }) := by
  unfold spanBase blockSize at hp
  simp [fetchRange, Nat.not_le.mpr hi, hl, hh, hp, setAt_release, fetchFromPageCache_eq,
    blockSize]

theorem fetchRange_single (pc : List Nat → Nat → Nat) (st : CentralCache) (index : Nat)
    (hi : index < FREE_LIST_SIZE) (hl : st.locks_ index = false)
    (hh : st.centralFreeList_ index = 0) (hp : spanBase pc st index ≠ 0)
    (hk : blockNum index ≤ 1) :
    fetchRange pc st index = some (spanBase pc st index,
      { st with spanLog := spanPagesFor (blockSize index) :: st.spanLog }) := by
  unfold spanBase blockSize at hp
  unfold blockNum blockSize at hk
  simp [fetchRange, Nat.not_le.mpr hi, hl, hh, hp, setAt_release, fetchFromPageCache_eq,
    Nat.not_lt.mpr hk, blockSize, spanBase]

theorem fetchRange_carve (pc : List Nat → Nat → Nat) (st : CentralCache) (index : Nat)
    (hi : index < FREE_LIST_SIZE) (hl : st.locks_ index = false)
    (hh : st.centralFreeList_ index = 0) (hp : spanBase pc st index ≠ 0)
    (hk : 1 < blockNum index) :
    fetchRange pc st index = some (spanBase pc st index,
      { st with
        spanLog := spanPagesFor (blockSize index) :: st.spanLog
        heap := refillHeap (spanBase pc st index) (blockSize index) (blockNum index) st.heap
        centralFreeList_ :=
          setAt st.centralFreeList_ index (spanBase pc st index + blockSize index) }) := by
  have hhead := refill_head (spanBase pc st index) (blockSize index) (blockNum index)
    (blockSize_ge index) hk st.heap
  unfold spanBase blockSize at hp
  unfold blockNum blockSize at hk
  unfold spanBase blockNum blockSize at hhead
  simp [fetchRange, Nat.not_le.mpr hi, hl, hh, hp, setAt_release, fetchFromPageCache_eq, hk,
    blockSize, spanBase, blockNum, refillHeap, hhead]

/-! ## Refill -/

theorem blockSize_le (index : Nat) (hi : index < FREE_LIST_SIZE) : blockSize index ≤ MAX_BYTES := by
  unfold blockSize ALIGNMENT MAX_BYTES
  unfold FREE_LIST_SIZE MAX_BYTES ALIGNMENT at hi
  omega

/-- The number of blocks a span of the requested page count holds is the number of blocks
`fetchRange` carves, or one when it carves none. -/
theorem span_block_count (index : Nat) (hi : index < FREE_LIST_SIZE) :
    spanPagesFor (blockSize index) * PAGE_SIZE / blockSize index = max (blockNum index) 1 := by
  have hle := blockSize_le index hi
  have hpos := blockSize_pos index
  unfold MAX_BYTES at hle
  unfold spanPagesFor blockNum
  simp only [SPAN_PAGES, PAGE_SIZE] at *
  by_cases hs : blockSize index ≤ 8 * 4096
  · rw [if_pos hs]
    have : 1 ≤ 8 * 4096 / blockSize index := (Nat.one_le_div_iff hpos).mpr hs
    omega
  · rw [if_neg hs]
    have h0 : 8 * 4096 / blockSize index = 0 := Nat.div_eq_of_lt (by omega)
    rw [h0]
    have h1 : (blockSize index + 4096 - 1) % 2 ^ 64 / 4096 * 4096 / blockSize index = 1 := by
      apply Nat.div_eq_of_lt_le <;> omega
    rw [h1]; rfl

/-- C1: when the class list is empty (its flag clear) and the page cache answers with a
span at `base`, `fetchRange` returns `base`, leaves the blocks `base + s, base + 2s, ...` as a null-terminated
class list in ascending address order, and the block returned together with the list are
exactly the `floor(n * PAGE_SIZE / s)` blocks `base + i * s` of the span of `n` pages. -/
theorem fetchRange_refill_blocks (pc : List Nat → Nat → Nat) (st : CentralCache) (index : Nat)
    (hi : index < FREE_LIST_SIZE) (hl : st.locks_ index = false)
    (hh : st.centralFreeList_ index = 0) (hp : spanBase pc st index ≠ 0) :
    ∃ st1, fetchRange pc st index = some (spanBase pc st index, st1) ∧
      IsChain st1.heap (st1.centralFreeList_ index)
        (blocksOf (spanBase pc st index) (blockSize index) 1
          (spanPagesFor (blockSize index) * PAGE_SIZE / blockSize index - 1)) ∧
      spanBase pc st index ::
          blocksOf (spanBase pc st index) (blockSize index) 1
            (spanPagesFor (blockSize index) * PAGE_SIZE / blockSize index - 1) =
        (List.range (spanPagesFor (blockSize index) * PAGE_SIZE / blockSize index)).map
          (fun i => spanBase pc st index + i * blockSize index) ∧
      List.Pairwise (fun a b => a < b)
        (spanBase pc st index ::
          blocksOf (spanBase pc st index) (blockSize index) 1
            (spanPagesFor (blockSize index) * PAGE_SIZE / blockSize index - 1)) := by
  have hcount := span_block_count index hi
  have hpos := blockSize_pos index
  have hlist : ∀ k, 1 ≤ k → spanBase pc st index ::
      blocksOf (spanBase pc st index) (blockSize index) 1 (k - 1) =
        (List.range k).map (fun i => spanBase pc st index + i * blockSize index) := by
    intro k hk
    obtain ⟨m, rfl⟩ : ∃ m, k = m + 1 := ⟨k - 1, by omega⟩
    rw [List.range_eq_range', List.range'_succ]
    simp [blocksOf]
  have hsorted : ∀ k, 1 ≤ k → List.Pairwise (fun a b => a < b)
      ((List.range k).map (fun i => spanBase pc st index + i * blockSize index)) := by
    intro k _
    rw [List.pairwise_map]
    refine List.Pairwise.imp ?_ (List.pairwise_lt_range k)
    intro a b hab
    have : a * blockSize index < b * blockSize index := Nat.mul_lt_mul_of_pos_right hab hpos
    omega
  have hone : 1 ≤ spanPagesFor (blockSize index) * PAGE_SIZE / blockSize index := by
    rw [hcount]; exact Nat.le_max_right _ _
  by_cases hk : 1 < blockNum index
  · refine ⟨_, fetchRange_carve pc st index hi hl hh hp hk, ?_, hlist _ hone, ?_⟩
    · have hc : spanPagesFor (blockSize index) * PAGE_SIZE / blockSize index = blockNum index := by
        rw [hcount]; exact Nat.max_eq_left (by omega)
      rw [hc]
      have := isChain_refill_list (spanBase pc st index) (blockSize index) (blockNum index)
        (blockSize_ge index) hp hk st.heap
      rw [refill_head _ _ _ (blockSize_ge index) hk] at this
      simpa [setAt_same] using this
    · rw [hlist _ hone]; exact hsorted _ hone
  · have hk1 : blockNum index ≤ 1 := Nat.not_lt.mp hk
    refine ⟨_, fetchRange_single pc st index hi hl hh hp hk1, ?_, hlist _ hone, ?_⟩
    · have hc : spanPagesFor (blockSize index) * PAGE_SIZE / blockSize index = 1 := by
        rw [hcount]; exact Nat.max_eq_right hk1
      rw [hc]
      simpa [blocksOf, IsChain] using hh
    · rw [hlist _ hone]; exact hsorted _ hone

/-- The refill of the class of 16384-byte blocks from the empty cache. -/
theorem fetchRange_refill_blocks_witness :
    ∃ st1, fetchRange freshSpans emptyCache 2047 = some (spanBase freshSpans emptyCache 2047, st1) ∧
      IsChain st1.heap (st1.centralFreeList_ 2047)
        (blocksOf (spanBase freshSpans emptyCache 2047) (blockSize 2047) 1
          (spanPagesFor (blockSize 2047) * PAGE_SIZE / blockSize 2047 - 1)) ∧
      spanBase freshSpans emptyCache 2047 ::
          blocksOf (spanBase freshSpans emptyCache 2047) (blockSize 2047) 1
            (spanPagesFor (blockSize 2047) * PAGE_SIZE / blockSize 2047 - 1) =
        (List.range (spanPagesFor (blockSize 2047) * PAGE_SIZE / blockSize 2047)).map
          (fun i => spanBase freshSpans emptyCache 2047 + i * blockSize 2047) ∧
      List.Pairwise (fun a b => a < b)
        (spanBase freshSpans emptyCache 2047 ::
          blocksOf (spanBase freshSpans emptyCache 2047) (blockSize 2047) 1
            (spanPagesFor (blockSize 2047) * PAGE_SIZE / blockSize 2047 - 1)) :=
  fetchRange_refill_blocks freshSpans emptyCache 2047 (by decide) rfl rfl (by decide)

/-! ## Handing out a block -/

/-- C2: for the class of 32768-byte blocks `fetchRange` carves a single block, skips the
branch that writes the null, and hands the block out with its old next word: on a heap
whose word at `4096` holds `48879` the call returns the span base `4096` and the word at
`4096` is still `48879`. -/
theorem fetchRange_single_block_keeps_next_word :
    4095 < FREE_LIST_SIZE ∧ blockNum 4095 = 1 ∧
      ∃ st1, fetchRange freshSpans staleCache 4095 = some (4096, st1) ∧ st1.heap 4096 = 48879 := by
  have h := fetchRange_single freshSpans staleCache 4095 (by decide) rfl rfl (by decide)
    (by decide)
  have hb : spanBase freshSpans staleCache 4095 = 4096 := by decide
  rw [hb] at h
  exact ⟨by decide, by decide, _, h, rfl⟩

/-! ## The walk of `returnRange` -/

theorem returnRange_eq (st : CentralCache) (start size index : Nat)
    (hs : start ≠ 0) (hi : index < FREE_LIST_SIZE) (hl : st.locks_ index = false) :
    returnRange st start size index = some
      { st with
        heap := store st.heap (walkEnd st.heap size size start 1) (st.centralFreeList_ index)
        centralFreeList_ := setAt st.centralFreeList_ index start } := by
  simp [returnRange, hs, Nat.not_le.mpr hi, hl, setAt_release]

theorem returnRange_ignored (st : CentralCache) (start size index : Nat)
    (h : start = 0 ∨ FREE_LIST_SIZE ≤ index) : returnRange st start size index = some st := by
  simp [returnRange, h]

/-- The bound on the iterations of the walk is never what stops it: once the bound covers
`size - count`, a larger bound gives the same block. -/
theorem walkEnd_enough (h : Heap) (size : Nat) :
    ∀ (fuel e count : Nat), size ≤ fuel + count →
      walkEnd h size (fuel + 1) e count = walkEnd h size fuel e count := by
  intro fuel
  induction fuel with
  | zero =>
    intro e count hf
    have hc : ¬ (h e ≠ 0 ∧ count < size) := fun hc => absurd hc.2 (by omega)
    simp only [walkEnd, if_neg hc]
  | succ fuel ih =>
    intro e count hf
    by_cases hc : h e ≠ 0 ∧ count < size
    · have h1 : walkEnd h size (fuel + 1 + 1) e count =
          walkEnd h size (fuel + 1) (h e) (count + 1) := by
        simp only [walkEnd, if_pos hc]
      have h2 : walkEnd h size (fuel + 1) e count = walkEnd h size fuel (h e) (count + 1) := by
        simp only [walkEnd, if_pos hc]
      rw [h1, h2]
      exact ih (h e) (count + 1) (by omega)
    · simp only [walkEnd, if_neg hc]

theorem walkEnd_mem_walked (h : Heap) (size : Nat) :
    ∀ (fuel e count : Nat), walkEnd h size fuel e count ∈ walked h size fuel e count := by
  intro fuel
  induction fuel with
  | zero => intro e count; simp [walkEnd, walked]
  | succ fuel ih =>
    intro e count
    by_cases hc : h e ≠ 0 ∧ count < size
    · simp only [walkEnd, walked, if_pos hc]
      exact List.mem_cons_of_mem _ (ih _ _)
    · simp only [walkEnd, walked, if_neg hc]
      exact List.mem_singleton.mpr rfl

/-- The blocks the walk passes on a null-terminated chain are its first
`size - count + 1` blocks. -/
theorem walked_chain (h : Heap) (size : Nat) :
    ∀ (fuel e count : Nat) (l : List Nat), IsChain h e l → e ≠ 0 → size ≤ fuel + count →
      walked h size fuel e count = l.take (size - count + 1) := by
  intro fuel
  induction fuel with
  | zero =>
    intro e count l hc he hf
    cases l with
    | nil => exact absurd hc he
    | cons b bs =>
      have hz : size - count = 0 := by omega
      rw [hz]
      simp [walked, hc.1]
  | succ fuel ih =>
    intro e count l hc he hf
    cases l with
    | nil => exact absurd hc he
    | cons b bs =>
      obtain ⟨heb, _, hrest⟩ := hc
      subst heb
      by_cases hcond : h e ≠ 0 ∧ count < size
      · simp only [walked, if_pos hcond]
        rw [ih (h e) (count + 1) bs hrest hcond.1 (by omega)]
        have : size - count + 1 = (size - (count + 1) + 1) + 1 := by omega
        rw [this, List.take_succ_cons]
      · simp only [walked, if_neg hcond]
        by_cases h0 : h e = 0
        · rw [h0] at hrest
          cases bs with
          | nil => simp
          | cons c cs => exact absurd hrest.1.symm hrest.2.1
        · have hz : size - count = 0 := by
            have : ¬ count < size := fun hlt => hcond ⟨h0, hlt⟩
            omega
          rw [hz]; simp

/-- Linking the last block of the walk to a chain `l2` makes the walked blocks followed by
`l2` one chain, if the walked blocks are at least 8 bytes apart. -/
theorem isChain_walked_splice (h : Heap) (size q : Nat) (l2 : List Nat) :
    ∀ (fuel e count : Nat), e ≠ 0 → (walked h size fuel e count).Pairwise Apart →
      IsChain (store h (walkEnd h size fuel e count) q) q l2 →
      IsChain (store h (walkEnd h size fuel e count) q) e (walked h size fuel e count ++ l2) := by
  intro fuel
  induction fuel with
  | zero =>
    intro e count he _ hq
    simp only [walkEnd, walked] at hq ⊢
    refine ⟨rfl, he, ?_⟩
    rw [store_same]; exact hq
  | succ fuel ih =>
    intro e count he hnd hq
    by_cases hcond : h e ≠ 0 ∧ count < size
    · simp only [walkEnd, walked, if_pos hcond] at hq hnd ⊢
      refine ⟨rfl, he, ?_⟩
      have hmem := walkEnd_mem_walked h size fuel (h e) (count + 1)
      rw [store_other _ _ _ e ((List.pairwise_cons.mp hnd).1 _ hmem)]
      exact ih (h e) (count + 1) hcond.1 (List.pairwise_cons.mp hnd).2 hq
    · simp only [walkEnd, walked, if_neg hcond] at hq ⊢
      refine ⟨rfl, he, ?_⟩
      rw [store_same]; exact hq

/-! ## Returning a chain -/

/-- C3, as stated, fails: the class 0 list is the single block `4096`, and `4096` (a
null-terminated chain of one block) is returned again with count 1.  The call installs `4096`
as head, but the list is not `4096` followed by the previous list: the block now points to
itself and no finite chain describes the class list. -/
theorem returnRange_twice_not_prepended :
    0 < FREE_LIST_SIZE ∧ IsChain onceReturned.heap 4096 [4096] ∧
      IsChain onceReturned.heap (onceReturned.centralFreeList_ 0) [4096] ∧
      ∃ st1, returnRange onceReturned 4096 1 0 = some st1 ∧ st1.centralFreeList_ 0 = 4096 ∧
        st1.heap 4096 = 4096 ∧
        ¬ IsChain st1.heap (st1.centralFreeList_ 0)
          (List.take (min 1 (max 1 1)) [4096] ++ [4096]) := by
  refine ⟨by decide, ⟨rfl, by decide, rfl⟩, ⟨rfl, by decide, rfl⟩, _,
    returnRange_eq onceReturned 4096 1 0 (by decide) (by decide) rfl, ?_, ?_, ?_⟩
  · simp [setAt]
  · simp [store, walkEnd, onceReturned]
  · intro hc
    have h2 : store onceReturned.heap (walkEnd onceReturned.heap 1 1 4096 1)
        (onceReturned.centralFreeList_ 0) 4096 = 4096 := by
      simp [store, walkEnd, onceReturned]
    have h0 : store onceReturned.heap (walkEnd onceReturned.heap 1 1 4096 1)
        (onceReturned.centralFreeList_ 0) 4096 = 0 := hc.2.2.2.2
    rw [h2] at h0
    exact absurd h0 (by decide)

/-- C3 (amended): if the first `m = min(L, max(count, 1))` blocks of the returned
null-terminated chain of `L` blocks are at least 8 bytes apart from one another and from
every block of the class list (so none of them is in the list and no next word overlaps
another), then (the flag of the class being clear) after `returnRange` the class list is
those `m` blocks, in chain order, followed by the entire previous class list, and `start` is
the new head. -/
theorem returnRange_prepends (st : CentralCache) (start count index : Nat)
    (blocks old : List Nat)
    (hi : index < FREE_LIST_SIZE) (hl : st.locks_ index = false) (hs : start ≠ 0)
    (hchain : IsChain st.heap start blocks)
    (hold : IsChain st.heap (st.centralFreeList_ index) old)
    (hsp : (blocks.take (min blocks.length (max count 1))).Pairwise Apart)
    (hdisj : ∀ b ∈ blocks.take (min blocks.length (max count 1)), ∀ c ∈ old, Apart b c) :
    ∃ st1, returnRange st start count index = some st1 ∧
      st1.centralFreeList_ index = start ∧
      IsChain st1.heap (st1.centralFreeList_ index)
        (blocks.take (min blocks.length (max count 1)) ++ old) := by
  have htake : blocks.take (min blocks.length (max count 1)) = blocks.take (count - 1 + 1) := by
    have hm : max count 1 = count - 1 + 1 := by omega
    rw [hm, List.take_eq_take]
    omega
  rw [htake] at hdisj hsp ⊢
  have hw := walked_chain st.heap count count start 1 blocks hchain hs (by omega)
  refine ⟨_, returnRange_eq st start count index hs hi hl, ?_, ?_⟩
  · exact setAt_same _ _ _
  · simp only [setAt_same]
    rw [← hw] at hdisj hsp ⊢
    apply isChain_walked_splice st.heap count (st.centralFreeList_ index) old count start 1 hs
      hsp
    apply isChain_store_of_apart _ _ _ _ _ _ hold
    intro c hc
    exact apart_symm _ _ (hdisj _ (walkEnd_mem_walked st.heap count count start 1) c hc)

/-- Returning the single block `8192` to the class 0 list `[4096]`. -/
theorem returnRange_prepends_witness :
    ∃ st1, returnRange onceReturned 8192 1 0 = some st1 ∧
      st1.centralFreeList_ 0 = 8192 ∧
      IsChain st1.heap (st1.centralFreeList_ 0)
        (List.take (min [8192].length (max 1 1)) [8192] ++ [4096]) :=
  returnRange_prepends onceReturned 8192 1 0 [8192] [4096] (by decide) rfl (by decide)
    ⟨rfl, by decide, rfl⟩ ⟨rfl, by decide, rfl⟩ (by decide) (by decide)

/-! ## Acyclic class lists -/

theorem fetchRange_returns (pc : List Nat → Nat → Nat) (st : CentralCache) (index : Nat)
    (hl : index < FREE_LIST_SIZE → st.locks_ index = false) :
    ∃ r st1, fetchRange pc st index = some (r, st1) := by
  by_cases hi : index < FREE_LIST_SIZE
  · by_cases hh : st.centralFreeList_ index = 0
    · by_cases hp : spanBase pc st index = 0
      · exact ⟨_, _, fetchRange_oom pc st index hi (hl hi) hh hp⟩
      · by_cases hk : 1 < blockNum index
        · exact ⟨_, _, fetchRange_carve pc st index hi (hl hi) hh hp hk⟩
        · exact ⟨_, _, fetchRange_single pc st index hi (hl hi) hh hp (Nat.not_lt.mp hk)⟩
    · exact ⟨_, _, fetchRange_pop pc st index hi (hl hi) hh⟩
  · exact ⟨_, _, fetchRange_refused pc st index (Nat.not_lt.mp hi)⟩

theorem returnRange_returns (st : CentralCache) (start count index : Nat)
    (hl : start ≠ 0 → index < FREE_LIST_SIZE → st.locks_ index = false) :
    ∃ st1, returnRange st start count index = some st1 := by
  by_cases hs : start = 0
  · exact ⟨_, returnRange_ignored st start count index (Or.inl hs)⟩
  · by_cases hi : index < FREE_LIST_SIZE
    · exact ⟨_, returnRange_eq st start count index hs hi (hl hs hi)⟩
    · exact ⟨_, returnRange_ignored st start count index (Or.inr (Nat.not_lt.mp hi))⟩

theorem fetchRange_locked (pc : List Nat → Nat → Nat) (st st1 : CentralCache) (index r : Nat)
    (h : fetchRange pc st index = some (r, st1)) (hi : index < FREE_LIST_SIZE) :
    st.locks_ index = false := by
  cases hl : st.locks_ index with
  | false => rfl
  | true => rw [fetchRange_spin pc st index hi hl] at h; exact absurd h (by simp)

theorem returnRange_locked (st st1 : CentralCache) (start count index : Nat)
    (h : returnRange st start count index = some st1) (hs : start ≠ 0)
    (hi : index < FREE_LIST_SIZE) : st.locks_ index = false := by
  cases hl : st.locks_ index with
  | false => rfl
  | true =>
    simp [returnRange, hs, Nat.not_le.mpr hi, hl] at h

theorem acyclic_of_chains (st : CentralCache)
    (h : ∀ i, i < FREE_LIST_SIZE → ∃ l, IsChain st.heap (st.centralFreeList_ i) l) :
    Acyclic st := by
  intro i hi
  obtain ⟨l, hl⟩ := h i hi
  exact ⟨l, hl, isChain_nodup st.heap l _ hl⟩

theorem span_pages_small (index : Nat) (hk : 1 < blockNum index) :
    spanPagesFor (blockSize index) * PAGE_SIZE = SPAN_PAGES * PAGE_SIZE ∧
      blockNum index * blockSize index ≤ SPAN_PAGES * PAGE_SIZE := by
  have hpos := blockSize_pos index
  unfold blockNum at hk ⊢
  have hle : blockSize index ≤ SPAN_PAGES * PAGE_SIZE := by
    by_contra hc
    rw [Nat.div_eq_of_lt (Nat.not_le.mp hc)] at hk
    omega
  refine ⟨?_, Nat.div_mul_le_self _ _⟩
  unfold spanPagesFor
  simp only []
  rw [if_pos hle]

/-- The blocks of a class list are on a class list. -/
theorem linked_of_chain (st : CentralCache) :
    ∀ (l : List Nat) (p : Nat), (p ≠ 0 → Linked st p) → IsChain st.heap p l →
      ∀ b ∈ l, Linked st b := by
  intro l
  induction l with
  | nil => intro p _ _ b hb; simp at hb
  | cons c cs ih =>
    intro p hp hc b hb
    obtain ⟨hpc, hc0, hrest⟩ := hc
    have hlc : Linked st c := by rw [← hpc]; exact hp (by rw [hpc]; exact hc0)
    rcases List.mem_cons.mp hb with hb | hb
    · rw [hb]; exact hlc
    · exact ih (st.heap c) (fun h0 => Linked.next c hlc h0) hrest b hb

/-- Pairwise distinct multiples of `ALIGNMENT` are at least 8 bytes apart. -/
theorem pairwise_apart_of_aligned (l : List Nat) (hnd : l.Nodup)
    (hal : ∀ b ∈ l, ALIGNMENT ∣ b) : l.Pairwise Apart := by
  induction l with
  | nil => exact List.Pairwise.nil
  | cons b bs ih =>
    obtain ⟨hb, hbs⟩ := List.nodup_cons.mp hnd
    refine List.pairwise_cons.mpr ⟨?_, ih hbs (fun c hc => hal c (List.mem_cons_of_mem b hc))⟩
    intro c hc
    exact apart_of_aligned b c (hal b (List.mem_cons_self b bs))
      (hal c (List.mem_cons_of_mem b hc)) (fun h => hb (h ▸ hc))

/-- Class lists that are chains of aligned blocks: the two invariants in one. -/
theorem lists_of_chains (st : CentralCache)
    (h : ∀ i, i < FREE_LIST_SIZE →
      ∃ l, IsChain st.heap (st.centralFreeList_ i) l ∧ ∀ b ∈ l, ALIGNMENT ∣ b) :
    Acyclic st ∧ AlignedLists st := by
  constructor
  · exact acyclic_of_chains st (fun i hi => (h i hi).imp (fun _ hl => hl.1))
  · intro i hi l hl b hb
    obtain ⟨l1, hl1, hal⟩ := h i hi
    rw [isChain_unique st.heap l l1 _ hl hl1] at hb
    exact hal b hb

theorem acyclic_fetchRange (pc : List Nat → Nat → Nat) (st st1 : CentralCache) (index r : Nat)
    (h : fetchRange pc st index = some (r, st1)) (hinv : Acyclic st) (hal : AlignedLists st)
    (hfresh : SpanFresh pc st index) (hbase : SpanAligned pc st index) :
    Acyclic st1 ∧ AlignedLists st1 := by
  by_cases hi : index < FREE_LIST_SIZE
  swap
  · rw [fetchRange_refused pc st index (Nat.not_lt.mp hi)] at h
    simp only [Option.some.injEq, Prod.mk.injEq] at h
    rw [← h.2]; exact ⟨hinv, hal⟩
  have hl := fetchRange_locked pc st st1 index r h hi
  by_cases hh : st.centralFreeList_ index = 0
  · by_cases hp : spanBase pc st index = 0
    · rw [fetchRange_oom pc st index hi hl hh hp] at h
      simp only [Option.some.injEq, Prod.mk.injEq] at h
      rw [← h.2]; exact ⟨hinv, hal⟩
    · by_cases hk : 1 < blockNum index
      · rw [fetchRange_carve pc st index hi hl hh hp hk] at h
        simp only [Option.some.injEq, Prod.mk.injEq] at h
        rw [← h.2]
        have hb8 : ALIGNMENT ∣ spanBase pc st index := hbase hh
        have hcarved : ∀ j, ALIGNMENT ∣ spanBase pc st index + j * blockSize index :=
          fun j => Nat.dvd_add hb8 (Dvd.dvd.mul_left (Dvd.intro_left _ rfl) j)
        apply lists_of_chains
        intro i hi2
        simp only []
        by_cases hii : i = index
        · subst hii
          rw [setAt_same]
          have := isChain_refill_list (spanBase pc st i) (blockSize i) (blockNum i)
            (blockSize_ge i) hp hk st.heap
          rw [refill_head _ _ _ (blockSize_ge i) hk] at this
          refine ⟨_, this, ?_⟩
          intro b hb
          obtain ⟨j, _, _, hbj⟩ := (mem_blocksOf _ _ _ _ _).mp hb
          rw [hbj]; exact hcarved j
        · rw [setAt_other _ _ _ _ hii]
          obtain ⟨l, hl1, _⟩ := hinv i hi2
          refine ⟨l, isChain_congr st.heap _ l _ ?_ hl1, hal i hi2 l hl1⟩
          intro b hb
          apply refillHeap_other _ _ _ (blockSize_ge index) _ _ _ hk
          intro j hj
          have hsp := span_pages_small index hk
          have hout := hfresh hh i hi2 l hl1 b hb
          rw [hsp.1] at hout
          have hjs : (j + 1) * blockSize index ≤ blockNum index * blockSize index :=
            Nat.mul_le_mul_right _ hj
          have hge := blockSize_ge index
          have hmul : (j + 1) * blockSize index = j * blockSize index + blockSize index := by
            ring
          apply apart_of_aligned _ _ (hal i hi2 l hl1 b hb) (hcarved j)
          omega
      · rw [fetchRange_single pc st index hi hl hh hp (Nat.not_lt.mp hk)] at h
        simp only [Option.some.injEq, Prod.mk.injEq] at h
        rw [← h.2]; exact ⟨hinv, hal⟩
  · rw [fetchRange_pop pc st index hi hl hh] at h
    simp only [Option.some.injEq, Prod.mk.injEq] at h
    rw [← h.2]
    obtain ⟨l0, hl0, hnd0⟩ := hinv index hi
    have hal0 := hal index hi l0 hl0
    have hhead : ALIGNMENT ∣ st.centralFreeList_ index := by
      cases l0 with
      | nil => exact absurd hl0 hh
      | cons b bs => rw [hl0.1]; exact hal0 b (List.mem_cons_self b bs)
    apply lists_of_chains
    intro i hi2
    simp only []
    by_cases hii : i = index
    · subst hii
      rw [setAt_same]
      cases l0 with
      | nil => exact absurd hl0 hh
      | cons b bs =>
        obtain ⟨hb, _, hrest⟩ := hl0
        rw [hb]
        have hsp := pairwise_apart_of_aligned (b :: bs) hnd0 hal0
        refine ⟨bs, isChain_store_of_apart _ _ _ _ _ ?_ hrest,
          fun c hc => hal0 c (List.mem_cons_of_mem b hc)⟩
        intro c hc
        exact apart_symm _ _ ((List.pairwise_cons.mp hsp).1 c hc)
    · rw [setAt_other _ _ _ _ hii]
      obtain ⟨l, hl1, _⟩ := hinv i hi2
      have hall := hal i hi2 l hl1
      obtain ⟨l1, hl2, hsub⟩ := isChain_reroute st.heap (st.centralFreeList_ index) 0 [] rfl
        (by simp) l _
        (fun b hb => by
          by_cases hbe : b = st.centralFreeList_ index
          · exact Or.inl hbe
          · exact Or.inr (apart_of_aligned _ _ (hall b hb) hhead hbe))
        hl1
      refine ⟨l1, hl2, ?_⟩
      intro b hb
      rcases hsub b hb with h1 | h1
      · exact hall b h1
      · simp at h1

theorem acyclic_returnRange (st st1 : CentralCache) (start count index : Nat)
    (h : returnRange st start count index = some st1) (hinv : Acyclic st)
    (hal : AlignedLists st) (hfresh : ReturnFresh st start count index)
    (hwal : ReturnAligned st start count index) :
    Acyclic st1 ∧ AlignedLists st1 := by
  by_cases hs : start = 0
  · rw [returnRange_ignored st start count index (Or.inl hs)] at h
    simp only [Option.some.injEq] at h
    rw [← h]; exact ⟨hinv, hal⟩
  by_cases hi : index < FREE_LIST_SIZE
  swap
  · rw [returnRange_ignored st start count index (Or.inr (Nat.not_lt.mp hi))] at h
    simp only [Option.some.injEq] at h
    rw [← h]; exact ⟨hinv, hal⟩
  have hl := returnRange_locked st st1 start count index h hs hi
  rw [returnRange_eq st start count index hs hi hl] at h
  simp only [Option.some.injEq] at h
  rw [← h]
  obtain ⟨old, hold, _⟩ := hinv index hi
  have hfresh1 := hfresh hs hi
  have hwal1 := hwal hs hi
  have hold8 := hal index hi old hold
  have hend8 : ALIGNMENT ∣ walkEnd st.heap count count start 1 :=
    hwal1 _ (walkEnd_mem_walked st.heap count count start 1)
  have hend : ∀ c ∈ old, Apart c (walkEnd st.heap count count start 1) := by
    intro c hc
    apply apart_of_aligned _ _ (hold8 c hc) hend8
    intro hce
    exact hfresh1.2 old hold _ (walkEnd_mem_walked st.heap count count start 1) (hce ▸ hc)
  apply lists_of_chains
  intro i hi2
  simp only []
  by_cases hii : i = index
  · subst hii
    rw [setAt_same]
    refine ⟨_, isChain_walked_splice st.heap count (st.centralFreeList_ i) old count start 1 hs
      (pairwise_apart_of_aligned _ hfresh1.1 hwal1)
      (isChain_store_of_apart _ _ _ _ _ hend hold), ?_⟩
    intro b hb
    rcases List.mem_append.mp hb with hb | hb
    · exact hwal1 b hb
    · exact hold8 b hb
  · rw [setAt_other _ _ _ _ hii]
    obtain ⟨l, hl1, _⟩ := hinv i hi2
    have hall := hal i hi2 l hl1
    obtain ⟨l1, hl2, hsub⟩ := isChain_reroute st.heap (walkEnd st.heap count count start 1)
      (st.centralFreeList_ index) old hold hend l _
      (fun b hb => by
        by_cases hbe : b = walkEnd st.heap count count start 1
        · exact Or.inl hbe
        · exact Or.inr (apart_of_aligned _ _ (hall b hb) hend8 hbe))
      hl1
    refine ⟨l1, hl2, ?_⟩
    intro b hb
    rcases hsub b hb with h1 | h1
    · exact hall b h1
    · exact hold8 b h1

/-- A store that shares no byte with the next word of a listed block changes no class
list. -/
theorem acyclic_write (st : CentralCache) (a v : Nat) (hinv : Acyclic st)
    (hal : AlignedLists st) (hw : ∀ b, Linked st b → Apart b a) :
    Acyclic { st with heap := store st.heap a v } ∧
      AlignedLists { st with heap := store st.heap a v } := by
  apply lists_of_chains
  intro i hi
  obtain ⟨l, hl, _⟩ := hinv i hi
  refine ⟨l, ?_, hal i hi l hl⟩
  apply isChain_store_of_apart _ _ _ _ _ _ hl
  intro b hb
  exact hw b (linked_of_chain st l _ (fun h0 => Linked.head i hi h0) hl b hb)

/-- C4, as stated, fails when the next word of the returned block overlaps the next word
of a listed block.  The class 0 list of `farLists` is the chain of the two distinct blocks
`0x100000001000` and `0x1004`; the block `0x100000001004` is not in it.  Returning that
block writes the old head `0x100000001000` over the bytes `0x100000001004 .. 0x10000000100b`,
whose first four are the upper half of the next word of the first listed block: that word
becomes `0x100000001004`, the new head, and the class list is a cycle. -/
theorem returnRange_overlap_makes_cycle :
    Acyclic farLists ∧ ReturnFresh farLists 17592186048516 1 0 ∧
      IsChain farLists.heap (farLists.centralFreeList_ 0) [17592186048512, 4100] ∧
      17592186048516 ∉ [17592186048512, 4100] ∧
      ∃ st1, returnRange farLists 17592186048516 1 0 = some st1 ∧
        st1.centralFreeList_ 0 = 17592186048516 ∧
        st1.heap 17592186048516 = 17592186048512 ∧
        st1.heap 17592186048512 = 17592186048516 ∧
        ¬ Acyclic st1 := by
  have hchain : IsChain farLists.heap (farLists.centralFreeList_ 0) [17592186048512, 4100] :=
    ⟨rfl, by decide, rfl, by decide, rfl⟩
  refine ⟨?_, ?_, hchain, by decide, _,
    returnRange_eq farLists 17592186048516 1 0 (by decide) (by decide) rfl, rfl, rfl, rfl, ?_⟩
  · intro i _
    by_cases hi0 : i = 0
    · subst hi0
      exact ⟨_, hchain, by decide⟩
    · refine ⟨[], ?_, List.nodup_nil⟩
      show farLists.centralFreeList_ i = 0
      simp [farLists, hi0]
  · intro _ _
    refine ⟨by decide, ?_⟩
    intro l hl b hb
    rw [isChain_unique _ _ _ _ hl hchain]
    have hbe : b = 17592186048516 := by
      have hw : walked farLists.heap 1 1 17592186048516 1 = [17592186048516] := by decide
      rw [hw] at hb
      exact List.mem_singleton.mp hb
    rw [hbe]
    decide
  · intro hac
    obtain ⟨l, hl, hnd⟩ := hac 0 (by decide)
    have hhead : setAt farLists.centralFreeList_ 0 17592186048516 0 = 17592186048516 := rfl
    simp only [hhead] at hl
    have h1 : store farLists.heap (walkEnd farLists.heap 1 1 17592186048516 1)
        (farLists.centralFreeList_ 0) 17592186048516 = 17592186048512 := rfl
    have h2 : store farLists.heap (walkEnd farLists.heap 1 1 17592186048516 1)
        (farLists.centralFreeList_ 0) 17592186048512 = 17592186048516 := rfl
    cases l with
    | nil =>
      have h0 : (17592186048516 : Nat) = 0 := hl
      exact absurd h0 (by decide)
    | cons b bs =>
      obtain ⟨hb, _, hrest⟩ := hl
      rw [← hb, h1] at hrest
      cases bs with
      | nil =>
        have h0 : (17592186048512 : Nat) = 0 := hrest
        exact absurd h0 (by decide)
      | cons c cs =>
        obtain ⟨hc, _, hrest2⟩ := hrest
        rw [← hc, h2] at hrest2
        cases cs with
        | nil =>
          have h0 : (17592186048516 : Nat) = 0 := hrest2
          exact absurd h0 (by decide)
        | cons d ds =>
          have hd : d = b := by rw [← hrest2.1, ← hb]
          rw [hd] at hnd
          exact (List.nodup_cons.mp hnd).1 (by simp)

/-- C4 (amended): if every class list is a finite chain of pairwise distinct blocks ending
in null and every listed block is a multiple of `ALIGNMENT`, then this still holds after a
call of `fetchRange` whose span (if one is requested) starts at a multiple of `ALIGNMENT`
and holds no listed block, and after a call of `returnRange` whose walked blocks are
multiples of `ALIGNMENT`, pairwise distinct and not in the class list; both calls return.
Hence every state reached from the all-null initial state by such calls, and by stores of
the caller that keep clear of the listed blocks, has only such lists. -/
theorem central_lists_acyclic (pc : List Nat → Nat → Nat) :
    (∀ st index, st.locks_ index = false → Acyclic st → AlignedLists st →
      SpanFresh pc st index → SpanAligned pc st index →
      ∃ r st1, fetchRange pc st index = some (r, st1) ∧ Acyclic st1 ∧ AlignedLists st1) ∧
    (∀ st start count index, st.locks_ index = false → Acyclic st → AlignedLists st →
      ReturnFresh st start count index → ReturnAligned st start count index →
      ∃ st1, returnRange st start count index = some st1 ∧ Acyclic st1 ∧ AlignedLists st1) ∧
    (∀ st, Reachable pc st → Acyclic st ∧ AlignedLists st) := by
  refine ⟨?_, ?_, ?_⟩
  · intro st index hl hinv hal hfresh hbase
    obtain ⟨r, st1, h⟩ := fetchRange_returns pc st index (fun _ => hl)
    exact ⟨r, st1, h, acyclic_fetchRange pc st st1 index r h hinv hal hfresh hbase⟩
  · intro st start count index hl hinv hal hfresh hwal
    obtain ⟨st1, h⟩ := returnRange_returns st start count index (fun _ _ => hl)
    exact ⟨st1, h, acyclic_returnRange st st1 start count index h hinv hal hfresh hwal⟩
  · intro st hr
    induction hr with
    | init h =>
      apply lists_of_chains
      intro i _
      exact ⟨[], rfl, fun b hb => by simp at hb⟩
    | fetch st st1 index r _ hfresh hbase h ih =>
      exact acyclic_fetchRange pc st st1 index r h ih.1 ih.2 hfresh hbase
    | give st st1 start count index _ hfresh hwal h ih =>
      exact acyclic_returnRange st st1 start count index h ih.1 ih.2 hfresh hwal
    | write st a v _ hw ih => exact acyclic_write st a v ih.1 ih.2 hw

/-- The class 0 list of `onceReturned` is the single block `4096`. -/
theorem onceReturned_lists :
    (∀ i, i < FREE_LIST_SIZE → ∀ l,
      IsChain onceReturned.heap (onceReturned.centralFreeList_ i) l → ∀ b ∈ l, b = 4096) ∧
    Acyclic onceReturned ∧ AlignedLists onceReturned := by
  have hchain : IsChain onceReturned.heap (onceReturned.centralFreeList_ 0) [4096] :=
    ⟨rfl, by decide, rfl⟩
  have hall : ∀ i, i < FREE_LIST_SIZE → ∀ l,
      IsChain onceReturned.heap (onceReturned.centralFreeList_ i) l → ∀ b ∈ l, b = 4096 := by
    intro i _ l hl b hb
    by_cases hi0 : i = 0
    · subst hi0
      rw [isChain_unique _ _ _ _ hl hchain] at hb
      exact List.mem_singleton.mp hb
    · have h0 : onceReturned.centralFreeList_ i = 0 := by simp [onceReturned, hi0]
      rw [h0] at hl
      cases l with
      | nil => simp at hb
      | cons c cs => exact absurd hl.1.symm hl.2.1
  refine ⟨hall, ?_⟩
  apply lists_of_chains
  intro i hi
  by_cases hi0 : i = 0
  · subst hi0
    exact ⟨[4096], hchain, by decide⟩
  · refine ⟨[], ?_, fun b hb => by simp at hb⟩
    show onceReturned.centralFreeList_ i = 0
    simp [onceReturned, hi0]

/-- With the block `4096` on the class 0 list: the class of 16-byte blocks is refilled from
a span at `65536`, and the block `8192` is returned to class 0. -/
theorem central_lists_acyclic_witness :
    (∃ r st1, fetchRange (fun _ _ => 65536) onceReturned 1 = some (r, st1) ∧
      Acyclic st1 ∧ AlignedLists st1) ∧
    (∃ st1, returnRange onceReturned 8192 1 0 = some st1 ∧ Acyclic st1 ∧ AlignedLists st1) :=
  ⟨(central_lists_acyclic (fun _ _ => 65536)).1 onceReturned 1 rfl onceReturned_lists.2.1
      onceReturned_lists.2.2
      (fun _ i hi l hl b hb => by
        rw [onceReturned_lists.1 i hi l hl b hb]
        decide)
      (fun _ => by decide),
    (central_lists_acyclic (fun _ _ => 65536)).2.1 onceReturned 8192 1 0 rfl
      onceReturned_lists.2.1 onceReturned_lists.2.2
      (fun _ _ => ⟨by decide, fun l hl b hb => by
        have hb1 : b = 8192 := List.mem_singleton.mp hb
        intro hmem
        have := onceReturned_lists.1 0 (by decide) l hl b hmem
        omega⟩)
      (fun _ _ b hb => by
        have hb1 : b = 8192 := List.mem_singleton.mp hb
        rw [hb1]
        decide)⟩

/-! ## Round trip -/

theorem isSeg_congr (h g : Heap) (q : Nat) :
    ∀ (l : List Nat) (p : Nat), (∀ b ∈ l, g b = h b) → IsSeg h p l q → IsSeg g p l q := by
  intro l
  induction l with
  | nil => intro p _ hc; exact hc
  | cons b bs ih =>
    intro p hg hc
    obtain ⟨hpb, hb, hrest⟩ := hc
    refine ⟨hpb, hb, ?_⟩
    rw [hg b (List.mem_cons_self b bs)]
    exact ih _ (fun x hx => hg x (List.mem_cons_of_mem b hx)) hrest

theorem isSeg_snoc (h : Heap) (b q : Nat) (hb : b ≠ 0) (hq : h b = q) :
    ∀ (l : List Nat) (p : Nat), IsSeg h p l b → IsSeg h p (l ++ [b]) q := by
  intro l
  induction l with
  | nil =>
    intro p hp
    exact ⟨hp, hb, hq⟩
  | cons c cs ih =>
    intro p hp
    exact ⟨hp.1, hp.2.1, ih _ hp.2.2⟩

theorem fetchRange_locks (pc : List Nat → Nat → Nat) (st st1 : CentralCache) (index r : Nat)
    (h : fetchRange pc st index = some (r, st1)) : st1.locks_ = st.locks_ := by
  by_cases hi : index < FREE_LIST_SIZE
  swap
  · rw [fetchRange_refused pc st index (Nat.not_lt.mp hi)] at h
    simp only [Option.some.injEq, Prod.mk.injEq] at h
    rw [← h.2]
  have hl := fetchRange_locked pc st st1 index r h hi
  by_cases hh : st.centralFreeList_ index = 0
  · by_cases hp : spanBase pc st index = 0
    · rw [fetchRange_oom pc st index hi hl hh hp] at h
      simp only [Option.some.injEq, Prod.mk.injEq] at h
      rw [← h.2]
    · by_cases hk : 1 < blockNum index
      · rw [fetchRange_carve pc st index hi hl hh hp hk] at h
        simp only [Option.some.injEq, Prod.mk.injEq] at h
        rw [← h.2]
      · rw [fetchRange_single pc st index hi hl hh hp (Nat.not_lt.mp hk)] at h
        simp only [Option.some.injEq, Prod.mk.injEq] at h
        rw [← h.2]
  · rw [fetchRange_pop pc st index hi hl hh] at h
    simp only [Option.some.injEq, Prod.mk.injEq] at h
    rw [← h.2]

theorem fetchMany_succ_inv (pc : List Nat → Nat → Nat) (index n : Nat)
    (st st1 : CentralCache) (bs : List Nat)
    (h : fetchMany pc index (n + 1) st = some (bs, st1)) :
    ∃ r st2 rs, fetchRange pc st index = some (r, st2) ∧
      fetchMany pc index n st2 = some (rs, st1) ∧ bs = r :: rs := by
  cases hf : fetchRange pc st index with
  | none => simp [fetchMany, hf] at h
  | some p =>
    obtain ⟨r, st2⟩ := p
    cases hm : fetchMany pc index n st2 with
    | none => simp [fetchMany, hf, hm] at h
    | some q =>
      obtain ⟨rs, st3⟩ := q
      simp only [fetchMany, hf, hm, Option.some.injEq, Prod.mk.injEq] at h
      exact ⟨r, st2, rs, rfl, by rw [← h.2]; exact hm, h.1.symm⟩

theorem fetchMany_length (pc : List Nat → Nat → Nat) (index : Nat) :
    ∀ (n : Nat) (st st1 : CentralCache) (bs : List Nat),
      fetchMany pc index n st = some (bs, st1) → bs.length = n := by
  intro n
  induction n with
  | zero =>
    intro st st1 bs h
    simp only [fetchMany, Option.some.injEq, Prod.mk.injEq] at h
    rw [← h.1]; rfl
  | succ n ih =>
    intro st st1 bs h
    obtain ⟨r, st2, rs, _, hm, hbs⟩ := fetchMany_succ_inv pc index n st st1 bs h
    rw [hbs, List.length_cons, ih st2 st1 rs hm]

theorem fetchMany_locks (pc : List Nat → Nat → Nat) (index : Nat) :
    ∀ (n : Nat) (st st1 : CentralCache) (bs : List Nat),
      fetchMany pc index n st = some (bs, st1) → st1.locks_ = st.locks_ := by
  intro n
  induction n with
  | zero =>
    intro st st1 bs h
    simp only [fetchMany, Option.some.injEq, Prod.mk.injEq] at h
    rw [← h.2]
  | succ n ih =>
    intro st st1 bs h
    obtain ⟨r, st2, rs, hf, hm, _⟩ := fetchMany_succ_inv pc index n st st1 bs h
    rw [ih st2 st1 rs hm, fetchRange_locks pc st st2 index r hf]

/-- Popping a stretch of blocks that are at least 8 bytes apart off the class list: the
calls return the blocks in list order, request no span and leave the rest of the list as the
class list. -/
theorem fetchMany_pops (pc : List Nat → Nat → Nat) (index : Nat) (hi : index < FREE_LIST_SIZE)
    (q : Nat) :
    ∀ (l : List Nat) (st : CentralCache), st.locks_ index = false →
      IsSeg st.heap (st.centralFreeList_ index) l q → l.Pairwise Apart →
      ∃ st1, fetchMany pc index l.length st = some (l, st1) ∧
        st1.centralFreeList_ index = q ∧ st1.spanLog = st.spanLog := by
  intro l
  induction l with
  | nil =>
    intro st _ hseg _
    exact ⟨st, rfl, hseg, rfl⟩
  | cons b bs ih =>
    intro st hl hseg hnd
    obtain ⟨hb, hb0, hrest⟩ := hseg
    have hh : st.centralFreeList_ index ≠ 0 := by rw [hb]; exact hb0
    have hpop := fetchRange_pop pc st index hi hl hh
    rw [hb] at hpop
    have hseg1 : IsSeg (store st.heap b 0) (st.heap b) bs q := by
      apply isSeg_congr st.heap _ q bs _ _ hrest
      intro x hx
      exact store_other _ _ _ _ (apart_symm _ _ ((List.pairwise_cons.mp hnd).1 x hx))
    obtain ⟨st1, hm, hq, hlog⟩ := ih
      { st with
        heap := store st.heap b 0
        centralFreeList_ := setAt st.centralFreeList_ index (st.heap b) }
      hl (by simpa [setAt_same] using hseg1) (List.pairwise_cons.mp hnd).2
    refine ⟨st1, ?_, hq, hlog⟩
    simp only [List.length_cons, fetchMany, hpop, hm]

/-- Giving back non-null blocks that are at least 8 bytes apart one at a time stacks them
on the class list, the last one given back on top. -/
theorem returnEach_pushes (index : Nat) (hi : index < FREE_LIST_SIZE) :
    ∀ (rs : List Nat) (st : CentralCache), st.locks_ index = false →
      (∀ b ∈ rs, b ≠ 0) → rs.Pairwise Apart →
      ∃ st1, returnEach index rs st = some st1 ∧
        IsSeg st1.heap (st1.centralFreeList_ index) rs.reverse (st.centralFreeList_ index) ∧
        st1.locks_ = st.locks_ ∧ st1.spanLog = st.spanLog ∧
        (∀ x, (∀ b ∈ rs, Apart x b) → st1.heap x = st.heap x) := by
  intro rs
  induction rs with
  | nil =>
    intro st _ _ _
    exact ⟨st, rfl, rfl, rfl, rfl, fun _ _ => rfl⟩
  | cons b bs ih =>
    intro st hl hnz hnd
    have hb0 : b ≠ 0 := hnz b (List.mem_cons_self b bs)
    have hret := returnRange_eq st b 1 index hb0 hi hl
    have hwalk : walkEnd st.heap 1 1 b 1 = b := by simp [walkEnd]
    rw [hwalk] at hret
    obtain ⟨st1, hm, hseg, hlocks, hlog, hheap⟩ := ih
      { st with
        heap := store st.heap b (st.centralFreeList_ index)
        centralFreeList_ := setAt st.centralFreeList_ index b }
      hl (fun x hx => hnz x (List.mem_cons_of_mem b hx)) (List.pairwise_cons.mp hnd).2
    refine ⟨st1, ?_, ?_, hlocks, hlog, ?_⟩
    · simp only [returnEach, hret, hm]
    · rw [List.reverse_cons]
      apply isSeg_snoc st1.heap b _ hb0 _ _ _ (by simpa [setAt_same] using hseg)
      rw [hheap b (List.pairwise_cons.mp hnd).1]
      exact store_same _ _ _
    · intro x hx
      rw [hheap x (fun c hc => hx c (List.mem_cons_of_mem b hc))]
      exact store_other _ _ _ _ (hx b (List.mem_cons_self b bs))

/-- C5, as stated, fails when the blocks fetched are not pairwise distinct.  Class 4095
(one block per span) of the empty cache: a block is fetched and given back twice, which
leaves it pointing to itself.  Three calls of `fetchRange` then return the non-null blocks
`4096, 4096, 36864`; they are given back in the order `36864, 4096, 4096`; three more calls
return `4096, 4096, 69632`, which is neither the reverse order nor the same address set,
and a new span is requested from the page cache.  The same happens from the empty cache,
every block being given back once, when the page cache hands out one span twice
(`reusingSpans`): the blocks fetched are `4096, 4096, 69632` and the second round returns
`4096, 4096, 102400`. -/
theorem round_trip_fails_after_double_return :
    (∃ s1 s2 s3 s4 s5 s6 : CentralCache,
      fetchRange freshSpans emptyCache 4095 = some (4096, s1) ∧
      returnRange s1 4096 1 4095 = some s2 ∧
      returnRange s2 4096 1 4095 = some s3 ∧
      fetchMany freshSpans 4095 3 s3 = some ([4096, 4096, 36864], s4) ∧
      List.Perm [36864, 4096, 4096] [4096, 4096, 36864] ∧
      returnEach 4095 [36864, 4096, 4096] s4 = some s5 ∧
      fetchMany freshSpans 4095 3 s5 = some ([4096, 4096, 69632], s6) ∧
      [4096, 4096, 69632] ≠ List.reverse [36864, 4096, 4096] ∧
      69632 ∉ [4096, 4096, 36864] ∧
      s6.spanLog ≠ s5.spanLog) ∧
    (∃ s1 s2 s3 : CentralCache,
      fetchMany reusingSpans 4095 3 emptyCache = some ([4096, 4096, 69632], s1) ∧
      List.Perm [69632, 4096, 4096] [4096, 4096, 69632] ∧
      returnEach 4095 [69632, 4096, 4096] s1 = some s2 ∧
      fetchMany reusingSpans 4095 3 s2 = some ([4096, 4096, 102400], s3) ∧
      102400 ∉ [4096, 4096, 69632] ∧
      s3.spanLog ≠ s2.spanLog) :=
  ⟨⟨_, _, _, _, _, _, rfl, rfl, rfl, rfl, by decide, rfl, rfl, by decide, by decide,
      by decide⟩,
    ⟨_, _, _, rfl, by decide, rfl, rfl, by decide, by decide⟩⟩

/-- C5 (amended): if `N` successive calls `fetchRange(index)` return non-null blocks that
are pairwise at least 8 bytes apart (so they are pairwise distinct and their next words do
not overlap), and these are given back one at a time by `returnRange(b, 1, index)` in an
arbitrary order `rs`, whatever the caller has stored in memory in between (`used` is the
memory at the time of the first return), then `N` more calls of `fetchRange(index)` return
non-null blocks that form the same address set, in the reverse of the order in which they
were given back, and no span is requested from the page cache during the second round. -/
theorem central_round_trip (pc : List Nat → Nat → Nat) (st st1 : CentralCache) (used : Heap)
    (index N : Nat) (bs rs : List Nat) (hi : index < FREE_LIST_SIZE) (hN : 1 ≤ N)
    (hfetch : fetchMany pc index N st = some (bs, st1))
    (hnz : ∀ b ∈ bs, b ≠ 0) (hnd : bs.Pairwise Apart) (hperm : rs.Perm bs) :
    ∃ st2 cs st3, returnEach index rs { st1 with heap := used } = some st2 ∧
      fetchMany pc index N st2 = some (cs, st3) ∧
      cs = rs.reverse ∧ (∀ b ∈ cs, b ≠ 0) ∧ cs.Perm bs ∧ st3.spanLog = st2.spanLog := by
  obtain ⟨n, rfl⟩ : ∃ n, N = n + 1 := ⟨N - 1, by omega⟩
  have hlock : st1.locks_ index = false := by
    obtain ⟨r, st0, _, hf, _, _⟩ := fetchMany_succ_inv pc index n st st1 bs hfetch
    rw [fetchMany_locks pc index (n + 1) st st1 bs hfetch]
    exact fetchRange_locked pc st st0 index r hf hi
  have hlen : rs.reverse.length = n + 1 := by
    rw [List.length_reverse, hperm.length_eq]
    exact fetchMany_length pc index (n + 1) st st1 bs hfetch
  have hnz2 : ∀ b ∈ rs, b ≠ 0 := fun b hb => hnz b (hperm.mem_iff.mp hb)
  have hrs : rs.Pairwise Apart :=
    (List.Perm.pairwise_iff (fun h => apart_symm _ _ h) hperm).mpr hnd
  obtain ⟨st2, hret, hseg, hlocks, _, _⟩ :=
    returnEach_pushes index hi rs { st1 with heap := used } hlock hnz2 hrs
  obtain ⟨st3, hm, _, hlog⟩ := fetchMany_pops pc index hi _ rs.reverse st2
    (by rw [hlocks]; exact hlock) hseg
    (List.pairwise_reverse.mpr (hrs.imp (fun h => apart_symm _ _ h)))
  rw [hlen] at hm
  refine ⟨st2, rs.reverse, st3, hret, hm, rfl, ?_, ?_, hlog⟩
  · intro b hb
    exact hnz2 b (List.mem_reverse.mp hb)
  · exact (List.reverse_perm rs).trans hperm

/-- Two blocks of class 4095 fetched from the empty cache; the caller stores the word
`48879` in the first, gives the two back in the opposite order, and fetches twice again. -/
theorem central_round_trip_witness :
    ∃ st1, fetchMany freshSpans 4095 2 emptyCache = some ([4096, 36864], st1) ∧
      ∃ st2 cs st3, returnEach 4095 [36864, 4096]
          { st1 with heap := store (fun _ => 0) 4096 48879 } = some st2 ∧
        fetchMany freshSpans 4095 2 st2 = some (cs, st3) ∧
        cs = List.reverse [36864, 4096] ∧ (∀ b ∈ cs, b ≠ 0) ∧ cs.Perm [4096, 36864] ∧
        st3.spanLog = st2.spanLog :=
  ⟨_, rfl, central_round_trip freshSpans emptyCache _ (store (fun _ => 0) 4096 48879) 4095 2
    [4096, 36864] [36864, 4096]
    (by decide) (by decide) rfl (by decide) (by decide) (by decide)⟩

/-! ## Null results -/

/-- C6: with the flag clear `fetchRange` returns, and it returns null exactly when the index
is out of range or the class list is empty and the page cache answers the span request with
null; whenever it returns null every list head, every next word and every flag is as before
the call. -/
theorem fetchRange_null_iff (pc : List Nat → Nat → Nat) (st : CentralCache) (index : Nat)
    (hl : index < FREE_LIST_SIZE → st.locks_ index = false) :
    ∃ r st1, fetchRange pc st index = some (r, st1) ∧
      (r = 0 ↔ FREE_LIST_SIZE ≤ index ∨
        (st.centralFreeList_ index = 0 ∧ spanBase pc st index = 0)) ∧
      (r = 0 → st1.centralFreeList_ = st.centralFreeList_ ∧ st1.heap = st.heap ∧
        st1.locks_ = st.locks_) := by
  by_cases hi : index < FREE_LIST_SIZE
  · have hni : ¬ FREE_LIST_SIZE ≤ index := Nat.not_le.mpr hi
    by_cases hh : st.centralFreeList_ index = 0
    · by_cases hp : spanBase pc st index = 0
      · refine ⟨_, _, fetchRange_oom pc st index hi (hl hi) hh hp, ?_, fun _ => ⟨rfl, rfl, rfl⟩⟩
        exact ⟨fun _ => Or.inr ⟨hh, hp⟩, fun _ => rfl⟩
      · by_cases hk : 1 < blockNum index
        · refine ⟨_, _, fetchRange_carve pc st index hi (hl hi) hh hp hk, ?_,
            fun h0 => absurd h0 hp⟩
          constructor
          · intro h0; exact absurd h0 hp
          · rintro (h1 | ⟨_, h2⟩)
            · exact absurd h1 hni
            · exact h2
        · refine ⟨_, _, fetchRange_single pc st index hi (hl hi) hh hp (Nat.not_lt.mp hk), ?_,
            fun h0 => absurd h0 hp⟩
          constructor
          · intro h0; exact absurd h0 hp
          · rintro (h1 | ⟨_, h2⟩)
            · exact absurd h1 hni
            · exact h2
    · refine ⟨_, _, fetchRange_pop pc st index hi (hl hi) hh, ?_, fun h0 => absurd h0 hh⟩
      constructor
      · intro h0; exact absurd h0 hh
      · rintro (h1 | ⟨h2, _⟩)
        · exact absurd h1 hni
        · exact absurd h2 hh
  · have hge : FREE_LIST_SIZE ≤ index := Nat.not_lt.mp hi
    exact ⟨_, _, fetchRange_refused pc st index hge, ⟨fun _ => Or.inl hge, fun _ => rfl⟩,
      fun _ => ⟨rfl, rfl, rfl⟩⟩

/-- The empty cache in front of a page cache that is out of memory. -/
theorem fetchRange_null_iff_witness :
    ∃ r st1, fetchRange (fun _ _ => 0) emptyCache 3 = some (r, st1) ∧
      (r = 0 ↔ FREE_LIST_SIZE ≤ 3 ∨
        (emptyCache.centralFreeList_ 3 = 0 ∧ spanBase (fun _ _ => 0) emptyCache 3 = 0)) ∧
      (r = 0 → st1.centralFreeList_ = emptyCache.centralFreeList_ ∧
        st1.heap = emptyCache.heap ∧ st1.locks_ = emptyCache.locks_) :=
  fetchRange_null_iff (fun _ _ => 0) emptyCache 3 (fun _ => rfl)

/-! ## Size classes -/

theorem index_succ_mul (size : Nat) (h1 : 1 ≤ size) :
    (index size + 1) * ALIGNMENT = round_up size := by
  unfold index round_up ALIGNMENT
  have h8 : 1 ≤ (size + 8 - 1) / 8 := by omega
  rw [Nat.mul_div_cancel _ (by omega : 0 < 8)]
  rw [Nat.sub_add_cancel h8]

/-- C9: for `1 ≤ size ≤ MAX_BYTES` the class `index(size)` is in range and the block size
`fetchRange` carves for it, `(index(size) + 1) * ALIGNMENT`, equals `round_up(size)`, is a
multiple of `ALIGNMENT`, is at least `size`, is less than `size + ALIGNMENT`, and is the
least multiple of `ALIGNMENT` that holds `size` bytes. -/
theorem blockSize_index (size : Nat) (h1 : 1 ≤ size) (h2 : size ≤ MAX_BYTES) :
    index size < FREE_LIST_SIZE ∧
      blockSize (index size) = round_up size ∧
      ALIGNMENT ∣ blockSize (index size) ∧
      size ≤ blockSize (index size) ∧
      blockSize (index size) < size + ALIGNMENT ∧
      ∀ m, ALIGNMENT ∣ m → size ≤ m → blockSize (index size) ≤ m := by
  have hb : blockSize (index size) = round_up size := index_succ_mul size h1
  rw [hb]
  unfold index round_up ALIGNMENT FREE_LIST_SIZE MAX_BYTES ALIGNMENT at *
  refine ⟨?_, rfl, Nat.dvd_mul_left _ _, ?_, ?_, ?_⟩
  · rw [Nat.mul_div_cancel _ (by omega : 0 < 8)]
    omega
  · omega
  · omega
  · rintro m ⟨k, rfl⟩ hm
    omega

/-- The request of 13 bytes is served from the class of 16-byte blocks. -/
theorem blockSize_index_witness :
    index 13 < FREE_LIST_SIZE ∧
      blockSize (index 13) = round_up 13 ∧
      ALIGNMENT ∣ blockSize (index 13) ∧
      13 ≤ blockSize (index 13) ∧
      blockSize (index 13) < 13 + ALIGNMENT ∧
      ∀ m, ALIGNMENT ∣ m → 13 ≤ m → blockSize (index 13) ≤ m :=
  blockSize_index 13 (by decide) (by decide)

/-- C10: for every size of at least one byte `index(size) < FREE_LIST_SIZE` holds exactly
when `size ≤ MAX_BYTES`; `index(MAX_BYTES) = FREE_LIST_SIZE - 1` passes the range check of
`fetchRange` and `returnRange` (a listed block is popped, a returned block becomes the head),
and `index(MAX_BYTES + 1) = FREE_LIST_SIZE` is refused by both (null result, nothing
changed). -/
theorem class_path_boundary :
    ALIGNMENT = 8 ∧ MAX_BYTES = 256 * 1024 ∧ FREE_LIST_SIZE = MAX_BYTES / ALIGNMENT ∧
    (∀ size, 1 ≤ size → (index size < FREE_LIST_SIZE ↔ size ≤ MAX_BYTES)) ∧
    index MAX_BYTES = FREE_LIST_SIZE - 1 ∧
    index (MAX_BYTES + 1) = FREE_LIST_SIZE ∧
    (∀ pc st, fetchRange pc st (index (MAX_BYTES + 1)) = some (0, st)) ∧
    (∀ st start count, returnRange st start count (index (MAX_BYTES + 1)) = some st) ∧
    (∀ pc st, st.locks_ (index MAX_BYTES) = false → st.centralFreeList_ (index MAX_BYTES) ≠ 0 →
      ∃ st1, fetchRange pc st (index MAX_BYTES) =
        some (st.centralFreeList_ (index MAX_BYTES), st1)) ∧
    (∀ st start count, st.locks_ (index MAX_BYTES) = false → start ≠ 0 →
      ∃ st1, returnRange st start count (index MAX_BYTES) = some st1 ∧
        st1.centralFreeList_ (index MAX_BYTES) = start) := by
  have hmax : index MAX_BYTES = FREE_LIST_SIZE - 1 := by decide
  have hover : index (MAX_BYTES + 1) = FREE_LIST_SIZE := by decide
  have hin : index MAX_BYTES < FREE_LIST_SIZE := by decide
  refine ⟨rfl, rfl, rfl, ?_, hmax, hover, ?_, ?_, ?_, ?_⟩
  · intro size h1
    unfold index round_up FREE_LIST_SIZE MAX_BYTES ALIGNMENT
    rw [Nat.mul_div_cancel _ (by omega : 0 < 8)]
    omega
  · intro pc st
    exact fetchRange_refused pc st _ (Nat.le_of_eq hover.symm)
  · intro st start count
    exact returnRange_ignored st start count _ (Or.inr (Nat.le_of_eq hover.symm))
  · intro pc st hl hh
    exact ⟨_, fetchRange_pop pc st _ hin hl hh⟩
  · intro st start count hl hs
    exact ⟨_, returnRange_eq st start count _ hs hin hl, by simp only [setAt_same]⟩

/-! ## Blocks handed out do not overlap -/

theorem spanBlocks_carve (index base : Nat) (hk : 1 < blockNum index) :
    spanBlocks index base = base :: blocksOf base (blockSize index) 1 (blockNum index - 1) := by
  unfold spanBlocks
  rw [Nat.max_eq_left (by omega)]
  obtain ⟨m, hm⟩ : ∃ m, blockNum index = m + 1 := ⟨blockNum index - 1, by omega⟩
  rw [hm, blocksOf_cons]
  simp

theorem spanBlocks_single (index base : Nat) (hk : blockNum index ≤ 1) :
    spanBlocks index base = [base] := by
  unfold spanBlocks
  rw [Nat.max_eq_right hk]
  simp [blocksOf]

/-- Successive calls of `fetchRange` hand out the blocks of the spans in order: the blocks
handed out so far followed by the class list are the blocks of all spans requested so far. -/
theorem fetchMany_stream (pc : List Nat → Nat → Nat) (index : Nat) (hi : index < FREE_LIST_SIZE)
    (old : List Nat) :
    ∀ (n : Nat) (st st1 : CentralCache) (bs got l new0 : List Nat),
      st.spanLog = new0 ++ old →
      IsChain st.heap (st.centralFreeList_ index) l → l.Pairwise Apart →
      got ++ l = allBlocks index (spansHanded pc old new0) →
      (∀ sp ∈ spansHanded pc old new0, sp.2 = spanPagesFor (blockSize index)) →
      fetchMany pc index n st = some (bs, st1) → (∀ b ∈ bs, b ≠ 0) →
      ∃ new1 l1, st1.spanLog = new1 ++ old ∧
        (got ++ bs) ++ l1 = allBlocks index (spansHanded pc old new1) ∧
        (∀ sp ∈ spansHanded pc old new1, sp.2 = spanPagesFor (blockSize index)) := by
  intro n
  induction n with
  | zero =>
    intro st st1 bs got l new0 hlog _ _ hall hpages hrun _
    simp only [fetchMany, Option.some.injEq, Prod.mk.injEq] at hrun
    refine ⟨new0, l, ?_, ?_, hpages⟩
    · rw [← hrun.2]; exact hlog
    · rw [← hrun.1, List.append_nil]; exact hall
  | succ n ih =>
    intro st st1 bs got l new0 hlog hchain hsp hall hpages hrun hnz
    obtain ⟨r, st2, rs, hf, hm, hbs⟩ := fetchMany_succ_inv pc index n st st1 bs hrun
    subst hbs
    have hr0 : r ≠ 0 := hnz r (List.mem_cons_self r rs)
    have hnz2 : ∀ b ∈ rs, b ≠ 0 := fun b hb => hnz b (List.mem_cons_of_mem r hb)
    have hl := fetchRange_locked pc st st2 index r hf hi
    have hassoc : got ++ r :: rs = (got ++ [r]) ++ rs := by simp
    rw [hassoc]
    by_cases hh : st.centralFreeList_ index = 0
    · have hl0 : l = [] := by
        cases l with
        | nil => rfl
        | cons c cs => rw [hh] at hchain; exact absurd hchain.1.symm hchain.2.1
      subst hl0
      have hbase : spanBase pc st index = pc (new0 ++ old) (spanPagesFor (blockSize index)) := by
        unfold spanBase; rw [hlog]
      have hpages2 : ∀ sp ∈ spansHanded pc old (spanPagesFor (blockSize index) :: new0),
          sp.2 = spanPagesFor (blockSize index) := by
        intro sp hsp
        simp only [spansHanded, List.mem_cons] at hsp
        rcases hsp with hsp | hsp
        · rw [hsp]
        · exact hpages sp hsp
      by_cases hp : spanBase pc st index = 0
      · rw [fetchRange_oom pc st index hi hl hh hp] at hf
        simp only [Option.some.injEq, Prod.mk.injEq] at hf
        exact absurd hf.1.symm hr0
      · by_cases hk : 1 < blockNum index
        · rw [fetchRange_carve pc st index hi hl hh hp hk] at hf
          simp only [Option.some.injEq, Prod.mk.injEq] at hf
          obtain ⟨hr, hst⟩ := hf
          have hchain2 := isChain_refill_list (spanBase pc st index) (blockSize index)
            (blockNum index) (blockSize_ge index) hp hk st.heap
          rw [refill_head _ _ _ (blockSize_ge index) hk] at hchain2
          apply ih st2 st1 rs (got ++ [r])
            (blocksOf (spanBase pc st index) (blockSize index) 1 (blockNum index - 1))
            (spanPagesFor (blockSize index) :: new0) _ _
            (blocksOf_apart _ _ _ _ (blockSize_ge index)) _ hpages2 hm hnz2
          · rw [← hst]; simp [hlog]
          · rw [← hst]; simpa [setAt_same] using hchain2
          · simp only [spansHanded, allBlocks]
            rw [← hbase, spanBlocks_carve index _ hk, ← hall, ← hr]
            simp
        · have hk1 : blockNum index ≤ 1 := Nat.not_lt.mp hk
          rw [fetchRange_single pc st index hi hl hh hp hk1] at hf
          simp only [Option.some.injEq, Prod.mk.injEq] at hf
          obtain ⟨hr, hst⟩ := hf
          apply ih st2 st1 rs (got ++ [r]) [] (spanPagesFor (blockSize index) :: new0)
            _ _ List.Pairwise.nil _ hpages2 hm hnz2
          · rw [← hst]; simp [hlog]
          · rw [← hst]; exact hh
          · simp only [spansHanded, allBlocks]
            rw [← hbase, spanBlocks_single index _ hk1, ← hall, ← hr]
            simp
    · rw [fetchRange_pop pc st index hi hl hh] at hf
      simp only [Option.some.injEq, Prod.mk.injEq] at hf
      obtain ⟨hr, hst⟩ := hf
      cases l with
      | nil => exact absurd hchain hh
      | cons c cs =>
        obtain ⟨hc, _, hrest⟩ := hchain
        have hrc : r = c := hr.symm.trans hc
        apply ih st2 st1 rs (got ++ [r]) cs new0 _ _ (List.pairwise_cons.mp hsp).2 _ hpages
          hm hnz2
        · rw [← hst]; exact hlog
        · rw [← hst]
          simp only [setAt_same]
          rw [hc]
          exact isChain_store_of_apart _ _ _ _ _
            (fun x hx => apart_symm _ _ ((List.pairwise_cons.mp hsp).1 x hx)) hrest
        · rw [← hall, hrc]; simp

theorem spanBlocks_inside (index base p : Nat) (hi : index < FREE_LIST_SIZE)
    (hp : p ∈ spanBlocks index base) :
    ∃ i, p = base + i * blockSize index ∧
      (i + 1) * blockSize index ≤ spanPagesFor (blockSize index) * PAGE_SIZE := by
  unfold spanBlocks at hp
  obtain ⟨i, _, hi2, hpi⟩ := (mem_blocksOf _ _ _ _ _).mp hp
  refine ⟨i, hpi, ?_⟩
  have hcount := span_block_count index hi
  have hle : (max (blockNum index) 1) * blockSize index ≤
      spanPagesFor (blockSize index) * PAGE_SIZE := by
    rw [← hcount]; exact Nat.div_mul_le_self _ _
  have : (i + 1) * blockSize index ≤ (max (blockNum index) 1) * blockSize index :=
    Nat.mul_le_mul_right _ (by omega)
  omega

theorem allBlocks_inside (index : Nat) (hi : index < FREE_LIST_SIZE) :
    ∀ (spans : List (Nat × Nat)), (∀ sp ∈ spans, sp.2 = spanPagesFor (blockSize index)) →
      ∀ p ∈ allBlocks index spans, ∃ sp ∈ spans,
        sp.1 ≤ p ∧ p + blockSize index ≤ sp.1 + sp.2 * PAGE_SIZE := by
  intro spans
  induction spans with
  | nil => intro _ p hp; simp [allBlocks] at hp
  | cons sp rest ih =>
    intro hpages p hp
    simp only [allBlocks, List.mem_append] at hp
    rcases hp with hp | hp
    · obtain ⟨sp1, hsp1, hin⟩ := ih (fun x hx => hpages x (List.mem_cons_of_mem sp hx)) p hp
      exact ⟨sp1, List.mem_cons_of_mem sp hsp1, hin⟩
    · obtain ⟨i, hpi, hle⟩ := spanBlocks_inside index sp.1 p hi hp
      refine ⟨sp, List.mem_cons_self sp rest, by omega, ?_⟩
      rw [hpages sp (List.mem_cons_self sp rest)]
      have : (i + 1) * blockSize index = i * blockSize index + blockSize index := by ring
      omega

theorem spanBlocks_pairwise (index base : Nat) :
    (spanBlocks index base).Pairwise (RangesDisjoint (blockSize index)) := by
  unfold spanBlocks blocksOf
  rw [List.pairwise_map]
  refine List.Pairwise.imp ?_ (List.pairwise_lt_range' 0 _)
  intro a b hab
  left
  have : (a + 1) * blockSize index ≤ b * blockSize index := Nat.mul_le_mul_right _ hab
  have h2 : (a + 1) * blockSize index = a * blockSize index + blockSize index := by ring
  omega

theorem allBlocks_pairwise (index : Nat) (hi : index < FREE_LIST_SIZE) :
    ∀ (spans : List (Nat × Nat)), (∀ sp ∈ spans, sp.2 = spanPagesFor (blockSize index)) →
      spans.Pairwise SpansDisjoint →
      (allBlocks index spans).Pairwise (RangesDisjoint (blockSize index)) := by
  intro spans
  induction spans with
  | nil => intro _ _; simp [allBlocks]
  | cons sp rest ih =>
    intro hpages hdisj
    have hpages2 : ∀ x ∈ rest, x.2 = spanPagesFor (blockSize index) :=
      fun x hx => hpages x (List.mem_cons_of_mem sp hx)
    obtain ⟨hsp, hrest⟩ := List.pairwise_cons.mp hdisj
    simp only [allBlocks]
    rw [List.pairwise_append]
    refine ⟨ih hpages2 hrest, spanBlocks_pairwise index sp.1, ?_⟩
    intro p hp q hq
    obtain ⟨sp1, hsp1, h1, h2⟩ := allBlocks_inside index hi rest hpages2 p hp
    obtain ⟨i, hqi, hle⟩ := spanBlocks_inside index sp.1 q hi hq
    have hd : sp.1 + sp.2 * PAGE_SIZE ≤ sp1.1 ∨ sp1.1 + sp1.2 * PAGE_SIZE ≤ sp.1 := hsp sp1 hsp1
    rw [hpages sp (List.mem_cons_self sp rest)] at hd
    have h3 : (i + 1) * blockSize index = i * blockSize index + blockSize index := by ring
    show p + blockSize index ≤ q ∨ q + blockSize index ≤ p
    rcases hd with hd | hd
    · right; omega
    · left; omega

/-- C7: starting from an empty class list, if `N` successive calls `fetchRange(index)` all
return non-null blocks and the spans the page cache handed out during the run are pairwise
disjoint, then the returned addresses are pairwise different, the byte ranges `[p, p + s)`
of any two of them are disjoint, and each range lies inside one of the spans handed out. -/
theorem fetched_blocks_disjoint (pc : List Nat → Nat → Nat) (st st1 : CentralCache)
    (index N : Nat) (bs new : List Nat)
    (hi : index < FREE_LIST_SIZE) (hempty : st.centralFreeList_ index = 0)
    (hrun : fetchMany pc index N st = some (bs, st1)) (hnz : ∀ b ∈ bs, b ≠ 0)
    (hlog : st1.spanLog = new ++ st.spanLog)
    (hdisj : (spansHanded pc st.spanLog new).Pairwise SpansDisjoint) :
    bs.Nodup ∧ bs.Pairwise (RangesDisjoint (blockSize index)) ∧
      ∀ p ∈ bs, ∃ sp ∈ spansHanded pc st.spanLog new,
        sp.1 ≤ p ∧ p + blockSize index ≤ sp.1 + sp.2 * PAGE_SIZE := by
  obtain ⟨new1, l1, hlog1, hall, hpages⟩ := fetchMany_stream pc index hi st.spanLog N st st1 bs
    [] [] [] rfl hempty List.Pairwise.nil rfl (fun sp hsp => by simp [spansHanded] at hsp)
    hrun hnz
  have hnew : new1 = new := by
    rw [hlog] at hlog1
    exact (List.append_cancel_right hlog1).symm
  subst hnew
  rw [List.nil_append] at hall
  have hpw := allBlocks_pairwise index hi _ hpages hdisj
  rw [← hall] at hpw
  have hbs : bs.Pairwise (RangesDisjoint (blockSize index)) :=
    hpw.sublist (List.sublist_append_left bs l1)
  refine ⟨?_, hbs, ?_⟩
  · refine List.Pairwise.imp ?_ hbs
    intro a b hab
    have hpos := blockSize_pos index
    have hab2 : a + blockSize index ≤ b ∨ b + blockSize index ≤ a := hab
    omega
  · intro p hp
    apply allBlocks_inside index hi _ hpages p
    rw [← hall]
    exact List.mem_append_left l1 hp

/-- Three blocks of 16384 bytes fetched from the empty cache: two from the first span, one
from the second. -/
theorem fetched_blocks_disjoint_witness :
    ∃ st1, fetchMany freshSpans 2047 3 emptyCache = some ([4096, 20480, 36864], st1) ∧
      st1.spanLog = [8, 8] ++ emptyCache.spanLog ∧
      List.Nodup [4096, 20480, 36864] ∧
      List.Pairwise (RangesDisjoint (blockSize 2047)) [4096, 20480, 36864] ∧
      ∀ p ∈ [4096, 20480, 36864], ∃ sp ∈ spansHanded freshSpans emptyCache.spanLog [8, 8],
        sp.1 ≤ p ∧ p + blockSize 2047 ≤ sp.1 + sp.2 * PAGE_SIZE :=
  ⟨_, rfl, rfl, fetched_blocks_disjoint freshSpans emptyCache _ 2047 3 [4096, 20480, 36864] [8, 8]
    (by decide) rfl rfl (by decide) rfl (by decide)⟩

/-! ## Alignment of the blocks handed out -/

theorem returnRange_locks (st st1 : CentralCache) (start count index : Nat)
    (h : returnRange st start count index = some st1) : st1.locks_ = st.locks_ := by
  by_cases hs : start = 0
  · rw [returnRange_ignored st start count index (Or.inl hs)] at h
    simp only [Option.some.injEq] at h
    rw [← h]
  by_cases hi : index < FREE_LIST_SIZE
  · have hl := returnRange_locked st st1 start count index h hs hi
    rw [returnRange_eq st start count index hs hi hl] at h
    simp only [Option.some.injEq] at h
    rw [← h]
  · rw [returnRange_ignored st start count index (Or.inr (Nat.not_lt.mp hi))] at h
    simp only [Option.some.injEq] at h
    rw [← h]

theorem run_returns (pc : List Nat → Nat → Nat) :
    ∀ (ops : List Op) (st : CentralCache), (∀ i, st.locks_ i = false) →
      ∃ rs st1, run pc ops st = some (rs, st1) := by
  intro ops
  induction ops with
  | nil => intro st _; exact ⟨[], st, rfl⟩
  | cons op ops ih =>
    intro st hl
    cases op with
    | fetch index =>
      obtain ⟨r, st1, hf⟩ := fetchRange_returns pc st index (fun _ => hl index)
      have hl1 : ∀ i, st1.locks_ i = false := by
        intro i; rw [fetchRange_locks pc st st1 index r hf]; exact hl i
      obtain ⟨rs, st2, hr⟩ := ih st1 hl1
      exact ⟨r :: rs, st2, by simp only [run, hf, hr]⟩
    | give start count index =>
      obtain ⟨st1, hf⟩ := returnRange_returns st start count index (fun _ _ => hl index)
      have hl1 : ∀ i, st1.locks_ i = false := by
        intro i; rw [returnRange_locks st st1 start count index hf]; exact hl i
      obtain ⟨rs, st2, hr⟩ := ih st1 hl1
      exact ⟨rs, st2, by simp only [run, hf, hr]⟩
    | write a v =>
      obtain ⟨rs, st2, hr⟩ := ih { st with heap := store st.heap a v } hl
      exact ⟨rs, st2, by simp only [run, hr]⟩

theorem linked_of_same (st st1 : CentralCache) (b : Nat) (h : Linked st1 b)
    (hh : st1.centralFreeList_ = st.centralFreeList_) (hm : st1.heap = st.heap) :
    Linked st b := by
  induction h with
  | head i hi h0 => rw [hh] at h0 ⊢; exact Linked.head i hi h0
  | next b _ h0 ih => rw [hm] at h0 ⊢; exact Linked.next b ih h0

theorem walked_head (h : Heap) (size : Nat) (fuel e count : Nat) :
    e ∈ walked h size fuel e count := by
  cases fuel with
  | zero => simp [walked]
  | succ fuel =>
    by_cases hc : h e ≠ 0 ∧ count < size
    · simp only [walked, if_pos hc]; exact List.mem_cons_self _ _
    · simp only [walked, if_neg hc]; exact List.mem_singleton.mpr rfl

/-- The next word of a walked block other than the last one is the walked block after it. -/
theorem walked_next (h : Heap) (size : Nat) :
    ∀ (fuel e count b : Nat), b ∈ walked h size fuel e count →
      b ≠ walkEnd h size fuel e count → h b ∈ walked h size fuel e count := by
  intro fuel
  induction fuel with
  | zero =>
    intro e count b hb hne
    simp only [walked, List.mem_singleton] at hb
    simp only [walkEnd] at hne
    exact absurd hb hne
  | succ fuel ih =>
    intro e count b hb hne
    by_cases hc : h e ≠ 0 ∧ count < size
    · simp only [walked, walkEnd, if_pos hc] at hb hne ⊢
      rcases List.mem_cons.mp hb with hbe | hbe
      · rw [hbe]
        exact List.mem_cons_of_mem _ (walked_head h size fuel (h e) (count + 1))
      · exact List.mem_cons_of_mem _ (ih (h e) (count + 1) b hbe hne)
    · simp only [walked, walkEnd, if_neg hc] at hb hne
      exact absurd (List.mem_singleton.mp hb) hne

theorem blockSize_aligned (index : Nat) : ALIGNMENT ∣ blockSize index :=
  Dvd.intro_left _ rfl

theorem page_aligned (b : Nat) (h : PAGE_SIZE ∣ b) : ALIGNMENT ∣ b :=
  Dvd.dvd.trans (by decide : ALIGNMENT ∣ PAGE_SIZE) h

/-- A call of `fetchRange` returns an aligned block and keeps the listed blocks aligned. -/
theorem aligned_fetchRange (pc : List Nat → Nat → Nat) (hpc : ∀ log n, PAGE_SIZE ∣ pc log n)
    (st st1 : CentralCache) (index r : Nat)
    (h : fetchRange pc st index = some (r, st1))
    (hinv : ∀ b, Linked st b → ALIGNMENT ∣ b) :
    ALIGNMENT ∣ r ∧ ∀ b, Linked st1 b → ALIGNMENT ∣ b := by
  have hbase : ALIGNMENT ∣ spanBase pc st index := page_aligned _ (hpc _ _)
  by_cases hi : index < FREE_LIST_SIZE
  swap
  · rw [fetchRange_refused pc st index (Nat.not_lt.mp hi)] at h
    simp only [Option.some.injEq, Prod.mk.injEq] at h
    rw [← h.1, ← h.2]; exact ⟨Nat.dvd_zero _, hinv⟩
  have hl := fetchRange_locked pc st st1 index r h hi
  by_cases hh : st.centralFreeList_ index = 0
  · by_cases hp : spanBase pc st index = 0
    · rw [fetchRange_oom pc st index hi hl hh hp] at h
      simp only [Option.some.injEq, Prod.mk.injEq] at h
      rw [← h.1, ← h.2]
      exact ⟨Nat.dvd_zero _, fun b hb => hinv b (linked_of_same st _ b hb rfl rfl)⟩
    · by_cases hk : 1 < blockNum index
      · rw [fetchRange_carve pc st index hi hl hh hp hk] at h
        simp only [Option.some.injEq, Prod.mk.injEq] at h
        rw [← h.1, ← h.2]
        refine ⟨hbase, ?_⟩
        have hpos := blockSize_pos index
        have hcarved : ∀ j, ALIGNMENT ∣ spanBase pc st index + j * blockSize index :=
          fun j => Nat.dvd_add hbase (Dvd.dvd.mul_left (blockSize_aligned index) j)
        have key : ∀ b, Linked
            { st with
              spanLog := spanPagesFor (blockSize index) :: st.spanLog
              heap := refillHeap (spanBase pc st index) (blockSize index) (blockNum index) st.heap
              centralFreeList_ :=
                setAt st.centralFreeList_ index (spanBase pc st index + blockSize index) } b →
            (Linked st b ∨
              ∃ j, j < blockNum index ∧ b = spanBase pc st index + j * blockSize index) := by
          intro b hb
          induction hb with
          | head i hi2 h0 =>
            by_cases hii : i = index
            · right
              refine ⟨1, hk, ?_⟩
              simp only [hii, setAt_same]; ring
            · left
              simp only [setAt_other _ _ _ _ hii] at h0 ⊢
              exact Linked.head i hi2 h0
          | next b _ h0 ih =>
            simp only [] at h0 ⊢
            by_cases hcv : ∃ j, j < blockNum index ∧
                b = spanBase pc st index + j * blockSize index
            · obtain ⟨j, hj, hbj⟩ := hcv
              right
              by_cases hj0 : j = 0
              · rw [hbj, hj0] at h0
                simp only [Nat.zero_mul, Nat.add_zero, refillHeap_start] at h0
                exact absurd rfl h0
              · by_cases hjl : j + 1 < blockNum index
                · refine ⟨j + 1, hjl, ?_⟩
                  rw [hbj]
                  exact refillHeap_link _ _ _ (blockSize_ge index) _ j (by omega) hjl
                · have hjk : j = blockNum index - 1 := by omega
                  rw [hbj, hjk, refillHeap_last _ _ _ (blockSize_ge index) hk] at h0
                  exact absurd rfl h0
            · rcases ih with ih | ih
              · have hother : refillHeap (spanBase pc st index) (blockSize index)
                    (blockNum index) st.heap b = st.heap b :=
                  refillHeap_other _ _ _ (blockSize_ge index) _ b
                    (fun j hj => apart_of_aligned _ _ (hinv b ih) (hcarved j)
                      (fun hbj => hcv ⟨j, hj, hbj⟩)) hk
                rw [hother] at h0 ⊢
                left; exact Linked.next b ih h0
              · exact absurd ih hcv
        intro b hb
        rcases key b hb with h1 | ⟨j, _, hbj⟩
        · exact hinv b h1
        · rw [hbj]; exact hcarved j
      · rw [fetchRange_single pc st index hi hl hh hp (Nat.not_lt.mp hk)] at h
        simp only [Option.some.injEq, Prod.mk.injEq] at h
        rw [← h.1, ← h.2]
        exact ⟨hbase, fun b hb => hinv b (linked_of_same st _ b hb rfl rfl)⟩
  · rw [fetchRange_pop pc st index hi hl hh] at h
    simp only [Option.some.injEq, Prod.mk.injEq] at h
    rw [← h.1, ← h.2]
    refine ⟨hinv _ (Linked.head index hi hh), ?_⟩
    intro b hb
    apply hinv
    induction hb with
    | head i hi2 h0 =>
      by_cases hii : i = index
      · simp only [hii, setAt_same] at h0 ⊢
        exact Linked.next _ (Linked.head index hi hh) h0
      · simp only [setAt_other _ _ _ _ hii] at h0 ⊢
        exact Linked.head i hi2 h0
    | next b _ h0 ih =>
      simp only [] at h0 ⊢
      by_cases hbr : b = st.centralFreeList_ index
      · rw [hbr, store_same] at h0
        exact absurd rfl h0
      · have hap : Apart b (st.centralFreeList_ index) :=
          apart_of_aligned _ _ (hinv b ih) (hinv _ (Linked.head index hi hh)) hbr
        rw [store_other _ _ _ _ hap] at h0 ⊢
        exact Linked.next b ih h0

/-- A call of `returnRange` that walks over aligned blocks keeps the listed blocks aligned. -/
theorem aligned_returnRange (st st1 : CentralCache) (start count index : Nat)
    (h : returnRange st start count index = some st1)
    (hinv : ∀ b, Linked st b → ALIGNMENT ∣ b)
    (hw : start ≠ 0 → index < FREE_LIST_SIZE →
      ∀ b ∈ walked st.heap count count start 1, ALIGNMENT ∣ b) :
    ∀ b, Linked st1 b → ALIGNMENT ∣ b := by
  by_cases hs : start = 0
  · rw [returnRange_ignored st start count index (Or.inl hs)] at h
    simp only [Option.some.injEq] at h
    rw [← h]; exact hinv
  by_cases hi : index < FREE_LIST_SIZE
  swap
  · rw [returnRange_ignored st start count index (Or.inr (Nat.not_lt.mp hi))] at h
    simp only [Option.some.injEq] at h
    rw [← h]; exact hinv
  have hl := returnRange_locked st st1 start count index h hs hi
  rw [returnRange_eq st start count index hs hi hl] at h
  simp only [Option.some.injEq] at h
  rw [← h]
  have key : ∀ b, Linked
      { st with
        heap := store st.heap (walkEnd st.heap count count start 1) (st.centralFreeList_ index)
        centralFreeList_ := setAt st.centralFreeList_ index start } b →
      (Linked st b ∨ b ∈ walked st.heap count count start 1) := by
    intro b hb
    induction hb with
    | head i hi2 h0 =>
      by_cases hii : i = index
      · right
        simp only [hii, setAt_same]
        exact walked_head st.heap count count start 1
      · left
        simp only [setAt_other _ _ _ _ hii] at h0 ⊢
        exact Linked.head i hi2 h0
    | next b _ h0 ih =>
      simp only [] at h0 ⊢
      by_cases hbe : b = walkEnd st.heap count count start 1
      · rw [hbe, store_same] at h0 ⊢
        left
        exact Linked.head index hi h0
      · have hb8 : ALIGNMENT ∣ b := by
          rcases ih with ih | ih
          · exact hinv b ih
          · exact hw hs hi b ih
        have hap : Apart b (walkEnd st.heap count count start 1) :=
          apart_of_aligned _ _ hb8
            (hw hs hi _ (walkEnd_mem_walked st.heap count count start 1)) hbe
        rw [store_other _ _ _ _ hap] at h0 ⊢
        rcases ih with ih | ih
        · left; exact Linked.next b ih h0
        · right; exact walked_next st.heap count count start 1 b ih hbe
  intro b hb
  rcases key b hb with h1 | h1
  · exact hinv b h1
  · exact hw hs hi b h1

theorem aligned_run (pc : List Nat → Nat → Nat) (hpc : ∀ log n, PAGE_SIZE ∣ pc log n) :
    ∀ (ops : List Op) (st st1 : CentralCache) (got rs : List Nat),
      (∀ b, Linked st b → ALIGNMENT ∣ b) → (∀ b ∈ got, ALIGNMENT ∣ b) →
      ReturnsFetched pc ops st got → StoresOutside pc ops st →
      run pc ops st = some (rs, st1) →
      ∀ r ∈ rs, ALIGNMENT ∣ r := by
  intro ops
  induction ops with
  | nil =>
    intro st st1 got rs _ _ _ _ hrun
    simp only [run, Option.some.injEq, Prod.mk.injEq] at hrun
    rw [← hrun.1]
    intro r hr
    simp at hr
  | cons op ops ih =>
    intro st st1 got rs hinv hgot hvalid hstores hrun
    cases op with
    | fetch index =>
      cases hf : fetchRange pc st index with
      | none => simp [run, hf] at hrun
      | some p =>
        obtain ⟨r, st2⟩ := p
        simp only [ReturnsFetched, hf] at hvalid
        simp only [StoresOutside, hf] at hstores
        obtain ⟨hr, hinv2⟩ := aligned_fetchRange pc hpc st st2 index r hf hinv
        cases hm : run pc ops st2 with
        | none => simp [run, hf, hm] at hrun
        | some q =>
          obtain ⟨rs2, st3⟩ := q
          simp only [run, hf, hm, Option.some.injEq, Prod.mk.injEq] at hrun
          have hgot2 : ∀ b ∈ r :: got, ALIGNMENT ∣ b := by
            intro b hb
            rcases List.mem_cons.mp hb with hb | hb
            · rw [hb]; exact hr
            · exact hgot b hb
          have hrest := ih st2 st3 (r :: got) rs2 hinv2 hgot2 hvalid hstores hm
          rw [← hrun.1]
          intro x hx
          rcases List.mem_cons.mp hx with hx | hx
          · rw [hx]; exact hr
          · exact hrest x hx
    | give start count index =>
      cases hf : returnRange st start count index with
      | none => simp [run, hf] at hrun
      | some st2 =>
        simp only [ReturnsFetched, hf] at hvalid
        simp only [StoresOutside, hf] at hstores
        simp only [run, hf] at hrun
        have hinv2 := aligned_returnRange st st2 start count index hf hinv
          (fun hs hi b hb => hgot b (hvalid.1 hs hi b hb))
        exact ih st2 st1 got rs hinv2 hgot hvalid.2 hstores hrun
    | write a v =>
      simp only [ReturnsFetched] at hvalid
      simp only [StoresOutside] at hstores
      simp only [run] at hrun
      have hsame : ∀ b, Linked { st with heap := store st.heap a v } b → Linked st b := by
        intro b hb
        induction hb with
        | head i hi h0 => exact Linked.head i hi h0
        | next b _ h0 ih =>
          simp only [] at h0 ⊢
          rw [store_other _ _ _ _ (hstores.1 b ih)] at h0 ⊢
          exact Linked.next b ih h0
      exact ih _ st1 got rs (fun b hb => hinv b (hsame b hb)) hgot hvalid hstores.2 hrun

theorem not_linked_of_empty (st : CentralCache)
    (h : ∀ i, i < FREE_LIST_SIZE → st.centralFreeList_ i = 0) : ∀ b, ¬ Linked st b := by
  intro b hb
  induction hb with
  | head i hi h0 => exact absurd (h i hi) h0
  | next b _ _ ih => exact ih

/-- C8, as stated, fails when a block is given back twice.  In `doubleReturnRun` every span
base is a multiple of `PAGE_SIZE`, the class lists are empty at the start and both
`returnRange` calls give back the previously fetched block `4096`.  After the second one the
block is handed out again while it is still the head of the class list; the caller, who
holds it, stores `4097` in it, and the two calls of `fetchRange` that follow return `4096`
and then `4097`, which is not a multiple of `ALIGNMENT`.  The store goes to a block that is
on a class list, so the run does not meet `StoresOutside`.  The same happens without any
`returnRange` call when the page cache answers every request with the span at `4096`: in
`reusedSpanRun` the third call carves that span again, which puts the block `20480` the
caller holds back on the class list. -/
theorem double_return_hands_out_unaligned :
    (∀ log n, PAGE_SIZE ∣ freshSpans log n) ∧
      (∀ i, i < FREE_LIST_SIZE → emptyCache.centralFreeList_ i = 0) ∧
      ReturnsFetched freshSpans doubleReturnRun emptyCache [] ∧
      (∃ st1, run freshSpans doubleReturnRun emptyCache =
          some ([4096, 4096, 4096, 4097], st1) ∧
        ¬ ALIGNMENT ∣ 4097) ∧
      ¬ StoresOutside freshSpans doubleReturnRun emptyCache ∧
      (∀ (log : List Nat) (n : Nat), PAGE_SIZE ∣ (fun _ _ => 4096 : List Nat → Nat → Nat) log n) ∧
      ReturnsFetched (fun _ _ => 4096) reusedSpanRun emptyCache [] ∧
      (∃ st1, run (fun _ _ => 4096) reusedSpanRun emptyCache =
        some ([4096, 20480, 4096, 20480, 4097], st1)) ∧
      ¬ StoresOutside (fun _ _ => 4096) reusedSpanRun emptyCache := by
  refine ⟨fun _ _ => Dvd.intro _ rfl, fun _ _ => rfl,
    And.intro (fun _ _ => by decide) (And.intro (fun _ _ => by decide) True.intro),
    ⟨_, rfl, by decide⟩, ?_, fun _ _ => Dvd.intro 1 rfl, True.intro, ⟨_, rfl⟩, ?_⟩
  · intro h
    have h1 : ∀ b, Linked _ b → Apart b 4096 := h.1
    exact absurd (h1 4096 (Linked.head 2047 (by decide) (by decide))) (by decide)
  · intro h
    have h1 : ∀ b, Linked _ b → Apart b 20480 := h.1
    exact absurd (h1 20480 (Linked.head 2047 (by decide) (by decide))) (by decide)

/-- C8 (amended): if every span base the page cache returns is a multiple of `PAGE_SIZE`,
then in a run that starts from empty class lists (flags clear), whose `returnRange` calls
give back previously fetched blocks only (single blocks or chains the caller has linked),
and in which the caller stores only to memory that is not on a class list at that moment,
every call returns and every block returned by `fetchRange` (the null result included) is a
multiple of `ALIGNMENT`. -/
theorem fetched_blocks_aligned (pc : List Nat → Nat → Nat) (ops : List Op) (st : CentralCache)
    (hpc : ∀ log n, PAGE_SIZE ∣ pc log n)
    (hempty : ∀ i, i < FREE_LIST_SIZE → st.centralFreeList_ i = 0)
    (hlocks : ∀ i, st.locks_ i = false)
    (hvalid : ReturnsFetched pc ops st []) (hstores : StoresOutside pc ops st) :
    ∃ rs st1, run pc ops st = some (rs, st1) ∧ ∀ r ∈ rs, ALIGNMENT ∣ r := by
  obtain ⟨rs, st1, hrun⟩ := run_returns pc ops st hlocks
  refine ⟨rs, st1, hrun, aligned_run pc hpc ops st st1 [] rs ?_ ?_ hvalid hstores hrun⟩
  · intro b hb
    exact absurd hb (not_linked_of_empty st hempty b)
  · intro b hb
    simp at hb

/-- Two blocks of 16384 bytes are fetched from the empty cache, the caller links the first
to the second, gives the chain of two back in one call, and fetches twice again. -/
theorem fetched_blocks_aligned_witness :
    ∃ rs st1, run freshSpans batchReturnRun emptyCache = some (rs, st1) ∧
      ∀ r ∈ rs, ALIGNMENT ∣ r :=
  fetched_blocks_aligned freshSpans batchReturnRun
    emptyCache (fun _ _ => Dvd.intro _ rfl) (fun _ _ => rfl) (fun _ => rfl)
    (And.intro (fun _ _ => by decide) True.intro)
    (And.intro
      (fun b hb => absurd hb (not_linked_of_empty _
        (fun i _ => by
          by_cases hi : i = 2047
          · subst hi; rfl
          · show setAt (setAt emptyCache.centralFreeList_ 2047 _) 2047 _ i = 0
            rw [setAt_other _ _ _ _ hi, setAt_other _ _ _ _ hi]
            rfl) b))
      True.intro)

/-- The same run evaluated: the chain the caller linked comes back whole, and the two
blocks are handed out again in chain order. -/
theorem linked_batch_returned :
    ∃ st1, run freshSpans batchReturnRun emptyCache =
      some ([4096, 20480, 4096, 20480], st1) :=
  ⟨_, rfl⟩

/-! ## Span size policy -/

/-- The rounded-up quotient is the least `m` with `a ≤ m * b`. -/
theorem ceilDiv_le_iff (a b m : Nat) (hb : 0 < b) : ceilDiv a b ≤ m ↔ a ≤ m * b := by
  unfold ceilDiv
  have hmul : (m + 1) * b = m * b + b := by ring
  have hdiv : (a + b - 1) / b < m + 1 ↔ a + b - 1 < (m + 1) * b := Nat.div_lt_iff_lt_mul hb
  constructor
  · intro h
    have h1 : a + b - 1 < (m + 1) * b := hdiv.mp (by omega)
    omega
  · intro h
    have h1 : (a + b - 1) / b < m + 1 := hdiv.mpr (by omega)
    omega

/-- Within `PAGE_SIZE` of `2^64` the sum `size + PAGE_SIZE - 1` wraps around: for the size
`2^64 - 1` the function requests `0` pages where `ceil(size / PAGE_SIZE) = 2^52`.  No caller
passes such a size (see `blockSize_in_bound`). -/
theorem fetchFromPageCache_wraps :
    1 ≤ 2 ^ 64 - 1 ∧ ¬ (2 ^ 64 - 1 ≤ SPAN_PAGES * PAGE_SIZE) ∧
      (fetchFromPageCache freshSpans emptyCache (2 ^ 64 - 1)).2.spanLog = [0] ∧
      ceilDiv (2 ^ 64 - 1) PAGE_SIZE = 2 ^ 52 ∧
      ¬ (2 ^ 64 - 1 ≤ 0 * PAGE_SIZE) := by
  refine ⟨by decide, by decide, ?_, by decide, by decide⟩
  rw [fetchFromPageCache_eq]
  have h : spanPagesFor (2 ^ 64 - 1) = 0 := by decide
  rw [h]
  rfl

/-- The block sizes `fetchRange` passes to `fetchFromPageCache` are at least 8 bytes and far
below `2^64 - PAGE_SIZE`. -/
theorem blockSize_in_bound (index : Nat) (hi : index < FREE_LIST_SIZE) :
    1 ≤ blockSize index ∧ blockSize index + PAGE_SIZE ≤ 2 ^ 64 := by
  have h1 := blockSize_ge index
  have h2 := blockSize_le index hi
  unfold MAX_BYTES at h2
  unfold PAGE_SIZE
  omega

/-- C11: for every block size with `1 ≤ size` for which `size + PAGE_SIZE` does not exceed
the range of `size_t` (every size `fetchRange` passes is such a size), the call
`fetchFromPageCache(size)` makes one request to the page cache, for `SPAN_PAGES` pages when
`size ≤ SPAN_PAGES * PAGE_SIZE` and for `ceil(size / PAGE_SIZE)` pages otherwise, and returns
its answer; in both cases the span requested is large enough for one block. -/
theorem fetchFromPageCache_pages (pc : List Nat → Nat → Nat) (st : CentralCache) (size : Nat)
    (h1 : 1 ≤ size) (h2 : size + PAGE_SIZE ≤ 2 ^ 64) :
    spanPagesFor size =
        (if size ≤ SPAN_PAGES * PAGE_SIZE then SPAN_PAGES else ceilDiv size PAGE_SIZE) ∧
      fetchFromPageCache pc st size = allocateSpan pc st (spanPagesFor size) ∧
      (fetchFromPageCache pc st size).1 = pc st.spanLog (spanPagesFor size) ∧
      (fetchFromPageCache pc st size).2.spanLog = spanPagesFor size :: st.spanLog ∧
      size ≤ spanPagesFor size * PAGE_SIZE := by
  have hpages : spanPagesFor size =
      (if size ≤ SPAN_PAGES * PAGE_SIZE then SPAN_PAGES else ceilDiv size PAGE_SIZE) := by
    unfold spanPagesFor ceilDiv
    simp only []
    have hmod : (size + PAGE_SIZE - 1) % 2 ^ 64 = size + PAGE_SIZE - 1 := by
      apply Nat.mod_eq_of_lt
      unfold PAGE_SIZE at h2 ⊢
      omega
    rw [hmod]
  refine ⟨hpages, ?_, ?_, ?_, ?_⟩
  · rw [fetchFromPageCache_eq]; rfl
  · rw [fetchFromPageCache_eq]
  · rw [fetchFromPageCache_eq]
  · rw [hpages]
    by_cases hs : size ≤ SPAN_PAGES * PAGE_SIZE
    · rw [if_pos hs]; exact hs
    · rw [if_neg hs]
      exact (ceilDiv_le_iff size PAGE_SIZE _ (by decide)).mp (Nat.le_refl _)

/-- The block size 40000 is above `SPAN_PAGES * PAGE_SIZE`: ten pages are requested. -/
theorem fetchFromPageCache_pages_witness :
    spanPagesFor 40000 =
        (if 40000 ≤ SPAN_PAGES * PAGE_SIZE then SPAN_PAGES else ceilDiv 40000 PAGE_SIZE) ∧
      fetchFromPageCache freshSpans emptyCache 40000 =
        allocateSpan freshSpans emptyCache (spanPagesFor 40000) ∧
      (fetchFromPageCache freshSpans emptyCache 40000).1 =
        freshSpans emptyCache.spanLog (spanPagesFor 40000) ∧
      (fetchFromPageCache freshSpans emptyCache 40000).2.spanLog =
        spanPagesFor 40000 :: emptyCache.spanLog ∧
      40000 ≤ spanPagesFor 40000 * PAGE_SIZE :=
  fetchFromPageCache_pages freshSpans emptyCache 40000 (by decide) (by decide)

/-! ## The spin flag -/

/-- C16: if the flag of class `index` is clear when `fetchRange` or `returnRange` is called,
the call returns, the flag is clear again afterwards, and no flag of another class has
changed; this covers every path (index out of range or null start, page cache returning
null, refill, pop, prepend). -/
theorem spin_flag_released (pc : List Nat → Nat → Nat) (st : CentralCache)
    (index start count : Nat) (hl : st.locks_ index = false) :
    (∃ r st1, fetchRange pc st index = some (r, st1) ∧ st1.locks_ index = false ∧
      ∀ j, j ≠ index → st1.locks_ j = st.locks_ j) ∧
    (∃ st2, returnRange st start count index = some st2 ∧ st2.locks_ index = false ∧
      ∀ j, j ≠ index → st2.locks_ j = st.locks_ j) := by
  constructor
  · obtain ⟨r, st1, h⟩ := fetchRange_returns pc st index (fun _ => hl)
    have hlocks := fetchRange_locks pc st st1 index r h
    exact ⟨r, st1, h, by rw [hlocks]; exact hl, fun j _ => by rw [hlocks]⟩
  · obtain ⟨st2, h⟩ := returnRange_returns st start count index (fun _ _ => hl)
    have hlocks := returnRange_locks st st2 start count index h
    exact ⟨st2, h, by rw [hlocks]; exact hl, fun j _ => by rw [hlocks]⟩

/-- The flags around a refill of class 2047 and a return to it, from the empty cache. -/
theorem spin_flag_released_witness :
    (∃ r st1, fetchRange freshSpans emptyCache 2047 = some (r, st1) ∧
      st1.locks_ 2047 = false ∧ ∀ j, j ≠ 2047 → st1.locks_ j = emptyCache.locks_ j) ∧
    (∃ st2, returnRange emptyCache 4096 1 2047 = some st2 ∧ st2.locks_ 2047 = false ∧
      ∀ j, j ≠ 2047 → st2.locks_ j = emptyCache.locks_ j) :=
  spin_flag_released freshSpans emptyCache 2047 4096 1 rfl

/-! ## Independence of the size classes -/

/-- C18, as stated, fails when the popped head of class `i` is a block of class `j`: in
`sharedLists` the call `fetchRange(0)` pops `4096` and writes null into it, although `4096`
is on the list of class 1, whose next word was `8192`.  Such a state is also reached by
calls of `fetchRange` alone when the page cache hands out the span at `4096` twice: after
the refills of class 2047 and of class 1023 the block `20480` is the head of class 2047 and
the second block of the list `12288, 20480, 28672` of class 1023, and the next call
`fetchRange(2047)` pops it and changes its next word from `28672` to null. -/
theorem fetchRange_pop_changes_shared_block :
    ((0 : Nat) ≠ 1 ∧ IsChain sharedLists.heap (sharedLists.centralFreeList_ 1) [4096, 8192] ∧
      ∃ st1, fetchRange freshSpans sharedLists 0 = some (4096, st1) ∧
        st1.spanLog = sharedLists.spanLog ∧
        4096 ∈ [4096, 8192] ∧ sharedLists.heap 4096 = 8192 ∧ st1.heap 4096 = 0) ∧
    (∃ s1 s2 s3, fetchRange (fun _ _ => 4096) emptyCache 2047 = some (4096, s1) ∧
      fetchRange (fun _ _ => 4096) s1 1023 = some (4096, s2) ∧
      (2047 : Nat) ≠ 1023 ∧
      IsChain s2.heap (s2.centralFreeList_ 1023) [12288, 20480, 28672] ∧
      s2.centralFreeList_ 2047 = 20480 ∧
      fetchRange (fun _ _ => 4096) s2 2047 = some (20480, s3) ∧
      s3.spanLog = s2.spanLog ∧ s2.heap 20480 = 28672 ∧ s3.heap 20480 = 0) :=
  ⟨⟨by decide, ⟨rfl, by decide, rfl, by decide, rfl⟩, _, rfl, rfl, by decide, rfl, rfl⟩,
    ⟨_, _, _, rfl, rfl, by decide, ⟨rfl, by decide, rfl, by decide, rfl, by decide, rfl⟩, rfl,
      rfl, rfl, rfl, rfl⟩⟩

/-- The stores of a call on class `i` touch the head of class `i` only, and no word that is
at least 8 bytes away from the popped head, outside the span handed out, or at least 8
bytes away from the last block of the walk. -/
theorem classes_frame (pc : List Nat → Nat → Nat) (st : CentralCache)
    (i j start count : Nat) (l : List Nat) (hij : i ≠ j) (hl : st.locks_ i = false) :
    (∃ r st1, fetchRange pc st i = some (r, st1) ∧
      st1.centralFreeList_ j = st.centralFreeList_ j ∧
      ((st.centralFreeList_ i ≠ 0 → ∀ b ∈ l, Apart b (st.centralFreeList_ i)) →
        (st.centralFreeList_ i = 0 → ∀ b ∈ l, b + 8 ≤ spanBase pc st i ∨
          spanBase pc st i + spanPagesFor (blockSize i) * PAGE_SIZE ≤ b) →
        ∀ b ∈ l, st1.heap b = st.heap b) ∧
      (i < FREE_LIST_SIZE → st.centralFreeList_ i ≠ 0 →
        r = st.centralFreeList_ i ∧
        st1.centralFreeList_ i = st.heap (st.centralFreeList_ i) ∧
        ∀ x, Apart x r → st1.heap x = st.heap x)) ∧
    (∃ st2, returnRange st start count i = some st2 ∧
      st2.centralFreeList_ j = st.centralFreeList_ j ∧
      ((∀ b ∈ walked st.heap count count start 1, ∀ c ∈ l, Apart b c) →
        ∀ b ∈ l, st2.heap b = st.heap b)) := by
  have hji : j ≠ i := fun h => hij h.symm
  constructor
  · by_cases hi : i < FREE_LIST_SIZE
    swap
    · refine ⟨_, _, fetchRange_refused pc st i (Nat.not_lt.mp hi), rfl, fun _ _ _ _ => rfl,
        fun h => absurd h hi⟩
    by_cases hh : st.centralFreeList_ i = 0
    · by_cases hp : spanBase pc st i = 0
      · exact ⟨_, _, fetchRange_oom pc st i hi hl hh hp, rfl, fun _ _ _ _ => rfl,
          fun _ h => absurd hh h⟩
      · by_cases hk : 1 < blockNum i
        · refine ⟨_, _, fetchRange_carve pc st i hi hl hh hp hk, setAt_other _ _ _ _ hji, ?_,
            fun _ h => absurd hh h⟩
          intro _ hspan b hb
          apply refillHeap_other _ _ _ (blockSize_ge i) _ _ _ hk
          intro k hkl
          have hsp := span_pages_small i hk
          have hout := hspan hh b hb
          rw [hsp.1] at hout
          have hks : (k + 1) * blockSize i ≤ blockNum i * blockSize i :=
            Nat.mul_le_mul_right _ hkl
          have hge := blockSize_ge i
          have hmul : (k + 1) * blockSize i = k * blockSize i + blockSize i := by ring
          show b + 8 ≤ spanBase pc st i + k * blockSize i ∨
            spanBase pc st i + k * blockSize i + 8 ≤ b
          omega
        · exact ⟨_, _, fetchRange_single pc st i hi hl hh hp (Nat.not_lt.mp hk), rfl,
            fun _ _ _ _ => rfl, fun _ h => absurd hh h⟩
    · refine ⟨_, _, fetchRange_pop pc st i hi hl hh, setAt_other _ _ _ _ hji, ?_, ?_⟩
      · intro hpop _ b hb
        exact store_other _ _ _ _ (hpop hh b hb)
      · intro _ _
        exact ⟨rfl, setAt_same _ _ _, fun x hx => store_other _ _ _ _ hx⟩
  · by_cases hs : start = 0
    · exact ⟨_, returnRange_ignored st start count i (Or.inl hs), rfl, fun _ _ _ => rfl⟩
    by_cases hi : i < FREE_LIST_SIZE
    swap
    · exact ⟨_, returnRange_ignored st start count i (Or.inr (Nat.not_lt.mp hi)), rfl,
        fun _ _ _ => rfl⟩
    refine ⟨_, returnRange_eq st start count i hs hi hl, setAt_other _ _ _ _ hji, ?_⟩
    intro hw b hb
    exact store_other _ _ _ _
      (apart_symm _ _ (hw _ (walkEnd_mem_walked st.heap count count start 1) b hb))

/-- C18 (amended): for `i ≠ j`, `fetchRange(i)` and `returnRange(start, count, i)` leave the
list head of class `j` unchanged, and leave the next word of every block of class `j`'s
list unchanged (so the list is the same chain) provided the blocks of that list are at
least 8 bytes away from the popped head, lie at least 8 bytes before or entirely behind
the span handed out, and are at least 8 bytes away from the blocks the walk of
`returnRange` passes; and `fetchRange(i)` on a non-empty class list returns the head, makes
the old head's successor the new head and changes no next word that is at least 8 bytes
away from the returned block. -/
theorem classes_independent (pc : List Nat → Nat → Nat) (st : CentralCache)
    (i j start count : Nat) (l : List Nat) (hij : i ≠ j) (hl : st.locks_ i = false)
    (hchain : IsChain st.heap (st.centralFreeList_ j) l) :
    (∃ r st1, fetchRange pc st i = some (r, st1) ∧
      st1.centralFreeList_ j = st.centralFreeList_ j ∧
      ((st.centralFreeList_ i ≠ 0 → ∀ b ∈ l, Apart b (st.centralFreeList_ i)) →
        (st.centralFreeList_ i = 0 → ∀ b ∈ l, b + 8 ≤ spanBase pc st i ∨
          spanBase pc st i + spanPagesFor (blockSize i) * PAGE_SIZE ≤ b) →
        (∀ b ∈ l, st1.heap b = st.heap b) ∧ IsChain st1.heap (st1.centralFreeList_ j) l) ∧
      (i < FREE_LIST_SIZE → st.centralFreeList_ i ≠ 0 →
        r = st.centralFreeList_ i ∧
        st1.centralFreeList_ i = st.heap (st.centralFreeList_ i) ∧
        ∀ x, Apart x r → st1.heap x = st.heap x)) ∧
    (∃ st2, returnRange st start count i = some st2 ∧
      st2.centralFreeList_ j = st.centralFreeList_ j ∧
      ((∀ b ∈ walked st.heap count count start 1, ∀ c ∈ l, Apart b c) →
        (∀ b ∈ l, st2.heap b = st.heap b) ∧ IsChain st2.heap (st2.centralFreeList_ j) l)) := by
  obtain ⟨⟨r, st1, hf, hhead, hframe, hpop⟩, ⟨st2, hr, hhead2, hframe2⟩⟩ :=
    classes_frame pc st i j start count l hij hl
  refine ⟨⟨r, st1, hf, hhead, ?_, hpop⟩, ⟨st2, hr, hhead2, ?_⟩⟩
  · intro h1 h2
    have hsame := hframe h1 h2
    refine ⟨hsame, ?_⟩
    rw [hhead]
    exact isChain_congr st.heap st1.heap l _ hsame hchain
  · intro h1
    have hsame := hframe2 h1
    refine ⟨hsame, ?_⟩
    rw [hhead2]
    exact isChain_congr st.heap st2.heap l _ hsame hchain

/-- Class 0 holds the block `4096`; class 1 is refilled from a span at `65536` and the
block `8192` is returned to it. -/
theorem classes_independent_witness :
    (∃ r st1, fetchRange (fun _ _ => 65536) onceReturned 1 = some (r, st1) ∧
      st1.centralFreeList_ 0 = onceReturned.centralFreeList_ 0 ∧
      ((onceReturned.centralFreeList_ 1 ≠ 0 →
          ∀ b ∈ [4096], Apart b (onceReturned.centralFreeList_ 1)) →
        (onceReturned.centralFreeList_ 1 = 0 → ∀ b ∈ [4096],
          b + 8 ≤ spanBase (fun _ _ => 65536) onceReturned 1 ∨
          spanBase (fun _ _ => 65536) onceReturned 1 +
            spanPagesFor (blockSize 1) * PAGE_SIZE ≤ b) →
        (∀ b ∈ [4096], st1.heap b = onceReturned.heap b) ∧
          IsChain st1.heap (st1.centralFreeList_ 0) [4096]) ∧
      (1 < FREE_LIST_SIZE → onceReturned.centralFreeList_ 1 ≠ 0 →
        r = onceReturned.centralFreeList_ 1 ∧
        st1.centralFreeList_ 1 = onceReturned.heap (onceReturned.centralFreeList_ 1) ∧
        ∀ x, Apart x r → st1.heap x = onceReturned.heap x)) ∧
    (∃ st2, returnRange onceReturned 8192 1 1 = some st2 ∧
      st2.centralFreeList_ 0 = onceReturned.centralFreeList_ 0 ∧
      ((∀ b ∈ walked onceReturned.heap 1 1 8192 1, ∀ c ∈ [4096], Apart b c) →
        (∀ b ∈ [4096], st2.heap b = onceReturned.heap b) ∧
          IsChain st2.heap (st2.centralFreeList_ 0) [4096])) :=
  classes_independent (fun _ _ => 65536) onceReturned 1 0 8192 1 [4096] (by decide) rfl
    ⟨rfl, by decide, rfl⟩

/-! ## Page demand -/

theorem length_blocksOf (start size first n : Nat) :
    (blocksOf start size first n).length = n := by
  simp [blocksOf]

theorem spanPagesFor_small (index : Nat) (hk : 1 ≤ blockNum index) :
    spanPagesFor (blockSize index) = SPAN_PAGES := by
  have hle : blockSize index ≤ SPAN_PAGES * PAGE_SIZE := by
    by_contra hc
    unfold blockNum at hk
    rw [Nat.div_eq_of_lt (Nat.not_le.mp hc)] at hk
    omega
  unfold spanPagesFor
  simp only []
  rw [if_pos hle]

/-- Counting the spans: after `n` successful calls the blocks handed out plus the blocks
still listed are the blocks listed before plus `blockNum` blocks for every span requested,
and the list holds less than one span. -/
theorem fetchMany_count (pc : List Nat → Nat → Nat) (index : Nat) (hi : index < FREE_LIST_SIZE)
    (hk1 : 1 ≤ blockNum index) :
    ∀ (n : Nat) (st st1 : CentralCache) (bs l : List Nat),
      IsChain st.heap (st.centralFreeList_ index) l → l.Pairwise Apart →
      l.length < blockNum index →
      fetchMany pc index n st = some (bs, st1) → (∀ b ∈ bs, b ≠ 0) →
      ∃ (new l1 : List Nat), st1.spanLog = new ++ st.spanLog ∧ l1.length < blockNum index ∧
        n + l1.length = l.length + new.length * blockNum index ∧
        ∀ x ∈ new, x = SPAN_PAGES := by
  intro n
  induction n with
  | zero =>
    intro st st1 bs l _ _ hlen hrun _
    simp only [fetchMany, Option.some.injEq, Prod.mk.injEq] at hrun
    refine ⟨[], l, ?_, hlen, by simp, by simp⟩
    rw [← hrun.2]; rfl
  | succ n ih =>
    intro st st1 bs l hchain hsp hlen hrun hnz
    obtain ⟨r, st2, rs, hf, hm, hbs⟩ := fetchMany_succ_inv pc index n st st1 bs hrun
    subst hbs
    have hr0 : r ≠ 0 := hnz r (List.mem_cons_self r rs)
    have hnz2 : ∀ b ∈ rs, b ≠ 0 := fun b hb => hnz b (List.mem_cons_of_mem r hb)
    have hl := fetchRange_locked pc st st2 index r hf hi
    have hpages := spanPagesFor_small index hk1
    by_cases hh : st.centralFreeList_ index = 0
    · have hl0 : l = [] := by
        cases l with
        | nil => rfl
        | cons c cs => rw [hh] at hchain; exact absurd hchain.1.symm hchain.2.1
      subst hl0
      by_cases hp : spanBase pc st index = 0
      · rw [fetchRange_oom pc st index hi hl hh hp] at hf
        simp only [Option.some.injEq, Prod.mk.injEq] at hf
        exact absurd hf.1.symm hr0
      · by_cases hk : 1 < blockNum index
        · rw [fetchRange_carve pc st index hi hl hh hp hk] at hf
          simp only [Option.some.injEq, Prod.mk.injEq] at hf
          obtain ⟨_, hst⟩ := hf
          have hchain2 := isChain_refill_list (spanBase pc st index) (blockSize index)
            (blockNum index) (blockSize_ge index) hp hk st.heap
          rw [refill_head _ _ _ (blockSize_ge index) hk] at hchain2
          obtain ⟨new, l1, hlog, hlen1, hcount, hall⟩ := ih st2 st1 rs
            (blocksOf (spanBase pc st index) (blockSize index) 1 (blockNum index - 1))
            (by rw [← hst]; simpa [setAt_same] using hchain2)
            (blocksOf_apart _ _ _ _ (blockSize_ge index))
            (by rw [length_blocksOf]; omega) hm hnz2
          rw [length_blocksOf] at hcount
          refine ⟨new ++ [SPAN_PAGES], l1, ?_, hlen1, ?_, ?_⟩
          · rw [hlog, ← hst]; simp [hpages]
          · rw [List.length_append, List.length_singleton, List.length_nil]
            have : (new.length + 1) * blockNum index =
                new.length * blockNum index + blockNum index := by ring
            omega
          · intro x hx
            rcases List.mem_append.mp hx with hx | hx
            · exact hall x hx
            · exact List.mem_singleton.mp hx
        · have hkeq : blockNum index = 1 := by omega
          rw [fetchRange_single pc st index hi hl hh hp (Nat.not_lt.mp hk)] at hf
          simp only [Option.some.injEq, Prod.mk.injEq] at hf
          obtain ⟨_, hst⟩ := hf
          obtain ⟨new, l1, hlog, hlen1, hcount, hall⟩ := ih st2 st1 rs []
            (by rw [← hst]; exact hh) List.Pairwise.nil hlen hm hnz2
          refine ⟨new ++ [SPAN_PAGES], l1, ?_, hlen1, ?_, ?_⟩
          · rw [hlog, ← hst]; simp [hpages]
          · rw [List.length_append, List.length_singleton, List.length_nil]
            rw [List.length_nil] at hcount
            rw [hkeq] at hcount ⊢
            omega
          · intro x hx
            rcases List.mem_append.mp hx with hx | hx
            · exact hall x hx
            · exact List.mem_singleton.mp hx
    · rw [fetchRange_pop pc st index hi hl hh] at hf
      simp only [Option.some.injEq, Prod.mk.injEq] at hf
      obtain ⟨_, hst⟩ := hf
      cases l with
      | nil => exact absurd hchain hh
      | cons c cs =>
        obtain ⟨hc, _, hrest⟩ := hchain
        obtain ⟨new, l1, hlog, hlen1, hcount, hall⟩ := ih st2 st1 rs cs
          (by
            rw [← hst]
            simp only [setAt_same]
            rw [hc]
            exact isChain_store_of_apart _ _ _ _ _
              (fun x hx => apart_symm _ _ ((List.pairwise_cons.mp hsp).1 x hx)) hrest)
          (List.pairwise_cons.mp hsp).2
          (by rw [List.length_cons] at hlen; omega) hm hnz2
        refine ⟨new, l1, ?_, hlen1, ?_, hall⟩
        · rw [hlog, ← hst]
        · rw [List.length_cons]; omega

/-- C12: starting from an empty class list, `N` successive successful calls of `fetchRange`
for a class with block size `s ≤ SPAN_PAGES * PAGE_SIZE` request exactly
`ceil(N / floor(SPAN_PAGES * PAGE_SIZE / s))` spans, each of `SPAN_PAGES` pages; for the
32-byte class (index 3) that is `ceil(N * 32 / (SPAN_PAGES * PAGE_SIZE))`, 98 spans for
`N = 100000`. -/
theorem span_demand (pc : List Nat → Nat → Nat) (st st1 : CentralCache) (index N : Nat)
    (bs : List Nat) (hi : index < FREE_LIST_SIZE)
    (hs : blockSize index ≤ SPAN_PAGES * PAGE_SIZE)
    (hempty : st.centralFreeList_ index = 0)
    (hrun : fetchMany pc index N st = some (bs, st1)) (hnz : ∀ b ∈ bs, b ≠ 0) :
    ∃ new, st1.spanLog = new ++ st.spanLog ∧ (∀ x ∈ new, x = SPAN_PAGES) ∧
      new.length = ceilDiv N (SPAN_PAGES * PAGE_SIZE / blockSize index) ∧
      (index = 3 → new.length = ceilDiv (N * 32) (SPAN_PAGES * PAGE_SIZE)) ∧
      (index = 3 → N = 100000 → new.length = 98) := by
  have hk1 : 1 ≤ blockNum index := (Nat.one_le_div_iff (blockSize_pos index)).mpr hs
  obtain ⟨new, l1, hlog, hlen1, hcount, hall⟩ := fetchMany_count pc index hi hk1 N st st1 bs []
    hempty List.Pairwise.nil (by simpa using hk1) hrun hnz
  rw [List.length_nil, Nat.zero_add] at hcount
  have hceil : new.length = ceilDiv N (blockNum index) := by
    unfold ceilDiv
    symm
    apply Nat.div_eq_of_lt_le
    · omega
    · have : (new.length + 1) * blockNum index =
          new.length * blockNum index + blockNum index := by ring
      omega
  refine ⟨new, hlog, hall, hceil, ?_, ?_⟩
  · intro h3
    subst h3
    have hk : blockNum 3 = 1024 := by decide
    rw [hceil, hk]
    unfold ceilDiv SPAN_PAGES PAGE_SIZE
    omega
  · intro h3 hN
    subst h3 hN
    have hk : blockNum 3 = 1024 := by decide
    rw [hceil, hk]
    decide

/-- One block of the 32-byte class fetched from the empty cache takes one span. -/
theorem span_demand_witness :
    ∃ st1, fetchMany freshSpans 3 1 emptyCache = some ([4096], st1) ∧
      ∃ new, st1.spanLog = new ++ emptyCache.spanLog ∧ (∀ x ∈ new, x = SPAN_PAGES) ∧
        new.length = ceilDiv 1 (SPAN_PAGES * PAGE_SIZE / blockSize 3) ∧
        (3 = 3 → new.length = ceilDiv (1 * 32) (SPAN_PAGES * PAGE_SIZE)) ∧
        (3 = 3 → 1 = 100000 → new.length = 98) :=
  ⟨_, rfl, span_demand freshSpans emptyCache _ 3 1 [4096]
    (by decide) (by decide) rfl rfl (by decide)⟩

/-! ## Padding in the v1 pool -/

theorem padPointer_lt (p align : Nat) (h : 0 < align) : MemoryPool.padPointer p align < align :=
  Nat.mod_lt _ h

/-- C14: for the slot size 24 of pool 2 (`(2 + 1) * 8`) and the body address `4104` of a block
at `4096`, `padPointer` answers `16` and `4104 + 16 = 4120` is not a multiple of `24` (while
`4104` itself is one): `allocateNewBlock` puts `curSlot_` at `4120`.  Only the bound
`padPointer(p, align) < align` holds for every slot size. -/
theorem padPointer_misaligns :
    HashBucket.slotSize 8 2 = 24 ∧ 24 ∣ 4104 ∧
      MemoryPool.padPointer 4104 24 = 16 ∧
      ¬ 24 ∣ 4104 + MemoryPool.padPointer 4104 24 ∧
      (MemoryPool.allocateNewBlock (fun _ _ => 4096) pool24).curSlot_ = 4120 ∧
      ¬ 24 ∣ (MemoryPool.allocateNewBlock (fun _ _ => 4096) pool24).curSlot_ ∧
      ∀ p align, 0 < align → MemoryPool.padPointer p align < align := by
  refine ⟨by decide, by decide, by decide, by decide, by decide, by decide, padPointer_lt⟩

/-- C15: for a 64-bit address and an alignment `2^k` with `k ≤ 63` the padding of
`padPointer` equals the recommended `(align - addr % align) % align`, and `addr` plus the
padding is the least multiple of the alignment that is at least `addr`. -/
theorem padPointer_power_of_two (addr align k : Nat) (haddr : addr < 2 ^ 64)
    (hk : k ≤ 63) (halign : align = 2 ^ k) :
    MemoryPool.padPointer addr align = padRecommended addr align ∧
      align ∣ addr + MemoryPool.padPointer addr align ∧
      ∀ m, align ∣ m → addr ≤ m → addr + MemoryPool.padPointer addr align ≤ m := by
  have hpos : 0 < align := by rw [halign]; exact Nat.pow_pos (by decide)
  have hdvd : align ∣ 2 ^ 64 := by rw [halign]; exact pow_dvd_pow 2 (by omega)
  have hrec : align ∣ addr + padRecommended addr align := by
    unfold padRecommended
    by_cases h0 : addr % align = 0
    · rw [h0, Nat.sub_zero, Nat.mod_self, Nat.add_zero]
      exact Nat.dvd_of_mod_eq_zero h0
    · have hlt : addr % align < align := Nat.mod_lt _ hpos
      rw [Nat.mod_eq_of_lt (by omega)]
      have hsplit : addr = align * (addr / align) + addr % align := (Nat.div_add_mod _ _).symm
      have : addr + (align - addr % align) = align * (addr / align + 1) := by
        rw [Nat.mul_add, Nat.mul_one]; omega
      rw [this]
      exact Nat.dvd_mul_right _ _
  have heq : MemoryPool.padPointer addr align = padRecommended addr align := by
    have h1 : MemoryPool.padPointer addr align = (align + (2 ^ 64 - addr)) % align := by
      unfold MemoryPool.padPointer
      rw [Nat.mod_eq_of_lt haddr, Nat.mod_mod_of_dvd _ hdvd]
    have h2 : padRecommended addr align = padRecommended addr align % align := by
      unfold padRecommended
      rw [Nat.mod_mod]
    rw [h1, h2]
    have hmod : Nat.ModEq align (align + (2 ^ 64 - addr) + addr)
        (padRecommended addr align + addr) := by
      have hl : (align + (2 ^ 64 - addr) + addr) % align = 0 := by
        have : align + (2 ^ 64 - addr) + addr = align + 2 ^ 64 := by omega
        rw [this]
        exact Nat.mod_eq_zero_of_dvd (Nat.dvd_add (Nat.dvd_refl _) hdvd)
      have hr : (padRecommended addr align + addr) % align = 0 := by
        rw [Nat.add_comm]
        exact Nat.mod_eq_zero_of_dvd hrec
      unfold Nat.ModEq
      rw [hl, hr]
    exact Nat.ModEq.add_right_cancel' addr hmod
  rw [heq]
  refine ⟨rfl, hrec, ?_⟩
  intro m hm hle
  have hlt : padRecommended addr align < align := Nat.mod_lt _ hpos
  by_contra hc
  have hgap : align ∣ addr + padRecommended addr align - m := Nat.dvd_sub' hrec hm
  have hzero : addr + padRecommended addr align - m = 0 :=
    Nat.eq_zero_of_dvd_of_lt hgap (by omega)
  omega

/-- The address `4104` and the alignment `16`. -/
theorem padPointer_power_of_two_witness :
    MemoryPool.padPointer 4104 16 = padRecommended 4104 16 ∧
      16 ∣ 4104 + MemoryPool.padPointer 4104 16 ∧
      ∀ m, 16 ∣ m → 4104 ≤ m → 4104 + MemoryPool.padPointer 4104 16 ≤ m :=
  padPointer_power_of_two 4104 16 4 (by decide) (by decide) (by decide)

/-! ## The free list of the v1 pool -/

theorem deallocate_eq (st : MemoryPool) (p : Nat) (hp : p ≠ 0) :
    st.deallocate p = { st with heap := store st.heap p st.freeList_, freeList_ := p } := by
  unfold MemoryPool.deallocate
  rw [if_pos hp]

theorem allocate_pop (opNew : List Nat → Nat → Nat) (st : MemoryPool)
    (h : st.freeList_ ≠ 0) :
    MemoryPool.allocate opNew st =
      (st.freeList_, { st with freeList_ := st.heap st.freeList_ }) := by
  unfold MemoryPool.allocate
  simp only []
  rw [if_pos h, if_pos h]

theorem allocate_fromBlock (opNew : List Nat → Nat → Nat) (st : MemoryPool)
    (h : st.freeList_ = 0) (hc : st.curSlot_ < st.lastSlot_) :
    MemoryPool.allocate opNew st =
      (st.curSlot_,
        { st with curSlot_ := st.curSlot_ + (st.SlotSize_ / sizeofSlot) * sizeofSlot }) := by
  unfold MemoryPool.allocate
  simp only []
  rw [if_neg (not_not.mpr h), if_neg (Nat.not_le.mpr hc)]

theorem allocate_newBlock (opNew : List Nat → Nat → Nat) (st : MemoryPool)
    (h : st.freeList_ = 0) (hc : st.lastSlot_ ≤ st.curSlot_) :
    MemoryPool.allocate opNew st =
      ((MemoryPool.allocateNewBlock opNew st).curSlot_,
        { MemoryPool.allocateNewBlock opNew st with
          curSlot_ := (MemoryPool.allocateNewBlock opNew st).curSlot_ +
            ((MemoryPool.allocateNewBlock opNew st).SlotSize_ / sizeofSlot) * sizeofSlot }) := by
  unfold MemoryPool.allocate
  simp only []
  rw [if_neg (not_not.mpr h), if_pos hc]

/-- Freeing non-null slots that are at least 8 bytes apart pushes them onto the free list,
changing nothing but their own link words and the list head. -/
theorem deallocateAll_pushes :
    ∀ (ps : List Nat) (st : MemoryPool), (∀ p ∈ ps, p ≠ 0) → ps.Pairwise Apart →
      IsSeg (MemoryPool.deallocateAll ps st).heap (MemoryPool.deallocateAll ps st).freeList_
          ps.reverse st.freeList_ ∧
        (∀ x, (∀ p ∈ ps, Apart x p) → (MemoryPool.deallocateAll ps st).heap x = st.heap x) ∧
        (MemoryPool.deallocateAll ps st).curSlot_ = st.curSlot_ ∧
        (MemoryPool.deallocateAll ps st).lastSlot_ = st.lastSlot_ ∧
        (MemoryPool.deallocateAll ps st).firstBlock_ = st.firstBlock_ ∧
        (MemoryPool.deallocateAll ps st).newLog = st.newLog ∧
        (MemoryPool.deallocateAll ps st).SlotSize_ = st.SlotSize_ ∧
        (MemoryPool.deallocateAll ps st).BlockSize_ = st.BlockSize_ := by
  intro ps
  induction ps with
  | nil =>
    intro st _ _
    exact ⟨rfl, fun _ _ => rfl, rfl, rfl, rfl, rfl, rfl, rfl⟩
  | cons p ps ih =>
    intro st hnz hnd
    have hp : p ≠ 0 := hnz p (List.mem_cons_self p ps)
    obtain ⟨hpn, hnd1⟩ := List.pairwise_cons.mp hnd
    obtain ⟨hseg, hframe, h1, h2, h3, h4, h5, h6⟩ :=
      ih (st.deallocate p) (fun x hx => hnz x (List.mem_cons_of_mem p hx)) hnd1
    rw [deallocate_eq st p hp] at hseg hframe h1 h2 h3 h4 h5 h6
    simp only [MemoryPool.deallocateAll]
    rw [deallocate_eq st p hp]
    refine ⟨?_, ?_, h1, h2, h3, h4, h5, h6⟩
    · rw [List.reverse_cons]
      apply isSeg_snoc _ _ _ hp _ _ _ hseg
      rw [hframe p hpn]
      exact store_same _ _ _
    · intro x hx
      rw [hframe x (fun c hc => hx c (List.mem_cons_of_mem p hc))]
      exact store_other _ _ _ _ (hx p (List.mem_cons_self p ps))

/-- Allocating along a stretch of the free list returns its slots in order and writes
nothing. -/
theorem allocateMany_pops (opNew : List Nat → Nat → Nat) (q : Nat) :
    ∀ (l : List Nat) (st : MemoryPool), IsSeg st.heap st.freeList_ l q →
      MemoryPool.allocateMany opNew l.length st = (l, { st with freeList_ := q }) := by
  intro l
  induction l with
  | nil =>
    intro st hseg
    have hq : st.freeList_ = q := hseg
    subst hq
    rfl
  | cons b bs ih =>
    intro st hseg
    obtain ⟨hb, hb0, hrest⟩ := hseg
    have hne : st.freeList_ ≠ 0 := by rw [hb]; exact hb0
    simp only [List.length_cons, MemoryPool.allocateMany]
    rw [allocate_pop opNew st hne]
    have hstep := ih { st with freeList_ := st.heap st.freeList_ } (by rw [hb]; exact hrest)
    simp only [] at hstep ⊢
    rw [hstep, hb]

/-- C13, as stated, fails for a slot that is already on the free list: in `freedOnce` the
free list is the single slot `4104`; after `deallocate(4104)` the call `allocate()` returns
`4104` and leaves `4104` as the head with its own address as link word, so the free list is
not the list `[4104]` it was, and the next calls of `allocate()` return `4104` again and
again where they returned `4104, 4112, 4120` before. -/
theorem deallocate_twice_cycles :
    [4104].Nodup ∧ (∀ p ∈ [4104], p ≠ 0) ∧
      IsChain freedOnce.heap freedOnce.freeList_ [4104] ∧
      (MemoryPool.allocateMany (fun _ _ => 4096) 1
        (MemoryPool.deallocateAll [4104] freedOnce)).1 = [4104] ∧
      (MemoryPool.allocateMany (fun _ _ => 4096) 1
        (MemoryPool.deallocateAll [4104] freedOnce)).2.freeList_ = 4104 ∧
      (MemoryPool.allocateMany (fun _ _ => 4096) 1
        (MemoryPool.deallocateAll [4104] freedOnce)).2.heap 4104 = 4104 ∧
      ¬ IsChain (MemoryPool.allocateMany (fun _ _ => 4096) 1
          (MemoryPool.deallocateAll [4104] freedOnce)).2.heap
        (MemoryPool.allocateMany (fun _ _ => 4096) 1
          (MemoryPool.deallocateAll [4104] freedOnce)).2.freeList_ [4104] ∧
      (MemoryPool.allocateMany (fun _ _ => 4096) 3 freedOnce).1 = [4104, 4112, 4120] ∧
      (MemoryPool.allocateMany (fun _ _ => 4096) 3
        (MemoryPool.allocateMany (fun _ _ => 4096) 1
          (MemoryPool.deallocateAll [4104] freedOnce)).2).1 = [4104, 4104, 4104] := by
  refine ⟨by decide, by decide, ⟨rfl, by decide, rfl⟩, rfl, rfl, rfl, ?_, by decide, by decide⟩
  intro h
  have hnext : (MemoryPool.allocateMany (fun _ _ => 4096) 1
      (MemoryPool.deallocateAll [4104] freedOnce)).2.heap 4104 = 0 := h.2.2
  exact absurd hnext (by decide)

/-- C13 (amended): for non-null slots `p1..pk` that are at least 8 bytes apart from one
another and from every slot on the free list `l` (so they are pairwise distinct, none is on
the free list and no link word overlaps another), after
`deallocate(p1), ..., deallocate(pk)` the next `k` calls of `allocate()` return
`pk, ..., p1` in that order, request no block and leave `curSlot_`, `lastSlot_` and
`firstBlock_` unchanged, and leave the free list as it was: the same head and the same list
`l`, no word at least 8 bytes away from `p1..pk` changed; `deallocate(nullptr)` changes
nothing. -/
theorem lifo_reuse (opNew : List Nat → Nat → Nat) (st : MemoryPool) (ps l : List Nat)
    (hnz : ∀ p ∈ ps, p ≠ 0) (hnd : ps.Pairwise Apart)
    (hchain : IsChain st.heap st.freeList_ l) (hout : ∀ p ∈ ps, ∀ c ∈ l, Apart p c) :
    (∃ st2, MemoryPool.allocateMany opNew ps.length (MemoryPool.deallocateAll ps st) =
        (ps.reverse, st2) ∧
      st2.curSlot_ = st.curSlot_ ∧ st2.lastSlot_ = st.lastSlot_ ∧
      st2.firstBlock_ = st.firstBlock_ ∧ st2.newLog = st.newLog ∧
      st2.SlotSize_ = st.SlotSize_ ∧ st2.BlockSize_ = st.BlockSize_ ∧
      st2.freeList_ = st.freeList_ ∧ IsChain st2.heap st2.freeList_ l ∧
      ∀ x, (∀ p ∈ ps, Apart x p) → st2.heap x = st.heap x) ∧
    st.deallocate 0 = st := by
  obtain ⟨hseg, hframe, h1, h2, h3, h4, h5, h6⟩ := deallocateAll_pushes ps st hnz hnd
  have hpops := allocateMany_pops opNew st.freeList_ ps.reverse
    (MemoryPool.deallocateAll ps st) hseg
  rw [List.length_reverse] at hpops
  refine ⟨⟨_, hpops, h1, h2, h3, h4, h5, h6, rfl, ?_, hframe⟩, ?_⟩
  · apply isChain_congr st.heap _ l _ _ hchain
    intro b hb
    exact hframe b (fun p hp => apart_symm _ _ (hout p hp b hb))
  · unfold MemoryPool.deallocate
    rw [if_neg (by simp)]

/-- The slots `4112` and `4120` are freed into `freedOnce`, whose free list is `[4104]`. -/
theorem lifo_reuse_witness :
    (∃ st2, MemoryPool.allocateMany (fun _ _ => 4096) [4112, 4120].length
        (MemoryPool.deallocateAll [4112, 4120] freedOnce) = ([4112, 4120].reverse, st2) ∧
      st2.curSlot_ = freedOnce.curSlot_ ∧ st2.lastSlot_ = freedOnce.lastSlot_ ∧
      st2.firstBlock_ = freedOnce.firstBlock_ ∧ st2.newLog = freedOnce.newLog ∧
      st2.SlotSize_ = freedOnce.SlotSize_ ∧ st2.BlockSize_ = freedOnce.BlockSize_ ∧
      st2.freeList_ = freedOnce.freeList_ ∧ IsChain st2.heap st2.freeList_ [4104] ∧
      ∀ x, (∀ p ∈ [4112, 4120], Apart x p) → st2.heap x = freedOnce.heap x) ∧
    freedOnce.deallocate 0 = freedOnce :=
  lifo_reuse (fun _ _ => 4096) freedOnce [4112, 4120] [4104] (by decide) (by decide)
    ⟨rfl, by decide, rfl⟩ (by decide)

/-! ## Fresh slots of the v1 pool -/

theorem init_inBlock (st : MemoryPool) (size : Nat) :
    (st.init size).InBlock ∧ (st.init size).freeList_ = 0 ∧
      (st.init size).SlotSize_ = size ∧ (st.init size).BlockSize_ = st.BlockSize_ :=
  ⟨Or.inl (Nat.le_refl _), rfl, rfl, rfl⟩

/-- C17: for a slot size `S` that is a positive multiple of `sizeof(Slot)` and a block size
`B ≥ 2 * S + 7`, with an empty free list the pointer `t` returned by `allocate()` lies in
the current block `b`: `b + 8 ≤ t` and `t + S ≤ b + B`; `curSlot_` moves to `t + S`, so the
next allocation from the same block is exactly `S` bytes further; a new block is requested
exactly when `curSlot_ ≥ lastSlot_`, and `lastSlot_ = b + B - S + 1`.  The pool is assumed
to be in the state `InBlock`, which holds after `init` and which the call preserves, and
the block `operator new` returns lies in the 64-bit address space. -/
theorem fresh_slots (opNew : List Nat → Nat → Nat) (st : MemoryPool)
    (hS8 : sizeofSlot ∣ st.SlotSize_) (hS0 : 0 < st.SlotSize_)
    (hB : 2 * st.SlotSize_ + 7 ≤ st.BlockSize_) (hfree : st.freeList_ = 0)
    (hin : st.InBlock) (hvalid : opNew st.newLog st.BlockSize_ + st.BlockSize_ ≤ 2 ^ 64) :
    ∃ t st1, MemoryPool.allocate opNew st = (t, st1) ∧
      st1.firstBlock_ + sizeofSlot ≤ t ∧ t + st.SlotSize_ ≤ st1.firstBlock_ + st.BlockSize_ ∧
      st1.curSlot_ = t + st.SlotSize_ ∧
      st1.lastSlot_ = st1.firstBlock_ + st.BlockSize_ - st.SlotSize_ + 1 ∧
      (st.lastSlot_ ≤ st.curSlot_ → st1.newLog = st.BlockSize_ :: st.newLog ∧
        st1.firstBlock_ = opNew st.newLog st.BlockSize_) ∧
      (st.curSlot_ < st.lastSlot_ → st1.newLog = st.newLog ∧
        st1.firstBlock_ = st.firstBlock_ ∧ t = st.curSlot_) ∧
      st1.freeList_ = 0 ∧ st1.InBlock ∧
      st1.SlotSize_ = st.SlotSize_ ∧ st1.BlockSize_ = st.BlockSize_ ∧
      (st1.curSlot_ < st1.lastSlot_ →
        (MemoryPool.allocate opNew st1).1 = t + st.SlotSize_ ∧
        (MemoryPool.allocate opNew st1).2.firstBlock_ = st1.firstBlock_ ∧
        (MemoryPool.allocate opNew st1).2.newLog = st1.newLog) := by
  have hstep : (st.SlotSize_ / sizeofSlot) * sizeofSlot = st.SlotSize_ :=
    Nat.div_mul_cancel hS8
  have h8 : sizeofSlot = 8 := rfl
  have hS8le : sizeofSlot ≤ st.SlotSize_ := Nat.le_of_dvd hS0 hS8
  by_cases hc : st.lastSlot_ ≤ st.curSlot_
  · have hpad := padPointer_lt (opNew st.newLog st.BlockSize_ + sizeofSlot) st.SlotSize_ hS0
    have hlast : (opNew st.newLog st.BlockSize_ + st.BlockSize_ +
        (2 ^ 64 - st.SlotSize_ % 2 ^ 64) + 1) % 2 ^ 64 =
        opNew st.newLog st.BlockSize_ + st.BlockSize_ - st.SlotSize_ + 1 := by
      have hSlt : st.SlotSize_ % 2 ^ 64 = st.SlotSize_ := Nat.mod_eq_of_lt (by omega)
      rw [hSlt]
      omega
    have hcur : (MemoryPool.allocateNewBlock opNew st).curSlot_ =
        opNew st.newLog st.BlockSize_ + sizeofSlot +
          MemoryPool.padPointer (opNew st.newLog st.BlockSize_ + sizeofSlot) st.SlotSize_ := rfl
    have hfirst : (MemoryPool.allocateNewBlock opNew st).firstBlock_ =
        opNew st.newLog st.BlockSize_ := rfl
    refine ⟨_, _, allocate_newBlock opNew st hfree hc, ?_, ?_,
      congrArg (fun x => (MemoryPool.allocateNewBlock opNew st).curSlot_ + x) hstep, hlast,
      fun _ => ⟨rfl, rfl⟩, fun h => absurd hc (Nat.not_le.mpr h), rfl, Or.inr ⟨hlast, ?_⟩,
      rfl, rfl, ?_⟩
    · show (MemoryPool.allocateNewBlock opNew st).firstBlock_ + sizeofSlot ≤
        (MemoryPool.allocateNewBlock opNew st).curSlot_
      rw [hcur, hfirst]
      exact Nat.le_add_right _ _
    · show (MemoryPool.allocateNewBlock opNew st).curSlot_ + st.SlotSize_ ≤
        (MemoryPool.allocateNewBlock opNew st).firstBlock_ + st.BlockSize_
      rw [hcur, hfirst]
      omega
    · show (MemoryPool.allocateNewBlock opNew st).firstBlock_ + sizeofSlot ≤
        (MemoryPool.allocateNewBlock opNew st).curSlot_ +
          (st.SlotSize_ / sizeofSlot) * sizeofSlot
      rw [hcur, hfirst]
      exact Nat.le_trans (Nat.le_add_right _ _) (Nat.le_add_right _ _)
    · intro hlt
      rw [allocate_fromBlock opNew _ rfl hlt]
      exact ⟨congrArg (fun x => (MemoryPool.allocateNewBlock opNew st).curSlot_ + x) hstep,
        rfl, rfl⟩
  · have hlt : st.curSlot_ < st.lastSlot_ := Nat.not_le.mp hc
    rcases hin with hin | ⟨hlast, hcur⟩
    · exact absurd hin hc
    refine ⟨_, _, allocate_fromBlock opNew st hfree hlt, hcur, ?_,
      congrArg (fun x => st.curSlot_ + x) hstep, hlast, fun h => absurd h hc,
      fun _ => ⟨rfl, rfl, rfl⟩, hfree,
      Or.inr ⟨hlast, Nat.le_trans hcur (Nat.le_add_right _ _)⟩, rfl, rfl, ?_⟩
    · show st.curSlot_ + st.SlotSize_ ≤ st.firstBlock_ + st.BlockSize_
      omega
    · intro hlt1
      rw [allocate_fromBlock opNew
        { st with curSlot_ := st.curSlot_ + (st.SlotSize_ / sizeofSlot) * sizeofSlot }
        hfree hlt1]
      exact ⟨congrArg (fun x => st.curSlot_ + x) hstep, rfl, rfl⟩

/-- The first allocation of `pool24` takes a block at `4096`. -/
theorem fresh_slots_witness :
    ∃ t st1, MemoryPool.allocate (fun _ _ => 4096) pool24 = (t, st1) ∧
      st1.firstBlock_ + sizeofSlot ≤ t ∧
      t + pool24.SlotSize_ ≤ st1.firstBlock_ + pool24.BlockSize_ ∧
      st1.curSlot_ = t + pool24.SlotSize_ ∧
      st1.lastSlot_ = st1.firstBlock_ + pool24.BlockSize_ - pool24.SlotSize_ + 1 ∧
      (pool24.lastSlot_ ≤ pool24.curSlot_ → st1.newLog = pool24.BlockSize_ :: pool24.newLog ∧
        st1.firstBlock_ = (fun _ _ => 4096) pool24.newLog pool24.BlockSize_) ∧
      (pool24.curSlot_ < pool24.lastSlot_ → st1.newLog = pool24.newLog ∧
        st1.firstBlock_ = pool24.firstBlock_ ∧ t = pool24.curSlot_) ∧
      st1.freeList_ = 0 ∧ st1.InBlock ∧
      st1.SlotSize_ = pool24.SlotSize_ ∧ st1.BlockSize_ = pool24.BlockSize_ ∧
      (st1.curSlot_ < st1.lastSlot_ →
        (MemoryPool.allocate (fun _ _ => 4096) st1).1 = t + pool24.SlotSize_ ∧
        (MemoryPool.allocate (fun _ _ => 4096) st1).2.firstBlock_ = st1.firstBlock_ ∧
        (MemoryPool.allocate (fun _ _ => 4096) st1).2.newLog = st1.newLog) :=
  fresh_slots (fun _ _ => 4096) pool24 (by decide) (by decide) (by decide) rfl
    (init_inBlock _ _).1 (by decide)

end Kama_memoryPool
